import Mathlib

/-!
LevelDB LRU cache (`util/cache.cc`).

A shallow embedding of the cache engine of `util/cache.cc`: the hand-written hash table
`HandleTable`, one LRU shard `LRUCache`, and the sharding layer `ShardedLRUCache`.

Representation.

* A heap-allocated `LRUHandle` is addressed by a natural number (`Ptr`); the allocated
  handles form a partial map `Heap`.  `free(e)` removes the address from the map.
* The intrusive singly linked bucket chains (`next_hash`) are lists of addresses, head of
  the chain first; the bucket array `list_` is the list of its chains.
* The circular doubly linked LRU list around the dummy node `lru_` is the list of the
  addresses met when following `next` from `lru_.next` (oldest) up to `lru_.prev` (newest).
* Machine integers are natural numbers; every arithmetic step that can wrap carries its
  modulus (`2^32` for `uint32_t`, `2^64` for `size_t` and `uint64_t`).
* A function that can abort on `assert`, or loop forever, returns an `Option`; `none`
  stands for "does not return normally".
* Each call of a deleter is appended to a log kept in the shard state.
-/

namespace leveldb

/-- Address of a heap-allocated `LRUHandle`. -/
abbrev Ptr := Nat

/-- Byte string (`Slice`): the list of its bytes. -/
abbrev Slice := List Nat

/-- The modulus of `uint32_t` arithmetic. -/
def two32 : Nat := 4294967296

/-- The modulus of `size_t` and `uint64_t` arithmetic. -/
def two64 : Nat := 18446744073709551616

/-- The fields of `struct LRUHandle` other than the three links `next_hash`, `next`, `prev`,
which are carried by the chain lists and the LRU list.  `value` and `deleter` are the
addresses stored in the two pointer fields; `key_data` holds the `key_length` key bytes. -/
structure LRUHandle where
  value : Nat
  deleter : Nat
  charge : Nat
  key_data : Slice
  refs : Nat
  hash : Nat
  deriving DecidableEq

/-- The method `LRUHandle::key()`.  The branch `next == this` of the source is taken only by
a temporary handle that is in no list; every handle created by `LRUCache::Insert` has
`next` pointing to another node, so the key is the stored `key_data`. -/
def LRUHandle.key (h : LRUHandle) : Slice := h.key_data

/-- The handle after one `Unref` that does not free it. -/
def LRUHandle.unref (h : LRUHandle) : LRUHandle := { h with refs := h.refs - 1 }

/-- The allocated handles. -/
abbrev Heap := Ptr → Option LRUHandle

/-- Store `h` at address `p`. -/
def Heap.store (heap : Heap) (p : Ptr) (h : LRUHandle) : Heap :=
  fun q => if q = p then some h else heap q

/-- Release address `p` (`free`). -/
def Heap.free (heap : Heap) (p : Ptr) : Heap :=
  fun q => if q = p then none else heap q

/-- One record per call `(*e->deleter)(e->key(), e->value)`. -/
structure DeleterCall where
  entry : Ptr
  deleter : Nat
  key : Slice
  value : Nat
  deriving DecidableEq

/-! ## HandleTable -/

/-- The class `HandleTable`: `list_` has `length_` slots, each the chain of one bucket. -/
structure HandleTable where
  length_ : Nat
  elems_ : Nat
  list_ : List (List Ptr)

/-- The test under which the loop of `FindPointer` stops at a node: the node's hash equals
`hash` and its key equals `key`.  (A dangling address never matches.) -/
def entryMatches (heap : Heap) (key : Slice) (hash : Nat) (p : Ptr) : Bool :=
  match heap p with
  | some h => decide (h.hash = hash) && decide (key = h.key)
  | none => false

/-- The number of `next_hash` steps the `while` loop of `FindPointer` takes along a
chain: it advances while the current node exists and does not match. -/
def chainWalk (heap : Heap) (key : Slice) (hash : Nat) : List Ptr → Nat
  | [] => 0
  | p :: rest => if entryMatches heap key hash p then 0 else chainWalk heap key hash rest + 1

/-- The bucket index `hash & (length_ - 1)`, the subtraction being `uint32_t` arithmetic. -/
def HandleTable.bucket (t : HandleTable) (hash : Nat) : Nat :=
  hash &&& ((t.length_ + (two32 - 1)) % two32)

/-- The chain of bucket `i`. -/
def HandleTable.chain (t : HandleTable) (i : Nat) : List Ptr := t.list_.getD i []

/-- The method `HandleTable::FindPointer`.  The returned slot (`LRUHandle**`) is given by the
bucket and the position in its chain; position `chain.length` is the trailing slot. -/
def HandleTable.FindPointer (t : HandleTable) (heap : Heap) (key : Slice) (hash : Nat) :
    Nat × Nat :=
  (t.bucket hash, chainWalk heap key hash (t.chain (t.bucket hash)))

/-- The handle stored in a slot (`*ptr`), `none` for `NULL`. -/
def HandleTable.deref (t : HandleTable) (slot : Nat × Nat) : Option Ptr :=
  (t.chain slot.1)[slot.2]?

/-- The method `HandleTable::Lookup`. -/
def HandleTable.Lookup (t : HandleTable) (heap : Heap) (key : Slice) (hash : Nat) :
    Option Ptr :=
  t.deref (t.FindPointer heap key hash)

/-- The first loop of `Resize`: `new_length` starts at 4 and doubles (in `uint32_t`) while
it is below `elems_`.  `fuel` bounds the number of iterations looked at. -/
def newLengthLoop : Nat → Nat → Nat → Option Nat
  | 0, _, _ => none
  | fuel + 1, new_length, elems =>
    if new_length < elems then newLengthLoop fuel ((new_length * 2) % two32) elems
    else some new_length

/-- The body of the inner loop of `Resize` for one node `h`: it becomes the head of
the chain of its bucket in the new array. -/
def rehashStep (heap : Heap) (new_length : Nat) (new_list : List (List Ptr)) (h : Ptr) :
    List (List Ptr) :=
  match heap h with
  | some hd =>
    let b := hd.hash &&& (new_length - 1)
    new_list.set b (h :: new_list.getD b [])
  | none => new_list

/-- The method `HandleTable::Resize`.  After 32 iterations of the first loop `new_length`
is `0` and stays `0`, so a loop that has not stopped by then never stops: `none`.  The
nodes are visited bucket by bucket, each chain from its head.  `none` also when
`assert(elems_ == count)` fails. -/
def HandleTable.Resize (t : HandleTable) (heap : Heap) : Option HandleTable :=
  match newLengthLoop 32 4 t.elems_ with
  | none => none
  | some new_length =>
    let new_list := t.list_.flatten.foldl (rehashStep heap new_length)
      (List.replicate new_length [])
    let count := t.list_.flatten.length % two32
    if t.elems_ = count then
      some { length_ := new_length, elems_ := t.elems_, list_ := new_list }
    else none

/-- The constructor `HandleTable()`: `length_ = 0`, `elems_ = 0`, `list_ = NULL`, then
`Resize()`. -/
def HandleTable.new : HandleTable :=
  ((HandleTable.mk 0 0 []).Resize (fun _ => none)).getD (HandleTable.mk 0 0 [])

/-- The method `HandleTable::Insert`.  When the slot found holds a node, `h` takes its place
in the chain (`h->next_hash = old->next_hash; *ptr = h`); otherwise the slot is the trailing
one and `h` is linked there with `next_hash = NULL`. -/
def HandleTable.Insert (t : HandleTable) (heap : Heap) (h : Ptr) :
    Option (Option Ptr × HandleTable) :=
  match heap h with
  | none => none
  | some hd =>
    let slot := t.FindPointer heap hd.key hd.hash
    match t.deref slot with
    | some old =>
      some (some old, { t with list_ := t.list_.set slot.1 ((t.chain slot.1).set slot.2 h) })
    | none =>
      let t1 : HandleTable :=
        { t with list_ := t.list_.set slot.1 (t.chain slot.1 ++ [h]),
                 elems_ := (t.elems_ + 1) % two32 }
      if t1.elems_ > t1.length_ then
        (t1.Resize heap).map (fun t2 => (none, t2))
      else some (none, t1)

/-- The method `HandleTable::Remove`. -/
def HandleTable.Remove (t : HandleTable) (heap : Heap) (key : Slice) (hash : Nat) :
    Option Ptr × HandleTable :=
  let slot := t.FindPointer heap key hash
  match t.deref slot with
  | some result =>
    (some result,
      { t with list_ := t.list_.set slot.1 ((t.chain slot.1).eraseIdx slot.2),
               elems_ := (t.elems_ + (two32 - 1)) % two32 })
  | none => (none, t)

/-! ## LRUCache: one shard -/

/-- The class `LRUCache` (without its mutex), together with the heap of its handles and
the log of the deleter calls made so far. -/
structure LRUCache where
  capacity_ : Nat
  usage_ : Nat
  last_id_ : Nat
  lru_ : List Ptr
  table_ : HandleTable
  heap : Heap
  deleted : List DeleterCall

/-- The constructor `LRUCache()`.  `capacity_` is not initialised by it; the model starts it
at `0` and `SetCapacity` is called before any use. -/
def LRUCache.new : LRUCache :=
  { capacity_ := 0, usage_ := 0, last_id_ := 0, lru_ := [], table_ := HandleTable.new,
    heap := fun _ => none, deleted := [] }

/-- The method `LRUCache::SetCapacity`. -/
def LRUCache.SetCapacity (s : LRUCache) (capacity : Nat) : LRUCache :=
  { s with capacity_ := capacity }

/-- The method `LRUCache::Unref`.  `none` when `assert(e->refs > 0)` fails or `e` is not
allocated. -/
def LRUCache.Unref (s : LRUCache) (e : Ptr) : Option LRUCache :=
  match s.heap e with
  | none => none
  | some h =>
    if h.refs = 0 then none
    else if h.refs - 1 = 0 then
      some { s with usage_ := (s.usage_ + (two64 - h.charge % two64)) % two64,
                    deleted := s.deleted ++ [⟨e, h.deleter, h.key, h.value⟩],
                    heap := s.heap.free e }
    else
      some { s with heap := s.heap.store e { h with refs := h.refs - 1 } }

/-- The method `LRUCache::LRU_Remove`: `e` is unlinked from the list. -/
def LRUCache.LRU_Remove (s : LRUCache) (e : Ptr) : LRUCache :=
  { s with lru_ := s.lru_.erase e }

/-- The method `LRUCache::LRU_Append`: `e` becomes the newest entry, just before `lru_`. -/
def LRUCache.LRU_Append (s : LRUCache) (e : Ptr) : LRUCache :=
  { s with lru_ := s.lru_ ++ [e] }

/-- The method `LRUCache::Lookup` (its definition is spelled `Loovkup` in the file).
Returns the handle (`none` for `NULL`) and the new state. -/
def LRUCache.Lookup (s : LRUCache) (key : Slice) (hash : Nat) : Option Ptr × LRUCache :=
  match s.table_.Lookup s.heap key hash with
  | none => (none, s)
  | some e =>
    match s.heap e with
    | none => (some e, s)
    | some h =>
      let s1 : LRUCache := { s with heap := s.heap.store e { h with refs := (h.refs + 1) % two32 } }
      (some e, (s1.LRU_Remove e).LRU_Append e)

/-- The method `LRUCache::Release`. -/
def LRUCache.Release (s : LRUCache) (handle : Ptr) : Option LRUCache :=
  s.Unref handle

/-- One iteration of the eviction loop of `Insert` on the oldest entry `old = lru_.next`. -/
def LRUCache.evictOne (s : LRUCache) (old : Ptr) : Option LRUCache :=
  let s1 := s.LRU_Remove old
  match s1.heap old with
  | none => none
  | some h =>
    let s2 : LRUCache := { s1 with table_ := (s1.table_.Remove s1.heap h.key h.hash).2 }
    s2.Unref old

/-- The eviction loop `while (usage_ > capacity_ && lru_.next != &lru_)` of `Insert`, run
for at most `fuel` iterations; `none` when an iteration aborts or `fuel` iterations do not
end the loop. -/
def LRUCache.evictLoop : Nat → LRUCache → Option LRUCache
  | 0, s => if s.usage_ > s.capacity_ ∧ s.lru_ ≠ [] then none else some s
  | fuel + 1, s =>
    match s.lru_ with
    | [] => some s
    | old :: _ =>
      if s.usage_ > s.capacity_ then
        match s.evictOne old with
        | none => none
        | some s1 => LRUCache.evictLoop fuel s1
      else some s

/-- The method `LRUCache::Insert`.  `e` is the address returned by `malloc`.  Returns the
handle and the new state.  Every iteration of the eviction loop unlinks one node, so
`lru_.length` iterations are enough fuel. -/
def LRUCache.Insert (s : LRUCache) (e : Ptr) (key : Slice) (hash : Nat) (value : Nat)
    (charge : Nat) (deleter : Nat) : Option (Ptr × LRUCache) :=
  let h : LRUHandle :=
    { value := value, deleter := deleter, charge := charge, key_data := key, refs := 2,
      hash := hash }
  let s1 : LRUCache := { s with heap := s.heap.store e h }
  let s2 := s1.LRU_Append e
  let s3 : LRUCache := { s2 with usage_ := (s2.usage_ + charge) % two64 }
  match s3.table_.Insert s3.heap e with
  | none => none
  | some (old, t) =>
    let s4 : LRUCache := { s3 with table_ := t }
    let s5 : Option LRUCache :=
      match old with
      | none => some s4
      | some o => (s4.LRU_Remove o).Unref o
    match s5 with
    | none => none
    | some s6 =>
      match LRUCache.evictLoop s6.lru_.length s6 with
      | none => none
      | some s7 => some (e, s7)

/-- The method `LRUCache::Erase`. -/
def LRUCache.Erase (s : LRUCache) (key : Slice) (hash : Nat) : Option LRUCache :=
  match s.table_.Remove s.heap key hash with
  | (none, _) => some s
  | (some e, t) =>
    let s1 : LRUCache := { s with table_ := t }
    (s1.LRU_Remove e).Unref e

/-! ## ShardedLRUCache -/

/-- The constant `kNumShardBits`. -/
def kNumShardBits : Nat := 4

/-- The constant `kNumShards`. -/
def kNumShards : Nat := 1 <<< kNumShardBits

/-- The function `ShardedLRUCache::Shard`. -/
def Shard (hash : Nat) : Nat := hash >>> (32 - kNumShardBits)

/-- The size `per_shard` computed by the constructor of `ShardedLRUCache`, in `size_t`
arithmetic. -/
def perShard (capacity : Nat) : Nat :=
  ((capacity + (kNumShards - 1)) % two64) / kNumShards

/-- The class `ShardedLRUCache` (without its mutex). -/
structure ShardedLRUCache where
  shard_ : List LRUCache
  last_id_ : Nat

/-- The constructor `ShardedLRUCache(capacity)`, which is all `NewLRUCache` calls. -/
def NewLRUCache (capacity : Nat) : ShardedLRUCache :=
  { shard_ := List.replicate kNumShards (LRUCache.new.SetCapacity (perShard capacity)),
    last_id_ := 0 }

/-- The method `ShardedLRUCache::Insert`; `HashSlice` is the hash function of `util/hash.h`
(seed `0`) and `e` the address returned by `malloc`. -/
def ShardedLRUCache.Insert (HashSlice : Slice → Nat) (c : ShardedLRUCache) (e : Ptr)
    (key : Slice) (value : Nat) (charge : Nat) (deleter : Nat) :
    Option (Ptr × ShardedLRUCache) :=
  let hash := HashSlice key
  match c.shard_[Shard hash]? with
  | none => none
  | some s =>
    match s.Insert e key hash value charge deleter with
    | none => none
    | some (handle, s1) => some (handle, { c with shard_ := c.shard_.set (Shard hash) s1 })

/-- The method `ShardedLRUCache::Lookup`. -/
def ShardedLRUCache.Lookup (HashSlice : Slice → Nat) (c : ShardedLRUCache) (key : Slice) :
    Option (Option Ptr × ShardedLRUCache) :=
  let hash := HashSlice key
  match c.shard_[Shard hash]? with
  | none => none
  | some s =>
    let r := s.Lookup key hash
    some (r.1, { c with shard_ := c.shard_.set (Shard hash) r.2 })

/-- The method `ShardedLRUCache::Value`: the field `value` of the handle, read from the
heap of the shard that holds it. -/
def ShardedLRUCache.Value (c : ShardedLRUCache) (handle : Ptr) : Option Nat :=
  (c.shard_.findSome? (fun s => s.heap handle)).map (fun h => h.value)

/-! ## Invariants -/

/-- The key and hash stored in the handle at `p`, which the table compares. -/
def kh (heap : Heap) (p : Ptr) : Option (Slice × Nat) :=
  (heap p).map (fun h => (h.key, h.hash))

/-- The handles linked in the table, bucket by bucket. -/
def HandleTable.entries (t : HandleTable) : List Ptr := t.list_.flatten

/-- Well-formed table: `list_` has `length_` slots, `length_` is a power of two between `4`
and `2^31`, every linked handle is allocated and sits in the chain of the bucket of its
hash, no handle is linked twice, no two linked handles have the same key and hash, `elems_`
is the number of linked handles and does not exceed `length_`. -/
structure TableWF (heap : Heap) (t : HandleTable) : Prop where
  len : t.list_.length = t.length_
  pow : ∃ k, 2 ≤ k ∧ k ≤ 31 ∧ t.length_ = 2 ^ k
  bucket : ∀ i p, p ∈ t.chain i → ∃ hd, heap p = some hd ∧ hd.hash &&& (t.length_ - 1) = i
  nodup : t.entries.Nodup
  distinct : ∀ p q, p ∈ t.entries → q ∈ t.entries → kh heap p = kh heap q → p = q
  elems : t.elems_ = t.entries.length
  load : t.elems_ ≤ t.length_

/-- The charge of the handle at `p` (`0` when `p` is not allocated). -/
def chargeOf (heap : Heap) (p : Ptr) : Nat :=
  match heap p with
  | some h => h.charge
  | none => 0

/-- Structural invariant of a shard: the table is well formed, it links exactly the handles
of the LRU list, no handle is in the list twice, and every handle in the list has a
non-zero reference count. -/
structure CacheInv (s : LRUCache) : Prop where
  table : TableWF s.heap s.table_
  perm : s.table_.entries.Perm s.lru_
  nodup : s.lru_.Nodup
  refs : ∀ p ∈ s.lru_, ∀ h, s.heap p = some h → 1 ≤ h.refs

/-- The state `Unref(e)` leaves when `e` holds the handle `h` with a non-zero count: the
handle is freed if the count was `1`, and keeps one reference less otherwise. -/
def LRUCache.afterUnref (s : LRUCache) (e : Ptr) (h : LRUHandle) : LRUCache :=
  if h.refs = 1 then
    { s with usage_ := (s.usage_ + (two64 - h.charge % two64)) % two64,
             deleted := s.deleted ++ [⟨e, h.deleter, h.key, h.value⟩],
             heap := s.heap.free e }
  else { s with heap := s.heap.store e h.unref }

/-- The heap after `Unref` has been applied once to each handle of `U`: a handle with
count `1` is freed, the others keep one reference less. -/
def unrefHeap (heap : Heap) (U : List Ptr) : Heap := fun q =>
  if q ∈ U then
    match heap q with
    | some h => if h.refs = 1 then none else some h.unref
    | none => none
  else heap q

/-- The deleter calls made when `Unref` is applied once to each handle of `U`, in that
order: one call for every handle whose count is `1`, with its own key and value. -/
def deleterCalls (heap : Heap) (U : List Ptr) : List DeleterCall :=
  U.filterMap (fun q =>
    match heap q with
    | some h => if h.refs = 1 then some ⟨q, h.deleter, h.key, h.value⟩ else none
    | none => none)

/-- The successive evictions of the handles of `victims`, in that order. -/
def LRUCache.evictSeq : List Ptr → LRUCache → Option LRUCache
  | [], s => some s
  | old :: rest, s =>
    match s.evictOne old with
    | none => none
    | some s1 => LRUCache.evictSeq rest s1

/-- A shard together with the handles its callers hold: `handles` has one occurrence of
an address for every handle returned by `Insert` or by a successful `Lookup` and not yet
passed to `Release`. -/
structure Sys where
  cache : LRUCache
  handles : List Ptr

/-- Reference accounting of a shard `s` whose callers hold `H`, with one more reference
pending for each occurrence in `pend` (a reference that the running operation is about to
drop with `Unref`): the reference count of an allocated handle is `1` if it is in the LRU
list, plus the handles held on it, plus the pending ones; it is not zero; an address that
is not allocated is referenced by nobody; `usage_` is the sum of the charges of the
referenced handles, in `size_t` arithmetic. -/
structure Acct (s : LRUCache) (H : List Ptr) (pend : List Ptr) : Prop where
  refs : ∀ p h, s.heap p = some h →
    h.refs = (if p ∈ s.lru_ then 1 else 0) + H.count p + pend.count p ∧ 1 ≤ h.refs
  dead : ∀ p, s.heap p = none → p ∉ s.lru_ ∧ p ∉ H ∧ p ∉ pend
  usage : s.usage_ = (∑ p in (s.lru_ ++ H ++ pend).toFinset, chargeOf s.heap p) % two64

/-- The invariant of a shard and its callers. -/
structure SysInv (σ : Sys) : Prop where
  cache : CacheInv σ.cache
  acct : Acct σ.cache σ.handles []

/-- One operation on a shard by a caller that obeys the handle protocol: `Release` is
called only on a handle that is held, and every handle obtained is recorded as held.  The
address `e` given to `Insert` is one that `malloc` can return (not allocated), its hash and
charge are values of their types.  A `Lookup` that hits is considered only while the 32-bit
reference count of the entry does not wrap. -/
inductive Step : Sys → Sys → Prop
  | insert (σ : Sys) (e : Ptr) (key : Slice) (hash value charge deleter : Nat) (c2 : LRUCache) :
      σ.cache.heap e = none → hash < two32 → charge < two64 →
      σ.cache.Insert e key hash value charge deleter = some (e, c2) →
      Step σ ⟨c2, e :: σ.handles⟩
  | lookupHit (σ : Sys) (key : Slice) (hash : Nat) (e : Ptr) (c2 : LRUCache) :
      σ.cache.Lookup key hash = (some e, c2) →
      (∀ h, σ.cache.heap e = some h → h.refs + 1 < two32) →
      Step σ ⟨c2, e :: σ.handles⟩
  | lookupMiss (σ : Sys) (key : Slice) (hash : Nat) (c2 : LRUCache) :
      σ.cache.Lookup key hash = (none, c2) →
      Step σ ⟨c2, σ.handles⟩
  | release (σ : Sys) (h : Ptr) (c2 : LRUCache) :
      h ∈ σ.handles → σ.cache.Release h = some c2 →
      Step σ ⟨c2, σ.handles.erase h⟩
  | erase (σ : Sys) (key : Slice) (hash : Nat) (c2 : LRUCache) :
      σ.cache.Erase key hash = some c2 →
      Step σ ⟨c2, σ.handles⟩

/-- The states a shard and its callers reach from a new shard of capacity `capacity`. -/
inductive Reach (capacity : Nat) : Sys → Prop
  | init : Reach capacity ⟨LRUCache.new.SetCapacity capacity, []⟩
  | step (σ τ : Sys) : Reach capacity σ → Step σ τ → Reach capacity τ

/-- The state `Insert` leaves behind (the state itself when `Insert` does not return). -/
def LRUCache.afterInsert (s : LRUCache) (e : Ptr) (key : Slice) (hash value charge deleter : Nat) :
    LRUCache :=
  match s.Insert e key hash value charge deleter with
  | some r => r.2
  | none => s

/-- The state `Release` leaves behind (the state itself when `Release` does not return). -/
def LRUCache.afterRelease (s : LRUCache) (handle : Ptr) : LRUCache :=
  match s.Release handle with
  | some s2 => s2
  | none => s

/-- The shard of capacity `10` that caches one entry, at address `100`, with key `[1]`,
hash `5`, value `77`, charge `3` and reference count `refs`. -/
def oneEntryShard (refs : Nat) : LRUCache :=
  { capacity_ := 10, usage_ := 3, last_id_ := 0, lru_ := [100],
    table_ := ⟨4, 1, [[], [100], [], []]⟩,
    heap := Heap.store (fun _ => none) 100 ⟨77, 0, 3, [1], refs, 5⟩,
    deleted := [] }

/-- The shard of capacity `10` after `Insert` of key `[1]` (charge `3`, handle `100`) and of
key `[2]` (charge `4`, handle `101`), both handles still held. -/
def twoEntryShard : LRUCache :=
  ((LRUCache.new.SetCapacity 10).afterInsert 100 [1] 5 77 3 0).afterInsert 101 [2] 6 78 4 0

/-- The handles of `ps` linked one after the other with `HandleTable::Insert`; `none` when
one of the calls does not return. -/
def HandleTable.insertAll (heap : Heap) : List Ptr → HandleTable → Option HandleTable
  | [], t => some t
  | p :: ps, t =>
    match t.Insert heap p with
    | some (_, t1) => HandleTable.insertAll heap ps t1
    | none => none

/-- A heap of five handles, at addresses `100` to `104`: the handle at `p` has key `[p]`,
hash `7 * p` and value `p`. -/
def fiveHandles : Heap := fun p =>
  if 100 ≤ p ∧ p < 105 then some ⟨p, 0, 0, [p], 1, 7 * p⟩ else none

/-- Between the states `s` and `s2` of a shard the handle at `p` has stayed allocated, with
the key, value and deleter it had, and no deleter call for `p` was added to the log. -/
def KeptAlive (p : Ptr) (s s2 : LRUCache) : Prop :=
  ∃ (calls : List DeleterCall) (h h2 : LRUHandle),
    s2.deleted = s.deleted ++ calls ∧ (∀ d ∈ calls, d.entry ≠ p) ∧
    s.heap p = some h ∧ s2.heap p = some h2 ∧
    h2.value = h.value ∧ h2.key = h.key ∧ h2.deleter = h.deleter

/-! ## Further methods -/

/-- The method `ShardedLRUCache::NewId`: `return ++(last_id_)` on a `uint64_t`.  Returns
the identifier and the new state. -/
def ShardedLRUCache.NewId (c : ShardedLRUCache) : Nat × ShardedLRUCache :=
  let v := (c.last_id_ + 1) % two64
  (v, { c with last_id_ := v })

/-- The results of `n` successive calls of `NewId`, first call first, and the state after
the last call. -/
def ShardedLRUCache.newIds : Nat → ShardedLRUCache → List Nat × ShardedLRUCache
  | 0, c => ([], c)
  | n + 1, c =>
    let r := c.NewId
    let rs := ShardedLRUCache.newIds n r.2
    (r.1 :: rs.1, rs.2)

/-- The method `ShardedLRUCache::Release`: the field `hash` is read from the handle (in the
heap of the shard that holds it) and the call goes to the shard `Shard(h->hash)`. -/
def ShardedLRUCache.Release (c : ShardedLRUCache) (handle : Ptr) : Option ShardedLRUCache :=
  match c.shard_.findSome? (fun s => s.heap handle) with
  | none => none
  | some h =>
    match c.shard_[Shard h.hash]? with
    | none => none
    | some s =>
      match s.Release handle with
      | none => none
      | some s1 => some { c with shard_ := c.shard_.set (Shard h.hash) s1 }

/-- The method `ShardedLRUCache::Erase`. -/
def ShardedLRUCache.Erase (HashSlice : Slice → Nat) (c : ShardedLRUCache) (key : Slice) :
    Option ShardedLRUCache :=
  let hash := HashSlice key
  match c.shard_[Shard hash]? with
  | none => none
  | some s =>
    match s.Erase key hash with
    | none => none
    | some s1 => some { c with shard_ := c.shard_.set (Shard hash) s1 }

/-- The loop of the destructor `~LRUCache` on the nodes `es` that remain to be visited:
`assert(e->refs == 1)`, then `Unref(e)`.  `none` when the assertion fails. -/
def LRUCache.destroyLoop : List Ptr → LRUCache → Option LRUCache
  | [], s => some s
  | e :: rest, s =>
    match s.heap e with
    | none => none
    | some h =>
      if h.refs = 1 then
        match s.Unref e with
        | none => none
        | some s1 => LRUCache.destroyLoop rest s1
      else none

/-- The destructor `~LRUCache`: the loop walks the LRU list from `lru_.next`, oldest entry
first. -/
def LRUCache.destroy (s : LRUCache) : Option LRUCache := LRUCache.destroyLoop s.lru_ s

/-- The handle `h2` has the fields of `h` that are written once, at creation: value,
deleter, charge, key and hash. -/
def SameFields (h h2 : LRUHandle) : Prop :=
  h2.value = h.value ∧ h2.deleter = h.deleter ∧ h2.charge = h.charge ∧
  h2.key_data = h.key_data ∧ h2.hash = h.hash

/-- A cache together with the handles its callers hold: `handles` has one list for every
shard, with one occurrence of an address for every handle that an `Insert` or a
successful `Lookup` routed to that shard has returned and that was not yet passed to
`Release`. -/
structure ShardedSys where
  cache : ShardedLRUCache
  handles : List (List Ptr)

/-- One operation on the cache by callers that obey the handle protocol.  The address `e`
given to `Insert` is one that `malloc` can return (allocated in no shard); a `Lookup` that
hits is considered only while the 32-bit reference count of the entry does not wrap;
`Release` is called only on a handle that is held. -/
inductive ShardedStep (HashSlice : Slice → Nat) : ShardedSys → ShardedSys → Prop
  | insert (σ : ShardedSys) (e : Ptr) (key : Slice) (value charge deleter : Nat)
      (c2 : ShardedLRUCache) :
      (∀ s ∈ σ.cache.shard_, s.heap e = none) → charge < two64 →
      σ.cache.Insert HashSlice e key value charge deleter = some (e, c2) →
      ShardedStep HashSlice σ
        ⟨c2, σ.handles.set (Shard (HashSlice key))
          (e :: σ.handles.getD (Shard (HashSlice key)) [])⟩
  | lookupHit (σ : ShardedSys) (key : Slice) (e : Ptr) (c2 : ShardedLRUCache) :
      σ.cache.Lookup HashSlice key = some (some e, c2) →
      (∀ s ∈ σ.cache.shard_, ∀ h, s.heap e = some h → h.refs + 1 < two32) →
      ShardedStep HashSlice σ
        ⟨c2, σ.handles.set (Shard (HashSlice key))
          (e :: σ.handles.getD (Shard (HashSlice key)) [])⟩
  | lookupMiss (σ : ShardedSys) (key : Slice) (c2 : ShardedLRUCache) :
      σ.cache.Lookup HashSlice key = some (none, c2) →
      ShardedStep HashSlice σ ⟨c2, σ.handles⟩
  | release (σ : ShardedSys) (j : Nat) (handle : Ptr) (c2 : ShardedLRUCache) :
      handle ∈ σ.handles.getD j [] → σ.cache.Release handle = some c2 →
      ShardedStep HashSlice σ ⟨c2, σ.handles.set j ((σ.handles.getD j []).erase handle)⟩
  | erase (σ : ShardedSys) (key : Slice) (c2 : ShardedLRUCache) :
      σ.cache.Erase HashSlice key = some c2 →
      ShardedStep HashSlice σ ⟨c2, σ.handles⟩
  | newId (σ : ShardedSys) :
      ShardedStep HashSlice σ ⟨σ.cache.NewId.2, σ.handles⟩

/-- The states a cache and its callers reach from `NewLRUCache(capacity)`. -/
inductive ShardedReach (HashSlice : Slice → Nat) (capacity : Nat) : ShardedSys → Prop
  | init : ShardedReach HashSlice capacity ⟨NewLRUCache capacity, List.replicate kNumShards []⟩
  | step (σ τ : ShardedSys) : ShardedReach HashSlice capacity σ → ShardedStep HashSlice σ τ →
      ShardedReach HashSlice capacity τ

/-- The invariant of a cache and its callers: there are `kNumShards` shards, each with the
invariant of a shard for the handles obtained from it; every allocated handle stores the
hash of its key and sits in the shard that `Shard` gives for that hash; no address is
allocated in two shards. -/
structure ShardedInv (HashSlice : Slice → Nat) (σ : ShardedSys) : Prop where
  size : σ.cache.shard_.length = kNumShards
  hsize : σ.handles.length = kNumShards
  shard : ∀ i s, σ.cache.shard_[i]? = some s → SysInv ⟨s, σ.handles.getD i []⟩
  routed : ∀ i s p h, σ.cache.shard_[i]? = some s → s.heap p = some h →
    h.hash = HashSlice h.key ∧ Shard h.hash = i
  disjoint : ∀ (i j : Nat) (s t : LRUCache) (p : Ptr), σ.cache.shard_[i]? = some s → σ.cache.shard_[j]? = some t →
    s.heap p ≠ none → t.heap p ≠ none → i = j

/-- A heap of two handles with the same hash `5` and different keys: the handle at `100`
has key `[1]`, the handle at `101` has key `[2]`. -/
def collidingHandles : Heap := fun p =>
  if p = 100 then some ⟨77, 0, 1, [1], 1, 5⟩
  else if p = 101 then some ⟨78, 0, 1, [2], 1, 5⟩
  else none

/-- The state `ShardedLRUCache::Insert` leaves behind (the state itself when the call does
not return). -/
def ShardedLRUCache.afterInsert (HashSlice : Slice → Nat) (c : ShardedLRUCache) (e : Ptr)
    (key : Slice) (value charge deleter : Nat) : ShardedLRUCache :=
  match c.Insert HashSlice e key value charge deleter with
  | some r => r.2
  | none => c

/-- The cache `NewLRUCache(160)` (capacity `10` per shard) after one `Insert` of key `[1]`
with value `77` and charge `3` at address `100`, under the hash function that is constantly
`5` (shard `0`), the handle still held. -/
def shardedOne : ShardedSys :=
  ⟨(NewLRUCache 160).afterInsert (fun _ => 5) 100 [1] 77 3 0,
    (List.replicate kNumShards []).set 0 [100]⟩

theorem entryMatches_iff (heap : Heap) (key : Slice) (hash : Nat) (p : Ptr) :
    entryMatches heap key hash p = true ↔ kh heap p = some (key, hash) := by
  unfold entryMatches kh
  cases hp : heap p with
  | none => simp
  | some h =>
    simp only [Bool.and_eq_true, decide_eq_true_eq, Option.map_some', Option.some.injEq,
      Prod.mk.injEq]
    constructor
    · rintro ⟨h1, h2⟩; exact ⟨h2.symm, h1⟩
    · rintro ⟨h1, h2⟩; exact ⟨h2, h1.symm⟩

theorem entryMatches_congr {heap heap2 : Heap} {p : Ptr} (h : kh heap2 p = kh heap p)
    (key : Slice) (hash : Nat) :
    entryMatches heap2 key hash p = entryMatches heap key hash p := by
  have h1 := entryMatches_iff heap key hash p
  have h2 := entryMatches_iff heap2 key hash p
  rw [h] at h2
  cases a : entryMatches heap2 key hash p <;> cases b : entryMatches heap key hash p <;>
    simp_all

theorem chainWalk_le (heap : Heap) (key : Slice) (hash : Nat) (ch : List Ptr) :
    chainWalk heap key hash ch ≤ ch.length := by
  induction ch with
  | nil => simp [chainWalk]
  | cons p rest ih =>
    simp only [chainWalk, List.length_cons]
    split
    · omega
    · omega

theorem chainWalk_hit {heap : Heap} {key : Slice} {hash : Nat} {ch : List Ptr} {p : Ptr}
    (h : ch[chainWalk heap key hash ch]? = some p) :
    entryMatches heap key hash p = true ∧ p ∈ ch := by
  induction ch with
  | nil => simp at h
  | cons q rest ih =>
    simp only [chainWalk] at h
    split at h
    · simp at h; subst h; simp [*]
    · simp only [List.getElem?_cons_succ] at h
      exact ⟨(ih h).1, List.mem_cons_of_mem _ (ih h).2⟩

theorem chainWalk_miss {heap : Heap} {key : Slice} {hash : Nat} {ch : List Ptr}
    (h : ch[chainWalk heap key hash ch]? = none) :
    ∀ p ∈ ch, entryMatches heap key hash p = false := by
  induction ch with
  | nil => simp
  | cons q rest ih =>
    simp only [chainWalk] at h
    split at h
    · simp at h
    · simp only [List.getElem?_cons_succ] at h
      intro p hp
      rcases List.mem_cons.1 hp with rfl | hp
      · simpa using ‹¬ entryMatches heap key hash p = true›
      · exact ih h p hp

theorem chainWalk_find {heap : Heap} {key : Slice} {hash : Nat} {ch : List Ptr} {p : Ptr}
    (hp : p ∈ ch) (hm : entryMatches heap key hash p = true)
    (huniq : ∀ q ∈ ch, entryMatches heap key hash q = true → q = p) :
    ch[chainWalk heap key hash ch]? = some p := by
  induction ch with
  | nil => simp at hp
  | cons q rest ih =>
    simp only [chainWalk]
    split
    · rename_i hq
      simp [huniq q (List.mem_cons_self _ _) hq]
    · rename_i hq
      simp only [List.getElem?_cons_succ]
      rcases List.mem_cons.1 hp with rfl | hp
      · exact absurd hm hq
      · exact ih hp (fun r hr => huniq r (List.mem_cons_of_mem _ hr))

theorem chainWalk_congr {heap heap2 : Heap} (key : Slice) (hash : Nat) {ch : List Ptr}
    (h : ∀ p ∈ ch, kh heap2 p = kh heap p) :
    chainWalk heap2 key hash ch = chainWalk heap key hash ch := by
  induction ch with
  | nil => rfl
  | cons q rest ih =>
    simp only [chainWalk, entryMatches_congr (h q (List.mem_cons_self _ _))]
    rw [ih (fun p hp => h p (List.mem_cons_of_mem _ hp))]

/-- Splitting a chain at a position that holds a node. -/
theorem chain_split {ch : List Ptr} {pos : Nat} {old : Ptr} (h : ch[pos]? = some old) :
    ∃ c1 c2, ch = c1 ++ old :: c2 ∧ c1.length = pos ∧ (∀ x, ch.set pos x = c1 ++ x :: c2) ∧
      ch.eraseIdx pos = c1 ++ c2 := by
  obtain ⟨hlt, hget⟩ := List.getElem?_eq_some_iff.1 h
  refine ⟨ch.take pos, ch.drop (pos + 1), ?_, ?_, ?_, ?_⟩
  · rw [← hget, List.getElem_cons_drop, List.take_append_drop]
  · simp [List.length_take]; omega
  · intro x; rw [List.set_eq_take_append_cons_drop, if_pos hlt]
  · exact List.eraseIdx_eq_take_drop_succ ch pos

/-- Splitting the bucket array at a slot. -/
theorem list_split (l : List (List Ptr)) {b : Nat} (hb : b < l.length) :
    ∃ pre post, l = pre ++ l.getD b [] :: post ∧ pre.length = b ∧
      ∀ ch, l.set b ch = pre ++ ch :: post := by
  refine ⟨l.take b, l.drop (b + 1), ?_, ?_, ?_⟩
  · have : l.getD b [] = l[b] := by simp [List.getD_eq_getElem?_getD, hb]
    rw [this, List.getElem_cons_drop, List.take_append_drop]
  · simp [List.length_take]; omega
  · intro ch; rw [List.set_eq_take_append_cons_drop, if_pos hb]

/-- The handles of a bucket array before and after one chain is replaced. -/
theorem flatten_set (l : List (List Ptr)) {b : Nat} (hb : b < l.length) :
    ∃ A B, l.flatten = A ++ l.getD b [] ++ B ∧ ∀ ch, (l.set b ch).flatten = A ++ ch ++ B := by
  obtain ⟨pre, post, h1, -, h3⟩ := list_split l hb
  refine ⟨pre.flatten, post.flatten, ?_, ?_⟩
  · conv_lhs => rw [h1]
    simp
  · intro ch
    rw [h3 ch]
    simp

theorem getD_set_self (l : List (List Ptr)) {b : Nat} (hb : b < l.length) (ch : List Ptr) :
    (l.set b ch).getD b [] = ch := by
  simp [List.getD_eq_getElem?_getD, hb]

theorem getD_set_ne (l : List (List Ptr)) {b i : Nat} (h : i ≠ b) (ch : List Ptr) :
    (l.set b ch).getD i [] = l.getD i [] := by
  simp [List.getD_eq_getElem?_getD, List.getElem?_set_ne (Ne.symm h)]

theorem mem_flatten_iff_getD (l : List (List Ptr)) (p : Ptr) :
    p ∈ l.flatten ↔ ∃ i, i < l.length ∧ p ∈ l.getD i [] := by
  rw [List.mem_flatten]
  constructor
  · rintro ⟨ch, hc, hp⟩
    obtain ⟨i, hi, rfl⟩ := List.getElem_of_mem hc
    exact ⟨i, hi, by simpa [List.getD_eq_getElem?_getD, hi] using hp⟩
  · rintro ⟨i, hi, hp⟩
    refine ⟨l[i], List.getElem_mem _, ?_⟩
    simpa [List.getD_eq_getElem?_getD, hi] using hp

theorem two_pow_le_31 {k : Nat} (hk : k ≤ 31) : 2 ^ k ≤ 2147483648 := by
  have : 2 ^ k ≤ 2 ^ 31 := Nat.pow_le_pow_right (by norm_num) hk
  simpa using this

theorem four_le_two_pow {k : Nat} (hk : 2 ≤ k) : 4 ≤ 2 ^ k := by
  have : 2 ^ 2 ≤ 2 ^ k := Nat.pow_le_pow_right (by norm_num) hk
  simpa using this

theorem TableWF.length_ge {heap : Heap} {t : HandleTable} (wf : TableWF heap t) :
    4 ≤ t.length_ ∧ t.length_ ≤ 2147483648 := by
  obtain ⟨k, h2, h31, hk⟩ := wf.pow
  rw [hk]
  exact ⟨four_le_two_pow h2, two_pow_le_31 h31⟩

theorem TableWF.bucket_eq {heap : Heap} {t : HandleTable} (wf : TableWF heap t) (hash : Nat) :
    t.bucket hash = hash &&& (t.length_ - 1) := by
  have h := wf.length_ge
  unfold HandleTable.bucket two32
  have : (t.length_ + (4294967296 - 1)) % 4294967296 = t.length_ - 1 := by omega
  rw [this]

theorem TableWF.bucket_lt {heap : Heap} {t : HandleTable} (wf : TableWF heap t) (hash : Nat) :
    t.bucket hash < t.list_.length := by
  have h := wf.length_ge
  rw [wf.bucket_eq, wf.len]
  have : hash &&& (t.length_ - 1) ≤ t.length_ - 1 := Nat.and_le_right
  omega

theorem TableWF.mem_entries {heap : Heap} {t : HandleTable} (wf : TableWF heap t) (p : Ptr) :
    p ∈ t.entries ↔ ∃ hd, heap p = some hd ∧ p ∈ t.chain (t.bucket hd.hash) := by
  unfold HandleTable.entries
  rw [mem_flatten_iff_getD]
  constructor
  · rintro ⟨i, -, hp⟩
    obtain ⟨hd, h1, h2⟩ := wf.bucket i p hp
    refine ⟨hd, h1, ?_⟩
    rw [wf.bucket_eq, h2]; exact hp
  · rintro ⟨hd, -, hp⟩
    exact ⟨_, wf.bucket_lt _, hp⟩

theorem TableWF.entryLive {heap : Heap} {t : HandleTable} (wf : TableWF heap t) {p : Ptr}
    (hp : p ∈ t.entries) : ∃ hd, heap p = some hd := by
  obtain ⟨hd, h, -⟩ := (wf.mem_entries p).1 hp
  exact ⟨hd, h⟩

theorem kh_some {heap : Heap} {p : Ptr} {hd : LRUHandle} (h : heap p = some hd) :
    kh heap p = some (hd.key, hd.hash) := by
  simp [kh, h]

theorem kh_eq_some_iff {heap : Heap} {p : Ptr} {key : Slice} {hash : Nat} :
    kh heap p = some (key, hash) ↔ ∃ hd, heap p = some hd ∧ hd.key = key ∧ hd.hash = hash := by
  unfold kh
  cases heap p <;> simp

/-- `Lookup` returns a handle exactly when it is linked and has the key and hash asked for. -/
theorem TableWF.lookup_eq_some_iff {heap : Heap} {t : HandleTable} (wf : TableWF heap t)
    (key : Slice) (hash : Nat) (p : Ptr) :
    t.Lookup heap key hash = some p ↔ p ∈ t.entries ∧ kh heap p = some (key, hash) := by
  unfold HandleTable.Lookup HandleTable.FindPointer HandleTable.deref
  simp only
  constructor
  · intro h
    obtain ⟨hm, hmem⟩ := chainWalk_hit h
    refine ⟨?_, (entryMatches_iff _ _ _ _).1 hm⟩
    unfold HandleTable.entries
    rw [mem_flatten_iff_getD]
    exact ⟨_, wf.bucket_lt hash, hmem⟩
  · rintro ⟨hmem, hk⟩
    obtain ⟨hd, h1, h2⟩ := (wf.mem_entries p).1 hmem
    obtain ⟨hd2, h3, h4, h5⟩ := kh_eq_some_iff.1 hk
    rw [h1] at h3; cases h3
    rw [h5] at h2
    refine chainWalk_find h2 ((entryMatches_iff _ _ _ _).2 hk) ?_
    intro q hq hqm
    have hqe : q ∈ t.entries := by
      unfold HandleTable.entries
      rw [mem_flatten_iff_getD]
      exact ⟨_, wf.bucket_lt hash, hq⟩
    exact wf.distinct q p hqe hmem (((entryMatches_iff _ _ _ _).1 hqm).trans hk.symm)

theorem TableWF.lookup_eq_none_iff {heap : Heap} {t : HandleTable} (wf : TableWF heap t)
    (key : Slice) (hash : Nat) :
    t.Lookup heap key hash = none ↔ ∀ p ∈ t.entries, kh heap p ≠ some (key, hash) := by
  constructor
  · intro h p hp hk
    have := (wf.lookup_eq_some_iff key hash p).2 ⟨hp, hk⟩
    rw [h] at this; cases this
  · intro h
    cases hl : t.Lookup heap key hash with
    | none => rfl
    | some p =>
      obtain ⟨h1, h2⟩ := (wf.lookup_eq_some_iff key hash p).1 hl
      exact absurd h2 (h p h1)

/-- A table stays well formed when the heap changes without changing the key and hash of
any linked handle. -/
theorem TableWF.heap_congr {heap heap2 : Heap} {t : HandleTable} (wf : TableWF heap t)
    (h : ∀ p ∈ t.entries, kh heap2 p = kh heap p) : TableWF heap2 t := by
  refine ⟨wf.len, wf.pow, ?_, wf.nodup, ?_, wf.elems, wf.load⟩
  · intro i p hp
    obtain ⟨hd, h1, h2⟩ := wf.bucket i p hp
    have hpe : p ∈ t.entries := by
      by_cases hi : i < t.list_.length
      · unfold HandleTable.entries; rw [mem_flatten_iff_getD]; exact ⟨i, hi, hp⟩
      · exfalso
        unfold HandleTable.chain at hp
        simp [List.getD_eq_getElem?_getD, List.getElem?_eq_none (Nat.le_of_not_lt hi)] at hp
    have := h p hpe
    rw [kh_some h1] at this
    obtain ⟨hd2, e1, e2, e3⟩ := kh_eq_some_iff.1 this
    exact ⟨hd2, e1, by rw [e3]; exact h2⟩
  · intro p q hp hq hpq
    rw [h p hp, h q hq] at hpq
    exact wf.distinct p q hp hq hpq

theorem lookup_heap_congr {heap heap2 : Heap} {t : HandleTable}
    (h : ∀ p ∈ t.entries, kh heap2 p = kh heap p) (key : Slice) (hash : Nat) :
    t.Lookup heap2 key hash = t.Lookup heap key hash := by
  unfold HandleTable.Lookup HandleTable.FindPointer HandleTable.deref
  simp only
  rw [chainWalk_congr]
  intro p hp
  apply h
  by_cases hi : t.bucket hash < t.list_.length
  · unfold HandleTable.entries; rw [mem_flatten_iff_getD]; exact ⟨_, hi, hp⟩
  · exfalso
    unfold HandleTable.chain at hp
    simp [List.getD_eq_getElem?_getD, List.getElem?_eq_none (Nat.le_of_not_lt hi)] at hp

theorem newLengthLoop_spec (fuel : Nat) : ∀ (k elems : Nat), 2 ≤ k → k ≤ 31 → 32 ≤ fuel + k →
    elems ≤ 2147483648 →
    ∃ j, k ≤ j ∧ j ≤ 31 ∧ newLengthLoop fuel (2 ^ k) elems = some (2 ^ j) ∧ elems ≤ 2 ^ j ∧
      (j = k ∨ 2 ^ (j - 1) < elems) := by
  induction fuel with
  | zero => intro k elems _ h31 hf _; omega
  | succ n ih =>
    intro k elems h2 h31 hf he
    unfold newLengthLoop
    by_cases hlt : 2 ^ k < elems
    · rw [if_pos hlt]
      have hk30 : k ≤ 30 := by
        by_contra hc
        have : k = 31 := by omega
        subst this
        norm_num at hlt
        omega
      have hmod : (2 ^ k * 2) % two32 = 2 ^ (k + 1) := by
        have h1 : 2 ^ (k + 1) ≤ 2147483648 := two_pow_le_31 (by omega)
        rw [← pow_succ]
        unfold two32
        exact Nat.mod_eq_of_lt (by omega)
      rw [hmod]
      obtain ⟨j, hj1, hj2, hj3, hj4, hj5⟩ := ih (k + 1) elems (by omega) (by omega) (by omega) he
      refine ⟨j, by omega, hj2, hj3, hj4, Or.inr ?_⟩
      rcases hj5 with rfl | h
      · simpa using hlt
      · exact h
    · rw [if_neg hlt]
      exact ⟨k, le_refl _, h31, rfl, by omega, Or.inl rfl⟩

theorem rehash_length (heap : Heap) (L : Nat) (ps : List Ptr) : ∀ acc : List (List Ptr),
    (ps.foldl (rehashStep heap L) acc).length = acc.length := by
  induction ps with
  | nil => intro acc; rfl
  | cons p rest ih =>
    intro acc
    simp only [List.foldl_cons]
    rw [ih]
    unfold rehashStep
    split <;> simp

theorem rehashStep_perm {heap : Heap} {L : Nat} {acc : List (List Ptr)} {p : Ptr}
    {hd : LRUHandle} (hp : heap p = some hd) (hL : 1 ≤ L) (hacc : acc.length = L) :
    (rehashStep heap L acc p).flatten.Perm (p :: acc.flatten) := by
  unfold rehashStep
  simp only [hp]
  have hb : hd.hash &&& (L - 1) < acc.length := by
    have : hd.hash &&& (L - 1) ≤ L - 1 := Nat.and_le_right
    omega
  obtain ⟨A, B, e1, e2⟩ := flatten_set acc hb
  rw [e2, e1]
  rw [List.perm_iff_count]
  intro a
  simp only [List.count_append, List.count_cons]
  omega

theorem rehash_perm {heap : Heap} {L : Nat} (hL : 1 ≤ L) (ps : List Ptr) :
    ∀ acc : List (List Ptr), acc.length = L → (∀ p ∈ ps, ∃ hd, heap p = some hd) →
    (ps.foldl (rehashStep heap L) acc).flatten.Perm (ps ++ acc.flatten) := by
  induction ps with
  | nil => intro acc _ _; simp
  | cons p rest ih =>
    intro acc hacc hlive
    simp only [List.foldl_cons]
    obtain ⟨hd, hp⟩ := hlive p (List.mem_cons_self _ _)
    have h1 := ih (rehashStep heap L acc p)
      (by unfold rehashStep; simp only [hp, List.length_set]; exact hacc)
      (fun q hq => hlive q (List.mem_cons_of_mem _ hq))
    refine h1.trans ?_
    have h2 := rehashStep_perm hp hL hacc
    have h3 : (rest ++ (rehashStep heap L acc p).flatten).Perm (rest ++ p :: acc.flatten) :=
      List.Perm.append_left rest h2
    refine h3.trans ?_
    simp only [List.cons_append]
    exact List.perm_middle

theorem rehash_bucket {heap : Heap} {L : Nat} (ps : List Ptr) :
    ∀ acc : List (List Ptr), ∀ i q, q ∈ (ps.foldl (rehashStep heap L) acc).getD i [] →
      q ∈ acc.getD i [] ∨ ∃ hd, heap q = some hd ∧ hd.hash &&& (L - 1) = i := by
  induction ps with
  | nil => intro acc i q h; exact Or.inl h
  | cons p rest ih =>
    intro acc i q h
    simp only [List.foldl_cons] at h
    rcases ih _ i q h with h1 | h1
    · unfold rehashStep at h1
      cases hp : heap p with
      | none => simp only [hp] at h1; exact Or.inl h1
      | some hd =>
        simp only [hp] at h1
        by_cases hi : i = hd.hash &&& (L - 1)
        · by_cases hlen : hd.hash &&& (L - 1) < acc.length
          · rw [hi, getD_set_self _ hlen] at h1
            rcases List.mem_cons.1 h1 with rfl | h2
            · exact Or.inr ⟨hd, hp, hi.symm⟩
            · exact Or.inl (hi ▸ h2)
          · rw [List.set_eq_of_length_le (Nat.le_of_not_lt hlen)] at h1
            exact Or.inl h1
        · rw [getD_set_ne _ hi] at h1
          exact Or.inl h1
    · exact Or.inr h1

theorem getD_replicate_nil (L i : Nat) : (List.replicate L ([] : List Ptr)).getD i [] = [] := by
  simp only [List.getD_eq_getElem?_getD, List.getElem?_replicate]
  split <;> rfl

theorem flatten_replicate_nil (L : Nat) : (List.replicate L ([] : List Ptr)).flatten = [] := by
  induction L with
  | zero => rfl
  | succ n ih => simp [List.replicate_succ, ih]

/-- `Resize` on a table whose linked handles are allocated and counted by `elems_ ≤ 2^31`:
it returns, the result is well formed and links the same handles, and the new slot count is
the smallest power of two that is at least `4` and at least `elems_`. -/
theorem resize_spec {heap : Heap} {t : HandleTable}
    (hlive : ∀ p ∈ t.entries, ∃ hd, heap p = some hd)
    (hnodup : t.entries.Nodup)
    (hdist : ∀ p q, p ∈ t.entries → q ∈ t.entries → kh heap p = kh heap q → p = q)
    (helems : t.elems_ = t.entries.length) (hle : t.elems_ ≤ 2147483648) :
    ∃ t2, t.Resize heap = some t2 ∧ TableWF heap t2 ∧ t2.entries.Perm t.entries ∧
      t2.elems_ = t.elems_ ∧
      ∃ j, 2 ≤ j ∧ j ≤ 31 ∧ t2.length_ = 2 ^ j ∧ t.elems_ ≤ 2 ^ j ∧
        (j = 2 ∨ 2 ^ (j - 1) < t.elems_) := by
  obtain ⟨j, hj1, hj2, hj3, hj4, hj5⟩ :=
    newLengthLoop_spec 32 2 t.elems_ (le_refl _) (by omega) (by omega) hle
  have hj3' : newLengthLoop 32 4 t.elems_ = some (2 ^ j) := hj3
  have hcount : t.list_.flatten.length % two32 = t.elems_ := by
    have : t.list_.flatten.length = t.elems_ := helems.symm
    rw [this]; unfold two32; omega
  have hL : 1 ≤ 2 ^ j := Nat.one_le_two_pow
  have hperm : (t.list_.flatten.foldl (rehashStep heap (2 ^ j))
      (List.replicate (2 ^ j) [])).flatten.Perm t.entries := by
    have := rehash_perm hL t.list_.flatten (List.replicate (2 ^ j) []) (by simp) hlive
    rw [flatten_replicate_nil, List.append_nil] at this
    exact this
  refine ⟨{ length_ := 2 ^ j, elems_ := t.elems_,
            list_ := t.list_.flatten.foldl (rehashStep heap (2 ^ j))
              (List.replicate (2 ^ j) []) }, ?_, ?_, hperm, rfl, j, hj1, hj2, rfl, hj4, hj5⟩
  · unfold HandleTable.Resize
    simp only [hj3', hcount, if_true]
  · refine ⟨?_, ⟨j, hj1, hj2, rfl⟩, ?_, ?_, ?_, ?_, hj4⟩
    · simp [rehash_length]
    · intro i p hp
      rcases rehash_bucket _ _ i p hp with h | h
      · rw [getD_replicate_nil] at h; simp at h
      · exact h
    · exact hperm.nodup_iff.2 hnodup
    · intro p q hp hq
      exact hdist p q (hperm.mem_iff.1 hp) (hperm.mem_iff.1 hq)
    · show t.elems_ = _
      rw [helems]; exact hperm.length_eq.symm

/-- The constructor builds the table of four empty buckets. -/
theorem HandleTable.new_eq : HandleTable.new = ⟨4, 0, [[], [], [], []]⟩ := by
  rfl

theorem HandleTable.new_wf (heap : Heap) : TableWF heap HandleTable.new := by
  rw [HandleTable.new_eq]
  refine ⟨rfl, ⟨2, le_refl _, by omega, rfl⟩, ?_, ?_, ?_, rfl, by simp⟩
  · intro i p hp
    unfold HandleTable.chain at hp
    simp only [List.getD_eq_getElem?_getD] at hp
    rcases i with _ | _ | _ | _ | i <;> simp at hp
  · simp [HandleTable.entries]
  · intro p q hp; simp [HandleTable.entries] at hp

theorem mem_entries_of_chain {t : HandleTable} {i : Nat} {p : Ptr} (hp : p ∈ t.chain i) :
    p ∈ t.entries := by
  by_cases hi : i < t.list_.length
  · unfold HandleTable.entries; rw [mem_flatten_iff_getD]; exact ⟨i, hi, hp⟩
  · exfalso
    unfold HandleTable.chain at hp
    simp [List.getD_eq_getElem?_getD, List.getElem?_eq_none (Nat.le_of_not_lt hi)] at hp

/-- The slot found for a key and the decomposition of the table around it, when the key is
linked. -/
theorem TableWF.slot_some {heap : Heap} {t : HandleTable} (wf : TableWF heap t)
    {key : Slice} {hash : Nat} {p : Ptr} (h : t.Lookup heap key hash = some p) :
    ∃ A c1 c2 B, t.entries = A ++ (c1 ++ p :: c2) ++ B ∧
      t.chain (t.bucket hash) = c1 ++ p :: c2 ∧
      (∀ x, (t.list_.set (t.bucket hash)
        ((t.chain (t.bucket hash)).set (chainWalk heap key hash (t.chain (t.bucket hash))) x)).flatten
          = A ++ (c1 ++ x :: c2) ++ B) ∧
      (t.list_.set (t.bucket hash)
        ((t.chain (t.bucket hash)).eraseIdx
          (chainWalk heap key hash (t.chain (t.bucket hash))))).flatten = A ++ (c1 ++ c2) ++ B := by
  have hd : (t.chain (t.bucket hash))[chainWalk heap key hash (t.chain (t.bucket hash))]? =
      some p := h
  obtain ⟨c1, c2, e1, -, e3, e4⟩ := chain_split hd
  obtain ⟨A, B, f1, f2⟩ := flatten_set t.list_ (wf.bucket_lt hash)
  refine ⟨A, c1, c2, B, ?_, e1, ?_, ?_⟩
  · unfold HandleTable.entries
    rw [f1]
    show A ++ t.chain (t.bucket hash) ++ B = _
    rw [e1]
  · intro x
    rw [f2, e3]
  · rw [f2, e4]

theorem TableWF.remove_none {heap : Heap} {t : HandleTable} {key : Slice} {hash : Nat}
    (h : t.Lookup heap key hash = none) : t.Remove heap key hash = (none, t) := by
  unfold HandleTable.Remove
  have hd : t.deref (t.FindPointer heap key hash) = none := h
  simp only [hd]

/-- `Remove` of a linked key unlinks exactly the handle `Lookup` finds. -/
theorem TableWF.remove_some {heap : Heap} {t : HandleTable} (wf : TableWF heap t)
    {key : Slice} {hash : Nat} {p : Ptr} (h : t.Lookup heap key hash = some p) :
    ∃ t2, t.Remove heap key hash = (some p, t2) ∧ TableWF heap t2 ∧
      t2.entries = t.entries.erase p ∧ t2.length_ = t.length_ ∧ t2.elems_ + 1 = t.elems_ := by
  have hd : t.deref (t.FindPointer heap key hash) = some p := h
  obtain ⟨A, c1, c2, B, e1, e2, -, e4⟩ := wf.slot_some h
  have hnd := wf.nodup
  rw [e1] at hnd
  have hpA : p ∉ A ++ c1 := by
    intro hin
    have : (A ++ (c1 ++ p :: c2) ++ B).count p ≥ 2 := by
      have : 1 ≤ (A ++ c1).count p := List.count_pos_iff.2 hin
      simp only [List.count_append, List.count_cons_self] at this ⊢
      omega
    have := List.nodup_iff_count_le_one.1 hnd p
    omega
  have herase : t.entries.erase p = A ++ (c1 ++ c2) ++ B := by
    rw [e1]
    have : A ++ (c1 ++ p :: c2) ++ B = (A ++ c1) ++ p :: (c2 ++ B) := by simp
    rw [this, List.erase_append_right _ hpA, List.erase_cons_head]
    simp
  have hmem : p ∈ t.entries := by rw [e1]; simp
  have hpos : 1 ≤ t.entries.length := List.length_pos_of_mem hmem
  have hlen := wf.length_ge
  have hel := wf.elems
  have hload := wf.load
  have hent : (t.list_.set (t.bucket hash)
      ((t.chain (t.bucket hash)).eraseIdx
        (chainWalk heap key hash (t.chain (t.bucket hash))))).flatten = t.entries.erase p := by
    rw [herase]; exact e4
  refine ⟨{ t with
      list_ := t.list_.set (t.bucket hash)
        ((t.chain (t.bucket hash)).eraseIdx (chainWalk heap key hash (t.chain (t.bucket hash)))),
      elems_ := (t.elems_ + (two32 - 1)) % two32 }, ?_, ?_, hent, rfl, ?_⟩
  · unfold HandleTable.Remove
    simp only [hd]
    rfl
  · refine ⟨?_, wf.pow, ?_, ?_, ?_, ?_, ?_⟩
    · simp [wf.len]
    · intro i q hq
      apply wf.bucket i q
      by_cases hi : i = t.bucket hash
      · subst hi
        have : q ∈ (t.chain (t.bucket hash)).eraseIdx
            (chainWalk heap key hash (t.chain (t.bucket hash))) := by
          have := hq
          unfold HandleTable.chain at this
          simp only at this
          rw [getD_set_self _ (wf.bucket_lt hash)] at this
          exact this
        exact (List.eraseIdx_sublist _ _).subset this
      · unfold HandleTable.chain at hq ⊢
        simp only at hq
        rw [getD_set_ne _ hi] at hq
        exact hq
    · show (List.flatten _).Nodup
      rw [hent]; exact wf.nodup.erase p
    · intro a b ha hb
      have ha' : a ∈ List.flatten _ := ha
      have hb' : b ∈ List.flatten _ := hb
      rw [hent] at ha' hb'
      exact wf.distinct a b (List.mem_of_mem_erase ha') (List.mem_of_mem_erase hb')
    · show (t.elems_ + (two32 - 1)) % two32 = (List.flatten _).length
      rw [hent, List.length_erase_of_mem hmem]
      unfold two32; omega
    · show (t.elems_ + (two32 - 1)) % two32 ≤ t.length_
      unfold two32; omega
  · show (t.elems_ + (two32 - 1)) % two32 + 1 = t.elems_
    unfold two32; omega

theorem chain_set_self {t : HandleTable} {b : Nat} (hb : b < t.list_.length) (ch : List Ptr)
    (len el : Nat) :
    (HandleTable.mk len el (t.list_.set b ch)).chain b = ch := by
  unfold HandleTable.chain
  exact getD_set_self _ hb ch

theorem chain_set_ne {t : HandleTable} {b i : Nat} (hi : i ≠ b) (ch : List Ptr)
    (len el : Nat) :
    (HandleTable.mk len el (t.list_.set b ch)).chain i = t.chain i := by
  unfold HandleTable.chain
  exact getD_set_ne _ hi ch

/-- `Insert` of a handle whose key is already linked: the handle takes the place of the old
one, which is returned. -/
theorem TableWF.insert_replace {heap : Heap} {t : HandleTable} (wf : TableWF heap t)
    {h : Ptr} {hd : LRUHandle} (hh : heap h = some hd) (hnew : h ∉ t.entries) {old : Ptr}
    (hl : t.Lookup heap hd.key hd.hash = some old) :
    ∃ t2, t.Insert heap h = some (some old, t2) ∧ TableWF heap t2 ∧
      t2.entries.Perm (h :: t.entries.erase old) ∧ t2.length_ = t.length_ ∧
      t2.elems_ = t.elems_ := by
  have hderef : t.deref (t.FindPointer heap hd.key hd.hash) = some old := hl
  obtain ⟨A, c1, c2, B, e1, e2, e3, -⟩ := wf.slot_some hl
  obtain ⟨holdmem, holdkh⟩ := (wf.lookup_eq_some_iff _ _ _).1 hl
  have hcw : (t.chain (t.bucket hd.hash))[chainWalk heap hd.key hd.hash
      (t.chain (t.bucket hd.hash))]? = some old := hl
  obtain ⟨d1, d2, f1, -, f3, -⟩ := chain_split hcw
  have hnd := wf.nodup
  have herase : (t.entries.erase old).Perm (A ++ (c1 ++ c2) ++ B) := by
    rw [List.perm_iff_count]
    intro a
    rw [List.count_erase, e1]
    simp only [List.count_append, List.count_cons]
    by_cases ha : a = old
    · subst ha; simp; omega
    · have : (old == a) = false := by simpa using Ne.symm ha
      simp [this, ha]
  have hperm : (A ++ (c1 ++ h :: c2) ++ B).Perm (h :: t.entries.erase old) := by
    refine List.Perm.trans ?_ (List.Perm.cons h herase.symm)
    rw [List.perm_iff_count]
    intro a
    simp only [List.count_append, List.count_cons]
    omega
  set t2 : HandleTable := { t with
      list_ := t.list_.set (t.bucket hd.hash)
        ((t.chain (t.bucket hd.hash)).set
          (chainWalk heap hd.key hd.hash (t.chain (t.bucket hd.hash))) h) } with ht2
  have hent : t2.entries = A ++ (c1 ++ h :: c2) ++ B := e3 h
  have hmem2 : ∀ q, q ∈ t2.entries → q = h ∨ (q ∈ t.entries ∧ q ≠ old) := by
    intro q hq
    rw [hent] at hq
    have := hperm.mem_iff.1 hq
    rcases List.mem_cons.1 this with rfl | h2
    · exact Or.inl rfl
    · exact Or.inr ⟨List.mem_of_mem_erase h2, ((List.Nodup.mem_erase_iff hnd).1 h2).1⟩
  have hkh : kh heap h = kh heap old := by rw [holdkh, kh_some hh]
  refine ⟨t2, ?_, ?_, hent ▸ hperm, rfl, rfl⟩
  · unfold HandleTable.Insert
    simp only [hh, hderef]
    rfl
  · refine ⟨?_, wf.pow, ?_, ?_, ?_, ?_, wf.load⟩
    · simp [ht2, wf.len]
    · intro i q hq
      by_cases hi : i = t.bucket hd.hash
      · subst hi
        rw [ht2, chain_set_self (wf.bucket_lt _), f3 h] at hq
        have : q = h ∨ q ∈ t.chain (t.bucket hd.hash) := by
          rw [f1]
          simp only [List.mem_append, List.mem_cons] at hq ⊢
          tauto
        rcases this with rfl | h3
        · exact ⟨hd, hh, (wf.bucket_eq _).symm⟩
        · exact wf.bucket _ q h3
      · rw [ht2, chain_set_ne hi] at hq
        exact wf.bucket i q hq
    · rw [hent]
      refine hperm.nodup_iff.2 (List.nodup_cons.2 ⟨?_, hnd.erase old⟩)
      exact fun hc => hnew (List.mem_of_mem_erase hc)
    · intro a b ha hb hab
      rcases hmem2 a ha with rfl | ⟨ha1, ha2⟩ <;> rcases hmem2 b hb with rfl | ⟨hb1, hb2⟩
      · rfl
      · exact absurd (wf.distinct b old hb1 holdmem (hab.symm.trans hkh)) hb2
      · exact absurd (wf.distinct a old ha1 holdmem (hab.trans hkh)) ha2
      · exact wf.distinct a b ha1 hb1 hab
    · show t.elems_ = t2.entries.length
      rw [hent, hperm.length_eq, List.length_cons, List.length_erase_of_mem holdmem, wf.elems]
      have := List.length_pos_of_mem holdmem
      omega

/-- `Insert` of a handle whose key is not linked, into a table of fewer than `2^31`
handles: it returns `NULL`, the handle is linked in addition to the others, and the table
is resized exactly when the new count exceeds the slot count. -/
theorem TableWF.insert_new {heap : Heap} {t : HandleTable} (wf : TableWF heap t)
    {h : Ptr} {hd : LRUHandle} (hh : heap h = some hd) (hnew : h ∉ t.entries)
    (hl : t.Lookup heap hd.key hd.hash = none) (hsz : t.elems_ < 2147483648) :
    ∃ t2, t.Insert heap h = some (none, t2) ∧ TableWF heap t2 ∧
      t2.entries.Perm (h :: t.entries) ∧ t2.elems_ = t.elems_ + 1 ∧
      (if t.elems_ + 1 > t.length_ then t2.length_ = 2 * t.length_
        else t2.length_ = t.length_ ∧
          t2.list_ = t.list_.set (t.bucket hd.hash) (t.chain (t.bucket hd.hash) ++ [h])) := by
  have hderef : t.deref (t.FindPointer heap hd.key hd.hash) = none := hl
  obtain ⟨A, B, f1, f2⟩ := flatten_set t.list_ (wf.bucket_lt hd.hash)
  have hmod : (t.elems_ + 1) % two32 = t.elems_ + 1 := by unfold two32; omega
  set t1 : HandleTable := { t with
      list_ := t.list_.set (t.bucket hd.hash) (t.chain (t.bucket hd.hash) ++ [h]),
      elems_ := (t.elems_ + 1) % two32 } with ht1
  have hent : t1.entries = A ++ (t.chain (t.bucket hd.hash) ++ [h]) ++ B := f2 _
  have hperm : t1.entries.Perm (h :: t.entries) := by
    rw [hent]
    unfold HandleTable.entries
    rw [f1, List.perm_iff_count]
    intro a
    unfold HandleTable.chain
    simp only [List.count_append, List.count_cons, List.count_nil]
    omega
  have hnd1 : t1.entries.Nodup := hperm.nodup_iff.2 (List.nodup_cons.2 ⟨hnew, wf.nodup⟩)
  have hnone := (wf.lookup_eq_none_iff _ _).1 hl
  have hdist1 : ∀ p q, p ∈ t1.entries → q ∈ t1.entries → kh heap p = kh heap q → p = q := by
    intro a b ha hb hab
    rcases List.mem_cons.1 (hperm.mem_iff.1 ha) with rfl | ha1 <;>
      rcases List.mem_cons.1 (hperm.mem_iff.1 hb) with rfl | hb1
    · rfl
    · exact absurd (hab.symm.trans (kh_some hh)) (hnone b hb1)
    · exact absurd (hab.trans (kh_some hh)) (hnone a ha1)
    · exact wf.distinct a b ha1 hb1 hab
  have hel1 : t1.elems_ = t1.entries.length := by
    show (t.elems_ + 1) % two32 = _
    rw [hmod, hperm.length_eq, List.length_cons, wf.elems]
  have hIns : t.Insert heap h =
      if t1.elems_ > t1.length_ then (t1.Resize heap).map (fun t2 => (none, t2))
      else some (none, t1) := by
    unfold HandleTable.Insert
    simp only [hh, hderef]
    rfl
  have hlen1 : t1.length_ = t.length_ := rfl
  have hel1' : t1.elems_ = t.elems_ + 1 := hmod
  by_cases hgt : t.elems_ + 1 > t.length_
  · have hlive1 : ∀ p ∈ t1.entries, ∃ hd, heap p = some hd := by
      intro p hp
      rcases List.mem_cons.1 (hperm.mem_iff.1 hp) with rfl | h1
      · exact ⟨hd, hh⟩
      · exact wf.entryLive h1
    obtain ⟨t2, r1, r2, r3, r4, j, j1, j2, j3, j4, j5⟩ :=
      resize_spec hlive1 hnd1 hdist1 hel1 (by rw [hel1']; omega)
    refine ⟨t2, ?_, r2, r3.trans hperm, by rw [r4, hel1'], ?_⟩
    · rw [hIns, if_pos (by rw [hel1', hlen1]; exact hgt), r1]; rfl
    · rw [if_pos hgt, j3]
      obtain ⟨k, k1, k2, k3⟩ := wf.pow
      have hload := wf.load
      have heq : t.elems_ = 2 ^ k := by omega
      rw [hel1', heq] at j4 j5
      rw [k3]
      have hkj : k < j := by
        by_contra hc
        have : 2 ^ j ≤ 2 ^ k := Nat.pow_le_pow_right (by norm_num) (by omega)
        omega
      have hjk : j ≤ k + 1 := by
        by_contra hc
        rcases j5 with rfl | j5
        · omega
        · have : 2 ^ (k + 1) ≤ 2 ^ (j - 1) := Nat.pow_le_pow_right (by norm_num) (by omega)
          have h2 : 2 ^ (k + 1) = 2 * 2 ^ k := by ring
          have h4 := four_le_two_pow k1
          omega
      have : j = k + 1 := by omega
      subst this
      ring
  · refine ⟨t1, ?_, ?_, hperm, hel1', ?_⟩
    · rw [hIns, if_neg (by rw [hel1', hlen1]; exact hgt)]
    · refine ⟨?_, wf.pow, ?_, hnd1, hdist1, hel1, by rw [hel1', hlen1]; omega⟩
      · simp [ht1, wf.len]
      · intro i q hq
        by_cases hi : i = t.bucket hd.hash
        · subst hi
          rw [ht1, chain_set_self (wf.bucket_lt _)] at hq
          rcases List.mem_append.1 hq with h3 | h3
          · exact wf.bucket _ q h3
          · have : q = h := by simpa using h3
            subst this
            exact ⟨hd, hh, (wf.bucket_eq _).symm⟩
        · rw [ht1, chain_set_ne hi] at hq
          exact wf.bucket i q hq
    · rw [if_neg hgt]
      exact ⟨rfl, rfl⟩

@[simp] theorem Heap.store_self (heap : Heap) (p : Ptr) (h : LRUHandle) :
    heap.store p h p = some h := by
  simp [Heap.store]

@[simp] theorem Heap.store_ne (heap : Heap) {p q : Ptr} (h : LRUHandle) (hq : q ≠ p) :
    heap.store p h q = heap q := by
  simp [Heap.store, hq]

@[simp] theorem Heap.free_self (heap : Heap) (p : Ptr) : heap.free p p = none := by
  simp [Heap.free]

@[simp] theorem Heap.free_ne (heap : Heap) {p q : Ptr} (hq : q ≠ p) :
    heap.free p q = heap q := by
  simp [Heap.free, hq]

/-- What `Unref` does to a handle that is allocated with a non-zero count. -/
theorem unref_eq {s : LRUCache} {e : Ptr} {h : LRUHandle} (hh : s.heap e = some h)
    (hr : 1 ≤ h.refs) :
    s.Unref e = some (s.afterUnref e h) := by
  unfold LRUCache.Unref LRUCache.afterUnref LRUHandle.unref
  simp only [hh]
  have h0 : ¬ h.refs = 0 := by omega
  rw [if_neg h0]
  by_cases h1 : h.refs = 1
  · rw [if_pos (by omega), if_pos h1]
  · rw [if_neg (by omega), if_neg h1]

/-- `Unref` touches neither the list nor the table nor the capacity, and no other handle. -/
theorem unref_frame {s s2 : LRUCache} {e : Ptr} (hu : s.Unref e = some s2) :
    s2.lru_ = s.lru_ ∧ s2.table_ = s.table_ ∧ s2.capacity_ = s.capacity_ ∧
      s2.last_id_ = s.last_id_ ∧ ∀ q, q ≠ e → s2.heap q = s.heap q := by
  unfold LRUCache.Unref at hu
  cases hh : s.heap e with
  | none => simp [hh] at hu
  | some h =>
    simp only [hh] at hu
    split at hu
    · cases hu
    · split at hu <;> (cases hu; exact ⟨rfl, rfl, rfl, rfl, fun q hq => by simp [hq]⟩)

/-- The invariant is kept by a change of the heap that leaves the key, hash and non-zero
count of the listed handles alone. -/
theorem CacheInv.frame {s s2 : LRUCache} (inv : CacheInv s) (ht : s2.table_ = s.table_)
    (hl : s2.lru_ = s.lru_)
    (hk : ∀ p ∈ s.lru_, kh s2.heap p = kh s.heap p)
    (hr : ∀ p ∈ s.lru_, ∀ h, s2.heap p = some h → 1 ≤ h.refs) : CacheInv s2 := by
  refine ⟨?_, ?_, ?_, ?_⟩
  · rw [ht]
    exact inv.table.heap_congr (fun p hp => hk p (inv.perm.mem_iff.1 hp))
  · rw [ht, hl]; exact inv.perm
  · rw [hl]; exact inv.nodup
  · rw [hl]; exact hr

theorem CacheInv.listedLive {s : LRUCache} (inv : CacheInv s) {p : Ptr} (hp : p ∈ s.lru_) :
    ∃ h, s.heap p = some h ∧ 1 ≤ h.refs := by
  obtain ⟨h, hh⟩ := inv.table.entryLive (inv.perm.mem_iff.2 hp)
  exact ⟨h, hh, inv.refs p hp h hh⟩

/-- `Unref` of a handle that is not in the list keeps the invariant. -/
theorem CacheInv.unrefInv {s s2 : LRUCache} (inv : CacheInv s) {e : Ptr} (he : e ∉ s.lru_)
    (hu : s.Unref e = some s2) : CacheInv s2 := by
  obtain ⟨h1, h2, -, -, h5⟩ := unref_frame hu
  have hne : ∀ p ∈ s.lru_, p ≠ e := fun p hp hpe => he (hpe ▸ hp)
  refine inv.frame h2 h1 (fun p hp => ?_) (fun p hp h hh => ?_)
  · unfold kh; rw [h5 p (hne p hp)]
  · rw [h5 p (hne p hp)] at hh
    exact inv.refs p hp h hh

/-- Unlinking a listed handle from the table and from the list keeps the invariant. -/
theorem CacheInv.unlinkInv {s : LRUCache} (inv : CacheInv s) {e : Ptr} (he : e ∈ s.lru_)
    {key : Slice} {hash : Nat} (hk : kh s.heap e = some (key, hash)) :
    s.table_.Lookup s.heap key hash = some e ∧
    CacheInv { s with table_ := (s.table_.Remove s.heap key hash).2, lru_ := s.lru_.erase e } ∧
    (s.table_.Remove s.heap key hash).1 = some e := by
  have hl : s.table_.Lookup s.heap key hash = some e :=
    (inv.table.lookup_eq_some_iff key hash e).2 ⟨inv.perm.mem_iff.2 he, hk⟩
  obtain ⟨t2, r1, r2, r3, -, -⟩ := inv.table.remove_some hl
  refine ⟨hl, ?_, by rw [r1]⟩
  rw [r1]
  refine ⟨r2, ?_, inv.nodup.erase e, ?_⟩
  · show t2.entries.Perm (s.lru_.erase e)
    rw [r3]; exact inv.perm.erase e
  · intro p hp h hh
    exact inv.refs p (List.mem_of_mem_erase hp) h hh

theorem afterUnref_frame (s : LRUCache) (e : Ptr) (h : LRUHandle) :
    (s.afterUnref e h).lru_ = s.lru_ ∧ (s.afterUnref e h).table_ = s.table_ ∧
      (s.afterUnref e h).capacity_ = s.capacity_ ∧
      ∀ q, q ≠ e → (s.afterUnref e h).heap q = s.heap q := by
  unfold LRUCache.afterUnref
  split <;> exact ⟨rfl, rfl, rfl, fun q hq => by simp [hq]⟩

theorem afterUnref_free (s : LRUCache) (e : Ptr) {h : LRUHandle} (hr : h.refs = 1) :
    (s.afterUnref e h).heap e = none ∧
      (s.afterUnref e h).deleted = s.deleted ++ [⟨e, h.deleter, h.key, h.value⟩] ∧
      (s.afterUnref e h).usage_ = (s.usage_ + (two64 - h.charge % two64)) % two64 := by
  unfold LRUCache.afterUnref
  rw [if_pos hr]
  exact ⟨by simp, rfl, rfl⟩

theorem afterUnref_keep (s : LRUCache) (e : Ptr) {h : LRUHandle} (hr : h.refs ≠ 1) :
    (s.afterUnref e h).heap e = some h.unref ∧
      (s.afterUnref e h).deleted = s.deleted ∧ (s.afterUnref e h).usage_ = s.usage_ := by
  unfold LRUCache.afterUnref
  rw [if_neg hr]
  exact ⟨by simp, rfl, rfl⟩

/-- One eviction of the oldest handle: it leaves the list and the table and loses one
reference. -/
theorem evictOne_spec {s : LRUCache} (inv : CacheInv s) {old : Ptr} {rest : List Ptr}
    (hl : s.lru_ = old :: rest) :
    ∃ h, s.heap old = some h ∧ 1 ≤ h.refs ∧
      s.evictOne old = some
        (({ s with table_ := (s.table_.Remove s.heap h.key h.hash).2, lru_ := rest } :
          LRUCache).afterUnref old h) ∧
      CacheInv (({ s with table_ := (s.table_.Remove s.heap h.key h.hash).2, lru_ := rest } :
          LRUCache).afterUnref old h) := by
  have hmem : old ∈ s.lru_ := by rw [hl]; exact List.mem_cons_self _ _
  obtain ⟨h, hh, hr⟩ := inv.listedLive hmem
  obtain ⟨-, inv2, -⟩ := inv.unlinkInv hmem (kh_some hh)
  have herase : s.lru_.erase old = rest := by rw [hl, List.erase_cons_head]
  rw [herase] at inv2
  have hnot : old ∉ rest := by
    have := inv.nodup
    rw [hl] at this
    exact (List.nodup_cons.1 this).1
  have hu : ({ s with table_ := (s.table_.Remove s.heap h.key h.hash).2, lru_ := rest } :
      LRUCache).Unref old = some _ := unref_eq (s := { s with
        table_ := (s.table_.Remove s.heap h.key h.hash).2, lru_ := rest }) hh hr
  refine ⟨h, hh, hr, ?_, inv2.unrefInv hnot hu⟩
  unfold LRUCache.evictOne LRUCache.LRU_Remove
  simp only [hh, herase]
  exact hu

/-- `Erase` of a key that is not cached changes nothing. -/
theorem erase_miss {s : LRUCache} {key : Slice} {hash : Nat}
    (h : s.table_.Lookup s.heap key hash = none) : s.Erase key hash = some s := by
  unfold LRUCache.Erase
  rw [TableWF.remove_none h]

/-- `Erase` of a cached key. -/
theorem erase_hit {s : LRUCache} (inv : CacheInv s) {key : Slice} {hash : Nat} {e : Ptr}
    (hl : s.table_.Lookup s.heap key hash = some e) :
    ∃ h, s.heap e = some h ∧ 1 ≤ h.refs ∧ h.key = key ∧ h.hash = hash ∧ e ∈ s.lru_ ∧
      s.Erase key hash = some
        (({ s with table_ := (s.table_.Remove s.heap key hash).2, lru_ := s.lru_.erase e } :
          LRUCache).afterUnref e h) ∧
      CacheInv (({ s with table_ := (s.table_.Remove s.heap key hash).2,
                          lru_ := s.lru_.erase e } : LRUCache).afterUnref e h) := by
  obtain ⟨hmemT, hk⟩ := (inv.table.lookup_eq_some_iff key hash e).1 hl
  have hmem : e ∈ s.lru_ := inv.perm.mem_iff.1 hmemT
  obtain ⟨h, hh, hr⟩ := inv.listedLive hmem
  obtain ⟨h', hh', hk1, hk2⟩ := kh_eq_some_iff.1 hk
  rw [hh] at hh'; cases hh'
  obtain ⟨-, inv2, hrm⟩ := inv.unlinkInv hmem hk
  have hnot : e ∉ s.lru_.erase e := fun hc => ((List.Nodup.mem_erase_iff inv.nodup).1 hc).1 rfl
  have hu : ({ s with table_ := (s.table_.Remove s.heap key hash).2,
                      lru_ := s.lru_.erase e } : LRUCache).Unref e = some _ :=
    unref_eq (s := { s with table_ := (s.table_.Remove s.heap key hash).2,
                            lru_ := s.lru_.erase e }) hh hr
  refine ⟨h, hh, hr, hk1, hk2, hmem, ?_, inv2.unrefInv hnot hu⟩
  unfold LRUCache.Erase
  obtain ⟨t2, r1, -⟩ := inv.table.remove_some hl
  rw [r1] at hu ⊢
  exact hu

theorem table_lookup_live {t : HandleTable} {heap : Heap} {key : Slice} {hash : Nat} {e : Ptr}
    (h : t.Lookup heap key hash = some e) :
    ∃ hd, heap e = some hd ∧ hd.key = key ∧ hd.hash = hash := by
  have hd : (t.chain (t.bucket hash))[chainWalk heap key hash (t.chain (t.bucket hash))]? =
      some e := h
  exact kh_eq_some_iff.1 ((entryMatches_iff _ _ _ _).1 (chainWalk_hit hd).1)

theorem lookup_miss {s : LRUCache} {key : Slice} {hash : Nat}
    (h : s.table_.Lookup s.heap key hash = none) : s.Lookup key hash = (none, s) := by
  unfold LRUCache.Lookup
  rw [h]

theorem lookup_hit {s : LRUCache} {key : Slice} {hash : Nat} {e : Ptr} {hd : LRUHandle}
    (h : s.table_.Lookup s.heap key hash = some e) (hh : s.heap e = some hd) :
    s.Lookup key hash = (some e,
      { s with heap := s.heap.store e { hd with refs := (hd.refs + 1) % two32 },
               lru_ := s.lru_.erase e ++ [e] }) := by
  unfold LRUCache.Lookup LRUCache.LRU_Remove LRUCache.LRU_Append
  simp only [h, hh]

theorem lookup_fst (s : LRUCache) (key : Slice) (hash : Nat) :
    (s.Lookup key hash).1 = s.table_.Lookup s.heap key hash := by
  cases h : s.table_.Lookup s.heap key hash with
  | none => rw [lookup_miss h]
  | some e =>
    obtain ⟨hd, hh, -⟩ := table_lookup_live h
    rw [lookup_hit h hh]

theorem filter_ne_erase_append {l : List Ptr} {e : Ptr} (hnd : l.Nodup) :
    (l.erase e ++ [e]).filter (fun q => decide (q ≠ e)) = l.filter (fun q => decide (q ≠ e)) := by
  rw [List.filter_append, hnd.erase_eq_filter, List.filter_filter]
  simp only [List.filter_cons, List.filter_nil, ne_eq, not_true_eq_false, decide_False,
    Bool.false_eq_true, if_false, List.append_nil]
  apply List.filter_congr
  intro a _
  by_cases h : a = e <;> simp [h]

theorem kh_store_ne (heap : Heap) {p q : Ptr} (h : LRUHandle) (hq : q ≠ p) :
    kh (heap.store p h) q = kh heap q := by
  unfold kh; rw [Heap.store_ne _ _ hq]

/-- The first half of `Insert`: the new handle is allocated, appended to the list, charged
and linked in the table, and a handle it replaces is unlinked and loses one reference.  The
state `s6` so reached satisfies the invariant, and `Insert` is the eviction loop run on
it. -/
theorem insert_link {s : LRUCache} (inv : CacheInv s) {e : Ptr} (hfresh : s.heap e = none)
    (key : Slice) (hash value charge deleter : Nat)
    (hsz : s.table_.Lookup s.heap key hash = none → s.table_.elems_ < 2147483648) :
    ∃ (t2 : HandleTable) (s6 : LRUCache),
      s.Insert e key hash value charge deleter =
        (LRUCache.evictLoop s6.lru_.length s6).map (fun s7 => (e, s7)) ∧
      CacheInv s6 ∧ e ∉ s.lru_ ∧
      ((s.table_.Lookup s.heap key hash = none ∧
          s6 = { s with heap := s.heap.store e ⟨value, deleter, charge, key, 2, hash⟩,
                        lru_ := s.lru_ ++ [e], usage_ := (s.usage_ + charge) % two64,
                        table_ := t2 }) ∨
       (∃ old ho, s.table_.Lookup s.heap key hash = some old ∧ s.heap old = some ho ∧
          1 ≤ ho.refs ∧ old ∈ s.lru_ ∧ old ≠ e ∧
          s6 = ({ s with heap := s.heap.store e ⟨value, deleter, charge, key, 2, hash⟩,
                         lru_ := s.lru_.erase old ++ [e],
                         usage_ := (s.usage_ + charge) % two64,
                         table_ := t2 } : LRUCache).afterUnref old ho)) := by
  set new : LRUHandle := ⟨value, deleter, charge, key, 2, hash⟩ with hnew
  set heap3 : Heap := s.heap.store e new with hheap3
  have he_lru : e ∉ s.lru_ := by
    intro hc
    obtain ⟨h, hh, -⟩ := inv.listedLive hc
    rw [hfresh] at hh; cases hh
  have he_ent : e ∉ s.table_.entries := fun hc => he_lru (inv.perm.mem_iff.1 hc)
  have hne : ∀ p ∈ s.lru_, p ≠ e := fun p hp hpe => he_lru (hpe ▸ hp)
  have hkh : ∀ p ∈ s.table_.entries, kh heap3 p = kh s.heap p := fun p hp =>
    kh_store_ne _ _ (hne p (inv.perm.mem_iff.1 hp))
  have wf3 : TableWF heap3 s.table_ := inv.table.heap_congr hkh
  have hh3 : heap3 e = some new := Heap.store_self _ _ _
  have hlk : s.table_.Lookup heap3 key hash = s.table_.Lookup s.heap key hash :=
    lookup_heap_congr hkh key hash
  cases hl : s.table_.Lookup s.heap key hash with
  | none =>
    have hl3 : s.table_.Lookup heap3 new.key new.hash = none := by rw [← hl, ← hlk]; rfl
    obtain ⟨t2, r1, r2, r3, -, -⟩ := wf3.insert_new hh3 he_ent hl3 (hsz hl)
    refine ⟨t2, { s with heap := heap3, lru_ := s.lru_ ++ [e],
                         usage_ := (s.usage_ + charge) % two64, table_ := t2 }, ?_, ?_,
      he_lru, Or.inl ⟨rfl, rfl⟩⟩
    · unfold LRUCache.Insert LRUCache.LRU_Append
      simp only [← hnew, ← hheap3, r1]
      cases LRUCache.evictLoop _ _ <;> rfl
    · refine ⟨r2, ?_, ?_, ?_⟩
      · refine r3.trans ?_
        show (e :: s.table_.entries).Perm (s.lru_ ++ [e])
        exact (List.Perm.cons e inv.perm).trans (List.perm_append_singleton e s.lru_).symm
      · show (s.lru_ ++ [e]).Nodup
        exact List.Nodup.append inv.nodup (List.nodup_singleton e)
          (by simpa using he_lru)
      · intro p hp h hh
        have hp' : p ∈ s.lru_ ++ [e] := hp
        have hh' : heap3 p = some h := hh
        by_cases hpe : p = e
        · subst hpe
          rw [hh3] at hh'; cases hh'
          show 1 ≤ 2; omega
        · rw [hheap3, Heap.store_ne _ _ hpe] at hh'
          have : p ∈ s.lru_ := by simpa [hpe] using hp'
          exact inv.refs p this h hh'
  | some old =>
    have hl3 : s.table_.Lookup heap3 new.key new.hash = some old := by rw [← hl, ← hlk]; rfl
    obtain ⟨holdT, -⟩ := (inv.table.lookup_eq_some_iff key hash old).1 hl
    have hold : old ∈ s.lru_ := inv.perm.mem_iff.1 holdT
    obtain ⟨ho, hho, hor⟩ := inv.listedLive hold
    have holde : old ≠ e := hne old hold
    obtain ⟨t2, r1, r2, r3, -, -⟩ := wf3.insert_replace hh3 he_ent hl3
    have herase : (s.lru_ ++ [e]).erase old = s.lru_.erase old ++ [e] :=
      List.erase_append_left _ hold
    have hho3 : heap3 old = some ho := by rw [hheap3, Heap.store_ne _ _ holde]; exact hho
    let s5 : LRUCache :=
      { s with heap := heap3, lru_ := s.lru_.erase old ++ [e],
               usage_ := (s.usage_ + charge) % two64, table_ := t2 }
    have hu : s5.Unref old = some (s5.afterUnref old ho) := unref_eq (s := s5) hho3 hor
    have inv5 : CacheInv s5 := by
      refine ⟨r2, ?_, ?_, ?_⟩
      · refine r3.trans ?_
        show (e :: s.table_.entries.erase old).Perm (s.lru_.erase old ++ [e])
        exact (List.Perm.cons e (inv.perm.erase old)).trans
          (List.perm_append_singleton e _).symm
      · show (s.lru_.erase old ++ [e]).Nodup
        refine List.Nodup.append (inv.nodup.erase old) (List.nodup_singleton e) ?_
        simpa using fun hc => he_lru (List.mem_of_mem_erase hc)
      · intro p hp h hh
        have hp' : p ∈ s.lru_.erase old ++ [e] := hp
        have hh' : heap3 p = some h := hh
        by_cases hpe : p = e
        · subst hpe
          rw [hh3] at hh'; cases hh'
          show 1 ≤ 2; omega
        · rw [hheap3, Heap.store_ne _ _ hpe] at hh'
          have : p ∈ s.lru_.erase old := by simpa [hpe] using hp'
          exact inv.refs p (List.mem_of_mem_erase this) h hh'
    have hnot : old ∉ s5.lru_ := by
      show old ∉ s.lru_.erase old ++ [e]
      simp only [List.mem_append, List.mem_singleton, not_or]
      exact ⟨fun hc => ((List.Nodup.mem_erase_iff inv.nodup).1 hc).1 rfl, holde⟩
    refine ⟨t2, s5.afterUnref old ho, ?_, inv5.unrefInv hnot hu, he_lru,
      Or.inr ⟨old, ho, rfl, hho, hor, hold, holde, rfl⟩⟩
    unfold LRUCache.Insert LRUCache.LRU_Append LRUCache.LRU_Remove
    simp only [← hnew, ← hheap3, r1, herase]
    rw [show ({ s with heap := heap3, lru_ := s.lru_.erase old ++ [e],
                       usage_ := (s.usage_ + charge) % two64,
                       table_ := t2 } : LRUCache) = s5 from rfl, hu]
    simp only
    cases LRUCache.evictLoop _ _ <;> rfl

theorem afterUnref_heap {s : LRUCache} {e : Ptr} {h : LRUHandle} (hh : s.heap e = some h) :
    (s.afterUnref e h).heap = unrefHeap s.heap [e] := by
  funext q
  unfold LRUCache.afterUnref unrefHeap
  by_cases hq : q = e
  · subst hq
    simp only [List.mem_singleton, if_true, hh]
    split <;> simp
  · simp only [List.mem_singleton, hq, if_false]
    split <;> simp [hq]

theorem afterUnref_deleted {s : LRUCache} {e : Ptr} {h : LRUHandle} (hh : s.heap e = some h) :
    (s.afterUnref e h).deleted = s.deleted ++ deleterCalls s.heap [e] := by
  unfold LRUCache.afterUnref deleterCalls
  simp only [List.filterMap_cons, List.filterMap_nil, hh]
  split <;> simp

theorem unrefHeap_nil (heap : Heap) : unrefHeap heap [] = heap := by
  funext q; simp [unrefHeap]

theorem unrefHeap_cons {heap : Heap} {p : Ptr} {U : List Ptr} (hp : p ∉ U) :
    unrefHeap (unrefHeap heap [p]) U = unrefHeap heap (p :: U) := by
  funext q
  unfold unrefHeap
  by_cases hq : q ∈ U
  · have hqp : q ≠ p := fun h => hp (h ▸ hq)
    simp [hq, hqp]
  · by_cases hqp : q = p
    · subst hqp; simp [hq]
    · simp [hq, hqp]

theorem deleterCalls_congr {heap heap2 : Heap} {U : List Ptr}
    (h : ∀ q ∈ U, heap2 q = heap q) : deleterCalls heap2 U = deleterCalls heap U := by
  unfold deleterCalls
  induction U with
  | nil => rfl
  | cons a rest ih =>
    simp only [List.filterMap_cons, h a (List.mem_cons_self _ _)]
    rw [ih (fun q hq => h q (List.mem_cons_of_mem _ hq))]

theorem deleterCalls_cons {heap : Heap} {p : Ptr} {U : List Ptr} (hp : p ∉ U) :
    deleterCalls heap [p] ++ deleterCalls (unrefHeap heap [p]) U = deleterCalls heap (p :: U) := by
  rw [@deleterCalls_congr heap (unrefHeap heap [p]) U]
  · unfold deleterCalls
    simp only [List.filterMap_cons, List.filterMap_nil]
    split <;> simp
  · intro q hq
    have : q ≠ p := fun h => hp (h ▸ hq)
    simp [unrefHeap, this]

/-- Evicting a prefix of the list, oldest first: every victim leaves the list and the
table and loses one reference; nothing else changes. -/
theorem evictSeq_spec : ∀ (victims : List Ptr) (s : LRUCache) (rest : List Ptr),
    CacheInv s → s.lru_ = victims ++ rest →
    ∃ s2, s.evictSeq victims = some s2 ∧ CacheInv s2 ∧ s2.lru_ = rest ∧
      s2.capacity_ = s.capacity_ ∧ s2.heap = unrefHeap s.heap victims ∧
      s2.deleted = s.deleted ++ deleterCalls s.heap victims := by
  intro victims
  induction victims with
  | nil =>
    intro s rest inv hl
    exact ⟨s, rfl, inv, by simpa using hl, rfl, (unrefHeap_nil _).symm, by simp [deleterCalls]⟩
  | cons old vs ih =>
    intro s rest inv hl
    have hl' : s.lru_ = old :: (vs ++ rest) := by simpa using hl
    obtain ⟨h, hh, hr, he, inv1⟩ := evictOne_spec inv hl'
    obtain ⟨f1, -, f3, -⟩ := afterUnref_frame
      ({ s with table_ := (s.table_.Remove s.heap h.key h.hash).2, lru_ := vs ++ rest } : LRUCache)
      old h
    obtain ⟨s2, g1, g2, g3, g4, g5, g6⟩ := ih _ rest inv1 f1
    have hnot : old ∉ vs := by
      have := inv.nodup
      rw [hl'] at this
      exact fun hc => (List.nodup_cons.1 this).1 (List.mem_append_left _ hc)
    have hheap1 := afterUnref_heap (s := { s with
      table_ := (s.table_.Remove s.heap h.key h.hash).2, lru_ := vs ++ rest }) hh
    have hdel1 := afterUnref_deleted (s := { s with
      table_ := (s.table_.Remove s.heap h.key h.hash).2, lru_ := vs ++ rest }) hh
    refine ⟨s2, ?_, g2, g3, by rw [g4, f3], ?_, ?_⟩
    · simp only [LRUCache.evictSeq, he]
      exact g1
    · rw [g5, hheap1]
      exact unrefHeap_cons hnot
    · rw [g6, hdel1, hheap1, List.append_assoc]
      congr 1
      exact deleterCalls_cons hnot

theorem evictLoop_noop {s : LRUCache} (h : s.usage_ ≤ s.capacity_) (fuel : Nat) :
    LRUCache.evictLoop fuel s = some s := by
  cases fuel with
  | zero =>
    unfold LRUCache.evictLoop
    rw [if_neg]; intro hc; omega
  | succ n =>
    unfold LRUCache.evictLoop
    split
    · rfl
    · rw [if_neg]; omega

/-- The eviction loop, given one unit of fuel per listed handle, stops; it has evicted a
prefix of the list, oldest first, and on exit the usage is within the capacity or the list
is empty. -/
theorem evictLoop_spec : ∀ (fuel : Nat) (s : LRUCache), CacheInv s → s.lru_.length ≤ fuel →
    ∃ k s2, k ≤ s.lru_.length ∧ LRUCache.evictLoop fuel s = some s2 ∧
      s.evictSeq (s.lru_.take k) = some s2 ∧ (s2.usage_ ≤ s2.capacity_ ∨ s2.lru_ = []) := by
  intro fuel
  induction fuel with
  | zero =>
    intro s _ hlen
    have hnil : s.lru_ = [] := List.length_eq_zero.1 (by omega)
    refine ⟨0, s, by omega, ?_, by simp [LRUCache.evictSeq], Or.inr hnil⟩
    unfold LRUCache.evictLoop
    rw [if_neg]; intro hc; exact hc.2 hnil
  | succ n ih =>
    intro s inv hlen
    cases hl : s.lru_ with
    | nil =>
      refine ⟨0, s, by omega, ?_, by simp [LRUCache.evictSeq], Or.inr hl⟩
      unfold LRUCache.evictLoop
      simp only [hl]
    | cons old rest =>
      by_cases hu : s.usage_ > s.capacity_
      · obtain ⟨h, hh, hr, he, inv1⟩ := evictOne_spec inv hl
        obtain ⟨f1, -, -, -⟩ := afterUnref_frame
          ({ s with table_ := (s.table_.Remove s.heap h.key h.hash).2, lru_ := rest } : LRUCache)
          old h
        have hlen1 : (LRUCache.afterUnref { s with
            table_ := (s.table_.Remove s.heap h.key h.hash).2, lru_ := rest } old h).lru_.length
              ≤ n := by
          rw [f1]; rw [hl] at hlen; simpa using hlen
        obtain ⟨k, s2, k1, k2, k3, k4⟩ := ih _ inv1 hlen1
        rw [f1] at k1 k3
        refine ⟨k + 1, s2, by simpa using k1, ?_, ?_, k4⟩
        · unfold LRUCache.evictLoop
          simp only [hl, hu, if_true, he]
          exact k2
        · simp only [List.take_succ_cons, LRUCache.evictSeq, he]
          exact k3
      · refine ⟨0, s, by omega, evictLoop_noop (by omega) _, by simp [LRUCache.evictSeq],
          Or.inl (by omega)⟩

/-- C5, as amended.  In a shard that satisfies the structural invariant, a `Lookup` that
hits entry `e` increments the reference count of `e` by one in 32-bit arithmetic (by exactly
`1` while the count is below `2^32 - 1`), makes `e` the last entry of the LRU list, leaves
the relative order of the other entries, every other handle, the table, the usage counter,
the capacity and the deleter log unchanged; a `Lookup` that misses returns the null handle
and leaves the whole state unchanged. -/
theorem C5_lookup_frame (s : LRUCache) (inv : CacheInv s) (key : Slice) (hash : Nat) :
    (∀ e, (s.Lookup key hash).1 = some e →
      ∃ h, s.heap e = some h ∧ h.key = key ∧ h.hash = hash ∧ e ∈ s.lru_ ∧
        (s.Lookup key hash).2.heap e = some { h with refs := (h.refs + 1) % two32 } ∧
        (h.refs + 1 < two32 →
          (s.Lookup key hash).2.heap e = some { h with refs := h.refs + 1 }) ∧
        (∀ q, q ≠ e → (s.Lookup key hash).2.heap q = s.heap q) ∧
        (s.Lookup key hash).2.lru_ = s.lru_.erase e ++ [e] ∧
        (s.Lookup key hash).2.lru_.getLast? = some e ∧
        (s.Lookup key hash).2.lru_.filter (fun q => decide (q ≠ e)) =
          s.lru_.filter (fun q => decide (q ≠ e)) ∧
        (s.Lookup key hash).2.table_ = s.table_ ∧
        (s.Lookup key hash).2.usage_ = s.usage_ ∧
        (s.Lookup key hash).2.capacity_ = s.capacity_ ∧
        (s.Lookup key hash).2.deleted = s.deleted) ∧
    ((s.Lookup key hash).1 = none → (s.Lookup key hash).2 = s) := by
  constructor
  · intro e he
    rw [lookup_fst] at he
    obtain ⟨h, hh, hk1, hk2⟩ := table_lookup_live he
    have hmem : e ∈ s.lru_ :=
      inv.perm.mem_iff.1 ((inv.table.lookup_eq_some_iff key hash e).1 he).1
    rw [lookup_hit he hh]
    refine ⟨h, hh, hk1, hk2, hmem, by simp, ?_, fun q hq => by simp [hq], rfl, by simp,
      filter_ne_erase_append inv.nodup, rfl, rfl, rfl, rfl⟩
    intro hlt
    simp [Nat.mod_eq_of_lt hlt]
  · intro hn
    rw [lookup_fst] at hn
    rw [lookup_miss hn]

/-- C7.  In a shard that satisfies the structural invariant, `Erase(key, hash)` returns;
afterwards `Lookup(key, hash)` is absent; every cached entry with another key or hash is
still cached, with the same handle contents (reference count, value), is still found by
`Lookup`, and the LRU list is the old list without the erased entry, in the same order; if
the key was absent before, the state is unchanged (no deleter is called). -/
theorem C7_erase_frame (s : LRUCache) (inv : CacheInv s) (key : Slice) (hash : Nat) :
    ∃ s2, s.Erase key hash = some s2 ∧
      (s2.Lookup key hash).1 = none ∧
      (∀ q h, q ∈ s.lru_ → s.heap q = some h → (h.key, h.hash) ≠ (key, hash) →
        q ∈ s2.lru_ ∧ s2.heap q = some h ∧ (s2.Lookup h.key h.hash).1 = some q) ∧
      s2.lru_ = s.lru_.filter (fun q => decide (kh s.heap q ≠ some (key, hash))) ∧
      ((s.Lookup key hash).1 = none → s2 = s) := by
  cases hl : s.table_.Lookup s.heap key hash with
  | none =>
    have hnone := (inv.table.lookup_eq_none_iff key hash).1 hl
    refine ⟨s, erase_miss hl, by rw [lookup_fst]; exact hl, ?_, ?_, fun _ => rfl⟩
    · intro q h hq hh _
      refine ⟨hq, hh, ?_⟩
      rw [lookup_fst]
      exact (inv.table.lookup_eq_some_iff _ _ _).2 ⟨inv.perm.mem_iff.2 hq, kh_some hh⟩
    · symm
      rw [List.filter_eq_self]
      intro q hq
      simpa using hnone q (inv.perm.mem_iff.2 hq)
  | some e =>
    obtain ⟨h, hh, hr, hk1, hk2, hmem, he, inv2⟩ := erase_hit inv hl
    obtain ⟨f1, f2, -, f4⟩ := afterUnref_frame
      ({ s with table_ := (s.table_.Remove s.heap key hash).2, lru_ := s.lru_.erase e } :
        LRUCache) e h
    have hkh : kh s.heap e = some (key, hash) := by rw [kh_some hh, hk1, hk2]
    have hne : ∀ q ∈ s.lru_, (q ≠ e ↔ kh s.heap q ≠ some (key, hash)) := by
      intro q hq
      constructor
      · intro hqe hc
        exact hqe (inv.table.distinct q e (inv.perm.mem_iff.2 hq) (inv.perm.mem_iff.2 hmem)
          (hc.trans hkh.symm))
      · intro hc hqe
        exact hc (hqe ▸ hkh)
    refine ⟨_, he, ?_, ?_, ?_, ?_⟩
    · rw [lookup_fst, inv2.table.lookup_eq_none_iff]
      intro p hp hc
      have hp2 : p ∈ s.lru_.erase e := by
        have := inv2.perm.mem_iff.1 hp
        rwa [f1] at this
      obtain ⟨hpe, hpl⟩ := (List.Nodup.mem_erase_iff inv.nodup).1 hp2
      rw [kh, f4 p hpe] at hc
      exact (hne p hpl).1 hpe hc
    · intro q hq hmq hh2 hdiff
      have hqe : q ≠ e := by
        rintro rfl
        rw [hh] at hh2; cases hh2
        exact hdiff (by rw [hk1, hk2])
      have hq2 : q ∈ s.lru_.erase e := (List.Nodup.mem_erase_iff inv.nodup).2 ⟨hqe, hmq⟩
      have hh3 : (LRUCache.afterUnref { s with
          table_ := (s.table_.Remove s.heap key hash).2, lru_ := s.lru_.erase e } e h).heap q
            = some hq := by rw [f4 q hqe]; exact hh2
      refine ⟨by rw [f1]; exact hq2, hh3, ?_⟩
      rw [lookup_fst]
      exact (inv2.table.lookup_eq_some_iff _ _ _).2
        ⟨inv2.perm.mem_iff.2 (by rw [f1]; exact hq2), kh_some hh3⟩
    · rw [f1]
      show s.lru_.erase e = _
      rw [inv.nodup.erase_eq_filter]
      apply List.filter_congr
      intro q hq
      have := hne q hq
      by_cases hqe : q = e
      · subst hqe; simp [hkh]
      · simp [hqe, this.1 hqe]
    · intro hc
      rw [lookup_fst, hl] at hc
      cases hc

theorem Acct.congr {s s2 : LRUCache} {H P : List Ptr} (a : Acct s H P)
    (hh : s2.heap = s.heap) (hl : s2.lru_ = s.lru_) (hu : s2.usage_ = s.usage_) :
    Acct s2 H P := by
  refine ⟨?_, ?_, ?_⟩
  · rw [hh, hl]; exact a.refs
  · rw [hh, hl]; exact a.dead
  · rw [hh, hl, hu]; exact a.usage

theorem Acct.refLive {s : LRUCache} {H P : List Ptr} (a : Acct s H P) {p : Ptr}
    (hp : p ∈ s.lru_ ∨ p ∈ H ∨ p ∈ P) : ∃ h, s.heap p = some h ∧ 1 ≤ h.refs := by
  cases hh : s.heap p with
  | none =>
    obtain ⟨h1, h2, h3⟩ := a.dead p hh
    rcases hp with h | h | h <;> contradiction
  | some h => exact ⟨h, rfl, (a.refs p h hh).2⟩

theorem chargeOf_unref {heap : Heap} {p : Ptr} {h : LRUHandle} (hh : heap p = some h) (q : Ptr) :
    chargeOf (heap.store p h.unref) q = chargeOf heap q := by
  unfold chargeOf
  by_cases hq : q = p
  · subst hq; simp [hh, LRUHandle.unref]
  · simp [hq]

/-- The pending reference is dropped by `Unref`. -/
theorem Acct.unrefAcct {s : LRUCache} {H : List Ptr} {p : Ptr} (a : Acct s H [p]) :
    ∃ h, s.heap p = some h ∧ 1 ≤ h.refs ∧ Acct (s.afterUnref p h) H [] ∧
      (h.refs = 1 ↔ p ∉ s.lru_ ∧ p ∉ H) := by
  obtain ⟨h, hh, hr⟩ := a.refLive (p := p) (Or.inr (Or.inr (List.mem_singleton_self p)))
  have hrp := (a.refs p h hh).1
  simp only [List.count_singleton_self] at hrp
  have hiff : h.refs = 1 ↔ p ∉ s.lru_ ∧ p ∉ H := by
    constructor
    · intro h1
      constructor
      · intro hc; rw [if_pos hc] at hrp; omega
      · intro hc
        have := List.count_pos_iff.2 hc
        omega
    · rintro ⟨h1, h2⟩
      rw [if_neg h1, List.count_eq_zero_of_not_mem h2] at hrp
      omega
  refine ⟨h, hh, hr, ?_, hiff⟩
  obtain ⟨f1, -, -, f4⟩ := afterUnref_frame s p h
  by_cases h1 : h.refs = 1
  · obtain ⟨g1, -, g3⟩ := afterUnref_free s p h1
    obtain ⟨hpl, hpH⟩ := hiff.1 h1
    refine ⟨?_, ?_, ?_⟩
    · intro q hq hhq
      have hqp : q ≠ p := by rintro rfl; rw [g1] at hhq; cases hhq
      rw [f4 q hqp] at hhq
      have := a.refs q hq hhq
      rw [f1]
      simpa [List.count_singleton, hqp] using this
    · intro q hq
      rw [f1]
      by_cases hqp : q = p
      · subst hqp; exact ⟨hpl, hpH, by simp⟩
      · rw [f4 q hqp] at hq
        obtain ⟨d1, d2, -⟩ := a.dead q hq
        exact ⟨d1, d2, by simp⟩
    · rw [g3, f1, a.usage]
      have hset : (s.lru_ ++ H ++ [p]).toFinset = insert p (s.lru_ ++ H ++ []).toFinset := by
        ext x; simp; tauto
      have hnot : p ∉ (s.lru_ ++ H ++ []).toFinset := by simp [hpl, hpH]
      rw [hset, Finset.sum_insert hnot]
      have hc : chargeOf s.heap p = h.charge := by simp [chargeOf, hh]
      have hsum : ∑ x in (s.lru_ ++ H ++ []).toFinset, chargeOf (s.afterUnref p h).heap x =
          ∑ x in (s.lru_ ++ H ++ []).toFinset, chargeOf s.heap x := by
        apply Finset.sum_congr rfl
        intro x hx
        have : x ≠ p := fun hxp => hnot (hxp ▸ hx)
        unfold chargeOf; rw [f4 x this]
      rw [hsum, hc]
      unfold two64
      omega
  · obtain ⟨g1, -, g3⟩ := afterUnref_keep s p h1
    have hheap : (s.afterUnref p h).heap = s.heap.store p h.unref := by
      unfold LRUCache.afterUnref; rw [if_neg h1]
    have hmem : p ∈ s.lru_ ∨ p ∈ H := by
      by_contra hc
      push_neg at hc
      exact h1 (hiff.2 hc)
    refine ⟨?_, ?_, ?_⟩
    · intro q hq hhq
      rw [f1]
      by_cases hqp : q = p
      · subst hqp
        rw [g1] at hhq; cases hhq
        simp only [LRUHandle.unref, List.count_nil]
        omega
      · rw [f4 q hqp] at hhq
        have := a.refs q hq hhq
        simpa [List.count_singleton, hqp] using this
    · intro q hq
      rw [f1]
      by_cases hqp : q = p
      · subst hqp; rw [g1] at hq; cases hq
      · rw [f4 q hqp] at hq
        obtain ⟨d1, d2, -⟩ := a.dead q hq
        exact ⟨d1, d2, by simp⟩
    · rw [g3, f1, a.usage]
      have hset : (s.lru_ ++ H ++ [p]).toFinset = (s.lru_ ++ H ++ []).toFinset := by
        ext x
        simp only [List.append_nil, List.mem_toFinset, List.mem_append, List.mem_singleton]
        constructor
        · rintro ((h2 | h2) | rfl)
          · exact Or.inl h2
          · exact Or.inr h2
          · exact hmem
        · intro h2; exact Or.inl h2
      rw [hset, hheap]
      congr 1
      apply Finset.sum_congr rfl
      intro x _
      exact (chargeOf_unref hh x).symm

/-- A handle passed to `Release` becomes a pending reference. -/
theorem Acct.releasePrep {s : LRUCache} {H : List Ptr} {h : Ptr} (a : Acct s H [])
    (hh : h ∈ H) : Acct s (H.erase h) [h] := by
  have hcount : ∀ q, List.count q (H.erase h) + List.count q [h] = List.count q H := by
    intro q
    rw [List.count_erase]
    by_cases hq : q = h
    · subst hq
      have := List.count_pos_iff.2 hh
      simp; omega
    · have : (h == q) = false := by simpa using Ne.symm hq
      simp [List.count_singleton, hq, this, Ne.symm hq]
  refine ⟨?_, ?_, ?_⟩
  · intro q hq hhq
    have := a.refs q hq hhq
    simp only [List.count_nil, Nat.add_zero] at this
    refine ⟨?_, this.2⟩
    rw [this.1, ← hcount q]; omega
  · intro q hq
    obtain ⟨d1, d2, -⟩ := a.dead q hq
    refine ⟨d1, fun hc => d2 (List.mem_of_mem_erase hc), ?_⟩
    simp only [List.mem_singleton]
    rintro rfl; exact d2 hh
  · rw [a.usage]
    have hset : (s.lru_ ++ H.erase h ++ [h]).toFinset = (s.lru_ ++ H ++ []).toFinset := by
      ext x
      simp only [List.append_nil, List.mem_toFinset, List.mem_append, List.mem_singleton]
      constructor
      · rintro ((h2 | h2) | rfl)
        · exact Or.inl h2
        · exact Or.inr (List.mem_of_mem_erase h2)
        · exact Or.inr hh
      · rintro (h2 | h2)
        · exact Or.inl (Or.inl h2)
        · by_cases hx : x = h
          · exact Or.inr hx
          · exact Or.inl (Or.inr ((List.mem_erase_of_ne hx).2 h2))
    rw [hset]

/-- A handle unlinked from the list becomes a pending reference. -/
theorem Acct.unlinkAcct {s s2 : LRUCache} {H : List Ptr} {p : Ptr} (a : Acct s H [])
    (hp : p ∈ s.lru_) (hnd : s.lru_.Nodup) (hh : s2.heap = s.heap)
    (hl : s2.lru_ = s.lru_.erase p) (hu : s2.usage_ = s.usage_) : Acct s2 H [p] := by
  have hmem : ∀ q, q ∈ s.lru_.erase p ↔ q ≠ p ∧ q ∈ s.lru_ := fun q =>
    List.Nodup.mem_erase_iff hnd
  refine ⟨?_, ?_, ?_⟩
  · intro q hq hhq
    rw [hh] at hhq
    have := a.refs q hq hhq
    simp only [List.count_nil, Nat.add_zero] at this
    refine ⟨?_, this.2⟩
    rw [this.1, hl]
    by_cases hqp : q = p
    · subst hqp
      have : q ∉ s.lru_.erase q := fun hc => ((hmem q).1 hc).1 rfl
      simp [this, hp]
      omega
    · have : q ∈ s.lru_.erase p ↔ q ∈ s.lru_ := by rw [hmem]; tauto
      simp [List.count_singleton, hqp, this]
  · intro q hq
    rw [hh] at hq
    obtain ⟨d1, d2, -⟩ := a.dead q hq
    rw [hl]
    refine ⟨fun hc => d1 (List.mem_of_mem_erase hc), d2, ?_⟩
    simp only [List.mem_singleton]
    rintro rfl; exact d1 hp
  · rw [hu, hh, hl, a.usage]
    have hset : (s.lru_.erase p ++ H ++ [p]).toFinset = (s.lru_ ++ H ++ []).toFinset := by
      ext x
      simp only [List.append_nil, List.mem_toFinset, List.mem_append, List.mem_singleton, hmem]
      constructor
      · rintro ((h2 | h2) | rfl)
        · exact Or.inl h2.2
        · exact Or.inr h2
        · exact Or.inl hp
      · rintro (h2 | h2)
        · by_cases hx : x = p
          · exact Or.inr hx
          · exact Or.inl (Or.inl ⟨hx, h2⟩)
        · exact Or.inl (Or.inr h2)
    rw [hset]

/-- A `Lookup` hit hands out one more handle. -/
theorem Acct.lookupAcct {s s2 : LRUCache} {H : List Ptr} {e : Ptr} {h : LRUHandle}
    (a : Acct s H []) (he : s.heap e = some h) (hmem : e ∈ s.lru_)
    (hlt : h.refs + 1 < two32)
    (hh : s2.heap = s.heap.store e { h with refs := (h.refs + 1) % two32 })
    (hl : s2.lru_ = s.lru_.erase e ++ [e]) (hu : s2.usage_ = s.usage_) :
    Acct s2 (e :: H) [] := by
  have hmem2 : ∀ q, q ∈ s.lru_.erase e ++ [e] ↔ q ∈ s.lru_ := by
    intro q
    simp only [List.mem_append, List.mem_singleton]
    constructor
    · rintro (h2 | rfl)
      · exact List.mem_of_mem_erase h2
      · exact hmem
    · intro h2
      by_cases hq : q = e
      · exact Or.inr hq
      · exact Or.inl ((List.mem_erase_of_ne hq).2 h2)
  have hcharge : ∀ q, chargeOf s2.heap q = chargeOf s.heap q := by
    intro q
    rw [hh]
    unfold chargeOf
    by_cases hq : q = e
    · subst hq; simp [he]
    · simp [hq]
  refine ⟨?_, ?_, ?_⟩
  · intro q hq hhq
    rw [hl]
    simp only [hmem2, List.count_nil, Nat.add_zero]
    by_cases hqe : q = e
    · subst hqe
      rw [hh, Heap.store_self] at hhq
      cases hhq
      have := (a.refs q h he).1
      simp only [List.count_nil, Nat.add_zero] at this
      simp only [Nat.mod_eq_of_lt hlt, List.count_cons_self]
      omega
    · rw [hh, Heap.store_ne _ _ hqe] at hhq
      have := a.refs q hq hhq
      simp only [List.count_nil, Nat.add_zero] at this
      rw [List.count_cons_of_ne hqe]
      exact this
  · intro q hq
    have hqe : q ≠ e := by rintro rfl; rw [hh, Heap.store_self] at hq; cases hq
    rw [hh, Heap.store_ne _ _ hqe] at hq
    obtain ⟨d1, d2, -⟩ := a.dead q hq
    rw [hl]
    refine ⟨fun hc => d1 ((hmem2 q).1 hc), ?_, by simp⟩
    simp only [List.mem_cons, not_or]
    exact ⟨hqe, d2⟩
  · rw [hu, hl, a.usage]
    have hset : ((s.lru_.erase e ++ [e]) ++ (e :: H) ++ []).toFinset
        = (s.lru_ ++ H ++ []).toFinset := by
      ext x
      simp only [List.append_nil, List.mem_toFinset, List.mem_append, List.mem_cons,
        List.not_mem_nil, or_false]
      constructor
      · rintro ((h2 | rfl) | (rfl | h2))
        · exact Or.inl (List.mem_of_mem_erase h2)
        · exact Or.inl hmem
        · exact Or.inl hmem
        · exact Or.inr h2
      · rintro (h2 | h2)
        · by_cases hx : x = e
          · exact Or.inl (Or.inr hx)
          · exact Or.inl (Or.inl ((List.mem_erase_of_ne hx).2 h2))
        · exact Or.inr (Or.inr h2)
    rw [hset]
    congr 1
    exact Finset.sum_congr rfl (fun x _ => (hcharge x).symm)

/-- `Insert` allocates a handle with two references: the list's and the caller's. -/
theorem Acct.alloc {s s2 : LRUCache} {H : List Ptr} {e : Ptr} (a : Acct s H [])
    (he : s.heap e = none) (value deleter charge : Nat) (key : Slice) (hash : Nat)
    (hh : s2.heap = s.heap.store e ⟨value, deleter, charge, key, 2, hash⟩)
    (hl : s2.lru_ = s.lru_ ++ [e]) (hu : s2.usage_ = (s.usage_ + charge) % two64) :
    Acct s2 (e :: H) [] := by
  obtain ⟨hel, heH, -⟩ := a.dead e he
  refine ⟨?_, ?_, ?_⟩
  · intro q hq hhq
    rw [hl]
    simp only [List.count_nil, Nat.add_zero, List.mem_append, List.mem_singleton]
    by_cases hqe : q = e
    · subst hqe
      rw [hh, Heap.store_self] at hhq
      cases hhq
      refine ⟨?_, by show (1 : Nat) ≤ 2; omega⟩
      simp [List.count_eq_zero_of_not_mem heH]
    · rw [hh, Heap.store_ne _ _ hqe] at hhq
      have := a.refs q hq hhq
      simp only [List.count_nil, Nat.add_zero] at this
      rw [List.count_cons_of_ne hqe]
      simpa [hqe] using this
  · intro q hq
    have hqe : q ≠ e := by rintro rfl; rw [hh, Heap.store_self] at hq; cases hq
    rw [hh, Heap.store_ne _ _ hqe] at hq
    obtain ⟨d1, d2, -⟩ := a.dead q hq
    rw [hl]
    refine ⟨?_, ?_, by simp⟩
    · simp only [List.mem_append, List.mem_singleton, not_or]; exact ⟨d1, hqe⟩
    · simp only [List.mem_cons, not_or]; exact ⟨hqe, d2⟩
  · rw [hu, hl, a.usage]
    have hset : ((s.lru_ ++ [e]) ++ (e :: H) ++ []).toFinset
        = insert e (s.lru_ ++ H ++ []).toFinset := by
      ext x
      simp only [List.append_nil, List.mem_toFinset, List.mem_append, List.mem_singleton,
        List.mem_cons, Finset.mem_insert]
      tauto
    have hnot : e ∉ (s.lru_ ++ H ++ []).toFinset := by simp [hel, heH]
    rw [hset, Finset.sum_insert hnot]
    have hc : chargeOf s2.heap e = charge := by rw [hh]; simp [chargeOf]
    have hsum : ∑ x in (s.lru_ ++ H ++ []).toFinset, chargeOf s2.heap x =
        ∑ x in (s.lru_ ++ H ++ []).toFinset, chargeOf s.heap x := by
      apply Finset.sum_congr rfl
      intro x hx
      have : x ≠ e := fun hxe => hnot (hxe ▸ hx)
      unfold chargeOf; rw [hh, Heap.store_ne _ _ this]
    rw [hsum, hc]
    unfold two64
    omega

theorem newLengthLoop_diverges : newLengthLoop 32 4 2147483649 = none := by
  decide

/-- At `2^31` linked handles `Insert` of a further key does not return: the doubling loop
of `Resize` never reaches `2^31 + 1`. -/
theorem TableWF.insert_full {heap : Heap} {t : HandleTable} (wf : TableWF heap t)
    {h : Ptr} {hd : LRUHandle} (hh : heap h = some hd)
    (hl : t.Lookup heap hd.key hd.hash = none) (hfull : ¬ t.elems_ < 2147483648) :
    t.Insert heap h = none := by
  have hderef : t.deref (t.FindPointer heap hd.key hd.hash) = none := hl
  have hlen := wf.length_ge
  have hload := wf.load
  have hel : (t.elems_ + 1) % two32 = 2147483649 := by unfold two32; omega
  have hgt : (t.elems_ + 1) % two32 > t.length_ := by rw [hel]; omega
  unfold HandleTable.Insert
  simp only [hh, hderef, if_pos hgt]
  unfold HandleTable.Resize
  simp only [hel, newLengthLoop_diverges, Option.map_none']

theorem insert_returns_size {s : LRUCache} (inv : CacheInv s) {e : Ptr}
    (hfresh : s.heap e = none) {key : Slice} {hash value charge deleter : Nat}
    {r : Ptr × LRUCache} (hret : s.Insert e key hash value charge deleter = some r) :
    s.table_.Lookup s.heap key hash = none → s.table_.elems_ < 2147483648 := by
  intro hl
  by_contra hfull
  have he_lru : e ∉ s.lru_ := by
    intro hc
    obtain ⟨h, hh, -⟩ := inv.listedLive hc
    rw [hfresh] at hh; cases hh
  have hkh : ∀ p ∈ s.table_.entries,
      kh (s.heap.store e ⟨value, deleter, charge, key, 2, hash⟩) p = kh s.heap p := fun p hp =>
    kh_store_ne _ _ (fun hpe => he_lru (hpe ▸ inv.perm.mem_iff.1 hp))
  have wf3 := inv.table.heap_congr hkh
  have hl3 : s.table_.Lookup (s.heap.store e ⟨value, deleter, charge, key, 2, hash⟩)
      key hash = none := by
    rw [lookup_heap_congr hkh]; exact hl
  have := wf3.insert_full (h := e) (Heap.store_self _ _ _) hl3 hfull
  unfold LRUCache.Insert LRUCache.LRU_Append at hret
  simp only [this] at hret
  cases hret

/-- Evictions keep the reference accounting. -/
theorem evictSeq_acct : ∀ (victims : List Ptr) (s : LRUCache) (rest H : List Ptr),
    CacheInv s → Acct s H [] → s.lru_ = victims ++ rest →
    ∀ s2, s.evictSeq victims = some s2 → Acct s2 H [] := by
  intro victims
  induction victims with
  | nil =>
    intro s rest H _ a _ s2 h2
    simp only [LRUCache.evictSeq, Option.some.injEq] at h2
    exact h2 ▸ a
  | cons old vs ih =>
    intro s rest H inv a hl s2 h2
    have hl' : s.lru_ = old :: (vs ++ rest) := by simpa using hl
    obtain ⟨h, hh, hr, he, inv1⟩ := evictOne_spec inv hl'
    simp only [LRUCache.evictSeq, he] at h2
    have hmem : old ∈ s.lru_ := by rw [hl']; exact List.mem_cons_self _ _
    have a1 : Acct ({ s with table_ := (s.table_.Remove s.heap h.key h.hash).2,
                             lru_ := vs ++ rest } : LRUCache) H [old] :=
      a.unlinkAcct hmem inv.nodup rfl (by rw [hl', List.erase_cons_head]) rfl
    obtain ⟨h', hh', -, a2, -⟩ := a1.unrefAcct
    have : h' = h := by
      have e1 : s.heap old = some h' := hh'
      rw [hh] at e1; cases e1; rfl
    subst this
    obtain ⟨f1, -, -, -⟩ := afterUnref_frame
      ({ s with table_ := (s.table_.Remove s.heap h'.key h'.hash).2, lru_ := vs ++ rest } :
        LRUCache) old h'
    exact ih _ rest H inv1 a2 f1 s2 h2

/-- A `Lookup` hit keeps the structural invariant while the count does not wrap. -/
theorem CacheInv.lookupInv {s : LRUCache} (inv : CacheInv s) {e : Ptr} {h : LRUHandle}
    (he : s.heap e = some h) (hmem : e ∈ s.lru_) (hlt : h.refs + 1 < two32) :
    CacheInv { s with heap := s.heap.store e { h with refs := (h.refs + 1) % two32 },
                      lru_ := s.lru_.erase e ++ [e] } := by
  have hkh : ∀ p, kh (s.heap.store e { h with refs := (h.refs + 1) % two32 }) p = kh s.heap p := by
    intro p
    unfold kh
    by_cases hp : p = e
    · subst hp; simp [he, LRUHandle.key]
    · simp [hp]
  have hperm : (s.lru_.erase e ++ [e]).Perm s.lru_ :=
    (List.perm_append_singleton e _).trans (List.perm_cons_erase hmem).symm
  refine ⟨inv.table.heap_congr (fun p _ => hkh p), inv.perm.trans hperm.symm,
    hperm.nodup_iff.2 inv.nodup, ?_⟩
  intro p hp h2 hh2
  have hp' : p ∈ s.lru_ := hperm.mem_iff.1 hp
  have hh2' : s.heap.store e { h with refs := (h.refs + 1) % two32 } p = some h2 := hh2
  by_cases hpe : p = e
  · subst hpe
    rw [Heap.store_self] at hh2'
    cases hh2'
    show 1 ≤ (h.refs + 1) % two32
    rw [Nat.mod_eq_of_lt hlt]; omega
  · rw [Heap.store_ne _ _ hpe] at hh2'
    exact inv.refs p hp' h2 hh2'

/-- The second half of `Insert` on the state `s6` reached by the first half: the loop
returns, having evicted the `k` oldest handles. -/
theorem insert_evict {s6 : LRUCache} (inv6 : CacheInv s6) :
    ∃ k s7, k ≤ s6.lru_.length ∧ LRUCache.evictLoop s6.lru_.length s6 = some s7 ∧
      s6.evictSeq (s6.lru_.take k) = some s7 ∧ CacheInv s7 ∧ s7.lru_ = s6.lru_.drop k ∧
      s7.capacity_ = s6.capacity_ ∧ s7.heap = unrefHeap s6.heap (s6.lru_.take k) ∧
      s7.deleted = s6.deleted ++ deleterCalls s6.heap (s6.lru_.take k) ∧
      (s7.usage_ ≤ s7.capacity_ ∨ s7.lru_ = []) := by
  obtain ⟨k, s7, k1, k2, k3, k4⟩ := evictLoop_spec s6.lru_.length s6 inv6 (le_refl _)
  obtain ⟨s7', g1, g2, g3, g4, g5, g6⟩ :=
    evictSeq_spec (s6.lru_.take k) s6 (s6.lru_.drop k) inv6 (List.take_append_drop k _).symm
  rw [k3] at g1
  cases g1
  exact ⟨k, s7, k1, k2, k3, g2, g3, g4, g5, g6, k4⟩

/-- Every operation of a caller that obeys the handle protocol keeps the invariant. -/
theorem SysInv.step {σ τ : Sys} (inv : SysInv σ) (st : Step σ τ) : SysInv τ := by
  cases st with
  | insert e key hash value charge deleter c2 hfresh _ _ hins =>
    obtain ⟨t2, s6, h1, inv6, he_lru, hcase⟩ :=
      insert_link inv.cache hfresh key hash value charge deleter
        (insert_returns_size inv.cache hfresh hins)
    obtain ⟨k, s7, -, k2, k3, inv7, -⟩ := insert_evict inv6
    rw [h1, k2] at hins
    simp only [Option.map_some', Option.some.injEq, Prod.mk.injEq, true_and] at hins
    subst hins
    have a6 : Acct s6 (e :: σ.handles) [] := by
      rcases hcase with ⟨-, hs6⟩ | ⟨old, ho, -, hho, hor, hold, holde, hs6⟩
      · rw [hs6]
        exact inv.acct.alloc hfresh value deleter charge key hash rfl rfl rfl
      · have a3 : Acct ({ σ.cache with
            heap := σ.cache.heap.store e ⟨value, deleter, charge, key, 2, hash⟩,
            lru_ := σ.cache.lru_ ++ [e],
            usage_ := (σ.cache.usage_ + charge) % two64 } : LRUCache) (e :: σ.handles) [] :=
          inv.acct.alloc hfresh value deleter charge key hash rfl rfl rfl
        have hnd : (σ.cache.lru_ ++ [e]).Nodup :=
          List.Nodup.append inv.cache.nodup (List.nodup_singleton e) (by simpa using he_lru)
        have a4 : Acct ({ σ.cache with
            heap := σ.cache.heap.store e ⟨value, deleter, charge, key, 2, hash⟩,
            lru_ := σ.cache.lru_.erase old ++ [e],
            usage_ := (σ.cache.usage_ + charge) % two64,
            table_ := t2 } : LRUCache) (e :: σ.handles) [old] :=
          a3.unlinkAcct (p := old) (List.mem_append_left _ hold) hnd rfl
            (by show _ = (σ.cache.lru_ ++ [e]).erase old
                rw [List.erase_append_left _ hold]) rfl
        obtain ⟨h', hh', -, a5, -⟩ := a4.unrefAcct
        have : h' = ho := by
          have e1 : σ.cache.heap.store e ⟨value, deleter, charge, key, 2, hash⟩ old = some h' :=
            hh'
          rw [Heap.store_ne _ _ holde, hho] at e1
          cases e1; rfl
        subst this
        rw [hs6]; exact a5
    exact ⟨inv7, evictSeq_acct _ s6 _ _ inv6 a6 (List.take_append_drop k _).symm _ k3⟩
  | lookupHit key hash e c2 hlk hguard =>
    have hl : σ.cache.table_.Lookup σ.cache.heap key hash = some e := by
      rw [← lookup_fst, hlk]
    obtain ⟨h, hh, -, -⟩ := table_lookup_live hl
    have hmem : e ∈ σ.cache.lru_ :=
      inv.cache.perm.mem_iff.1 ((inv.cache.table.lookup_eq_some_iff key hash e).1 hl).1
    rw [lookup_hit hl hh] at hlk
    simp only [Prod.mk.injEq, true_and] at hlk
    subst hlk
    exact ⟨inv.cache.lookupInv hh hmem (hguard h hh),
      inv.acct.lookupAcct hh hmem (hguard h hh) rfl rfl rfl⟩
  | lookupMiss key hash c2 hlk =>
    have hl : σ.cache.table_.Lookup σ.cache.heap key hash = none := by
      rw [← lookup_fst, hlk]
    rw [lookup_miss hl] at hlk
    simp only [Prod.mk.injEq, true_and] at hlk
    subst hlk
    exact ⟨inv.cache, inv.acct⟩
  | release h c2 hmem hrel =>
    have a1 := inv.acct.releasePrep hmem
    obtain ⟨hd, hh, hr, a2, hiff⟩ := a1.unrefAcct
    have hu : σ.cache.Release h = some (σ.cache.afterUnref h hd) := unref_eq hh hr
    rw [hu] at hrel
    cases hrel
    refine ⟨?_, a2⟩
    by_cases hl : h ∈ σ.cache.lru_
    · have h1 : hd.refs ≠ 1 := fun hc => (hiff.1 hc).1 hl
      obtain ⟨f1, f2, -, f4⟩ := afterUnref_frame σ.cache h hd
      obtain ⟨g1, -, -⟩ := afterUnref_keep σ.cache h h1
      refine inv.cache.frame f2 f1 (fun p _ => ?_) (fun p hp h2 hh2 => ?_)
      · unfold kh
        by_cases hp : p = h
        · subst hp; rw [g1, hh]; rfl
        · rw [f4 p hp]
      · by_cases hpe : p = h
        · subst hpe
          rw [g1] at hh2; cases hh2
          show 1 ≤ hd.refs - 1
          omega
        · rw [f4 p hpe] at hh2
          exact inv.cache.refs p hp h2 hh2
    · exact inv.cache.unrefInv hl (unref_eq hh hr)
  | erase key hash c2 her =>
    cases hl : σ.cache.table_.Lookup σ.cache.heap key hash with
    | none =>
      rw [erase_miss hl] at her
      cases her
      exact ⟨inv.cache, inv.acct⟩
    | some e =>
      obtain ⟨h, hh, hr, -, -, hmem, he, inv2⟩ := erase_hit inv.cache hl
      rw [he] at her
      cases her
      refine ⟨inv2, ?_⟩
      have a1 : Acct ({ σ.cache with
          table_ := (σ.cache.table_.Remove σ.cache.heap key hash).2,
          lru_ := σ.cache.lru_.erase e } : LRUCache) σ.handles [e] :=
        inv.acct.unlinkAcct hmem inv.cache.nodup rfl rfl rfl
      obtain ⟨h', hh', -, a2, -⟩ := a1.unrefAcct
      have : h' = h := by
        have e1 : σ.cache.heap e = some h' := hh'
        rw [hh] at e1; cases e1; rfl
      subst this
      exact a2

theorem SysInv.init (capacity : Nat) : SysInv ⟨LRUCache.new.SetCapacity capacity, []⟩ := by
  refine ⟨⟨HandleTable.new_wf _, ?_, List.nodup_nil, ?_⟩, ⟨?_, ?_, ?_⟩⟩
  · show HandleTable.new.entries.Perm []
    rw [HandleTable.new_eq]; exact List.Perm.refl _
  · intro p hp; cases hp
  · intro p h hh; cases hh
  · intro p _; exact ⟨List.not_mem_nil _, List.not_mem_nil _, List.not_mem_nil _⟩
  · rfl

/-- Every reachable state satisfies the invariant. -/
theorem Reach.inv {capacity : Nat} {σ : Sys} (r : Reach capacity σ) : SysInv σ := by
  induction r with
  | init => exact SysInv.init capacity
  | step σ τ _ st ih => exact ih.step st

theorem step_capacity {σ τ : Sys} (inv : SysInv σ) (st : Step σ τ) :
    τ.cache.capacity_ = σ.cache.capacity_ := by
  cases st with
  | insert e key hash value charge deleter c2 hfresh _ _ hins =>
    obtain ⟨t2, s6, h1, inv6, -, hcase⟩ :=
      insert_link inv.cache hfresh key hash value charge deleter
        (insert_returns_size inv.cache hfresh hins)
    obtain ⟨k, s7, -, k2, -, -, -, k6, -⟩ := insert_evict inv6
    rw [h1, k2] at hins
    simp only [Option.map_some', Option.some.injEq, Prod.mk.injEq, true_and] at hins
    subst hins
    show s7.capacity_ = _
    rw [k6]
    rcases hcase with ⟨-, hs6⟩ | ⟨old, ho, -, -, -, -, -, hs6⟩
    · rw [hs6]
    · rw [hs6]; exact (afterUnref_frame _ _ _).2.2.1
  | lookupHit key hash e c2 hlk hguard =>
    have hl : σ.cache.table_.Lookup σ.cache.heap key hash = some e := by
      rw [← lookup_fst, hlk]
    obtain ⟨h, hh, -, -⟩ := table_lookup_live hl
    rw [lookup_hit hl hh] at hlk
    simp only [Prod.mk.injEq, true_and] at hlk
    subst hlk; rfl
  | lookupMiss key hash c2 hlk =>
    have hl : σ.cache.table_.Lookup σ.cache.heap key hash = none := by
      rw [← lookup_fst, hlk]
    rw [lookup_miss hl] at hlk
    simp only [Prod.mk.injEq, true_and] at hlk
    subst hlk; rfl
  | release h c2 hmem hrel =>
    exact (unref_frame hrel).2.2.1
  | erase key hash c2 her =>
    cases hl : σ.cache.table_.Lookup σ.cache.heap key hash with
    | none => rw [erase_miss hl] at her; cases her; rfl
    | some e =>
      obtain ⟨h, -, -, -, -, -, he, -⟩ := erase_hit inv.cache hl
      rw [he] at her; cases her
      exact (afterUnref_frame _ _ _).2.2.1

theorem Reach.capacity {capacity : Nat} {σ : Sys} (r : Reach capacity σ) :
    σ.cache.capacity_ = capacity := by
  induction r with
  | init => rfl
  | step σ τ r st ih => rw [step_capacity r.inv st, ih]

theorem chargeOf_le_sum (heap : Heap) {l : List Ptr} {p : Ptr} (hp : p ∈ l) :
    chargeOf heap p ≤ (l.map (chargeOf heap)).sum := by
  induction l with
  | nil => cases hp
  | cons a rest ih =>
    simp only [List.map_cons, List.sum_cons]
    rcases List.mem_cons.1 hp with rfl | h
    · omega
    · have := ih h; omega

/-- When the new charge fits, `Insert` evicts nothing and the new handle is found by the
next `Lookup`. -/
theorem insert_then_lookup {s : LRUCache} (inv : CacheInv s) {e : Ptr}
    (hfresh : s.heap e = none) (key : Slice) (hash value charge deleter : Nat)
    (hsz : s.table_.Lookup s.heap key hash = none → s.table_.elems_ < 2147483648)
    (hcap : s.capacity_ < two64)
    (hsum : (s.lru_.map (chargeOf s.heap)).sum ≤ s.usage_)
    (hfit : s.usage_ + charge ≤ s.capacity_) :
    ∃ s1, s.Insert e key hash value charge deleter = some (e, s1) ∧ CacheInv s1 ∧
      s1.heap e = some ⟨value, deleter, charge, key, 2, hash⟩ ∧
      (s1.Lookup key hash).1 = some e ∧
      (s1.Lookup key hash).2.heap e = some ⟨value, deleter, charge, key, 3, hash⟩ := by
  obtain ⟨t2, s6, h1, inv6, he_lru, hcase⟩ :=
    insert_link inv hfresh key hash value charge deleter hsz
  have hmod : (s.usage_ + charge) % two64 = s.usage_ + charge :=
    Nat.mod_eq_of_lt (by omega)
  have hfacts : s6.usage_ ≤ s6.capacity_ ∧ e ∈ s6.lru_ ∧
      s6.heap e = some ⟨value, deleter, charge, key, 2, hash⟩ := by
    rcases hcase with ⟨-, hs6⟩ | ⟨old, ho, -, hho, hor, hold, holde, hs6⟩
    · rw [hs6]
      refine ⟨?_, by simp, by simp⟩
      show (s.usage_ + charge) % two64 ≤ s.capacity_
      rw [hmod]; exact hfit
    · obtain ⟨f1, -, f3, f4⟩ := afterUnref_frame
        ({ s with heap := s.heap.store e ⟨value, deleter, charge, key, 2, hash⟩,
                  lru_ := s.lru_.erase old ++ [e],
                  usage_ := (s.usage_ + charge) % two64, table_ := t2 } : LRUCache) old ho
      rw [hs6]
      refine ⟨?_, by rw [f1]; simp, by rw [f4 e (Ne.symm holde)]; simp⟩
      rw [f3]
      show _ ≤ s.capacity_
      by_cases hr1 : ho.refs = 1
      · rw [(afterUnref_free _ old hr1).2.2]
        show ((s.usage_ + charge) % two64 + (two64 - ho.charge % two64)) % two64 ≤ s.capacity_
        have hc : chargeOf s.heap old = ho.charge := by simp [chargeOf, hho]
        have := chargeOf_le_sum s.heap hold
        rw [hc] at this
        rw [hmod]
        unfold two64 at hcap ⊢
        omega
      · rw [(afterUnref_keep _ old hr1).2.2]
        show (s.usage_ + charge) % two64 ≤ s.capacity_
        rw [hmod]; exact hfit
  obtain ⟨hu6, he6, hh6⟩ := hfacts
  rw [evictLoop_noop hu6] at h1
  have hl6 : s6.table_.Lookup s6.heap key hash = some e :=
    (inv6.table.lookup_eq_some_iff key hash e).2 ⟨inv6.perm.mem_iff.2 he6, kh_some hh6⟩
  refine ⟨s6, h1, inv6, hh6, by rw [lookup_fst]; exact hl6, ?_⟩
  rw [lookup_hit hl6 hh6]
  simp only [Heap.store_self]
  rfl

/-- C10, counterexample.  For the requested capacity `2^64 - 1` the sum `capacity + 15`
wraps to `14`, every shard gets capacity `0`, and `16 * 0` is below the request. -/
theorem C10_counterexample :
    two64 - 1 < two64 ∧ perShard (two64 - 1) = 0 ∧
      (∀ s ∈ (NewLRUCache (two64 - 1)).shard_, s.capacity_ = 0) ∧
      ¬ (kNumShards * perShard (two64 - 1) ≥ two64 - 1) := by
  decide

/-- C10, as amended.  The constructor builds 16 shards and gives each the capacity
`per_shard = (capacity + 15) / 16` computed in `size_t` arithmetic; when `capacity + 15`
does not wrap (`capacity ≤ 2^64 - 16`), `per_shard` is the exact ceiling and the sum of the
16 per-shard capacities, `16 * per_shard`, is at least the requested capacity. -/
theorem C10_per_shard_capacity (capacity : Nat) :
    (NewLRUCache capacity).shard_.length = 16 ∧
    (∀ s ∈ (NewLRUCache capacity).shard_,
      s.capacity_ = ((capacity + 15) % two64) / 16) ∧
    (capacity + 15 < two64 →
      perShard capacity = (capacity + 15) / 16 ∧
      ((NewLRUCache capacity).shard_.map (fun s => s.capacity_)).sum = 16 * perShard capacity ∧
      16 * perShard capacity ≥ capacity) := by
  refine ⟨by simp [NewLRUCache, kNumShards, kNumShardBits], ?_, ?_⟩
  · intro s hs
    simp only [NewLRUCache, List.mem_replicate] at hs
    rw [hs.2]
    rfl
  · intro h
    have hp : perShard capacity = (capacity + 15) / 16 := by
      unfold perShard
      simp only [kNumShards, kNumShardBits]
      rw [show (1 <<< 4 : Nat) = 16 from rfl]
      rw [show (16 - 1 : Nat) = 15 from rfl, Nat.mod_eq_of_lt h]
    refine ⟨hp, ?_, by rw [hp]; omega⟩
    simp only [NewLRUCache, List.map_replicate, List.sum_replicate, smul_eq_mul]
    rfl

/-- C10, witness: capacity `100`. -/
theorem C10_per_shard_capacity_witness :
    (100 + 15 < two64) ∧ perShard 100 = (100 + 15) / 16 ∧ 16 * perShard 100 ≥ 100 :=
  ⟨by decide, ((C10_per_shard_capacity 100).2.2 (by decide)).1,
    ((C10_per_shard_capacity 100).2.2 (by decide)).2.2⟩

theorem afterInsert_eq {s : LRUCache} {e : Ptr} {key : Slice} {hash value charge deleter : Nat}
    {e2 : Ptr} (h : (s.Insert e key hash value charge deleter).map (fun r => r.1) = some e2) :
    s.Insert e key hash value charge deleter =
      some (e2, s.afterInsert e key hash value charge deleter) := by
  unfold LRUCache.afterInsert
  cases hI : s.Insert e key hash value charge deleter with
  | none => rw [hI] at h; cases h
  | some r =>
    obtain ⟨a, b⟩ := r
    rw [hI] at h
    simp only [Option.map_some', Option.some.injEq] at h
    subst h
    rfl

theorem afterRelease_eq {s : LRUCache} {handle : Ptr} (h : (s.Release handle).isSome = true) :
    s.Release handle = some (s.afterRelease handle) := by
  unfold LRUCache.afterRelease
  cases hI : s.Release handle with
  | none => rw [hI] at h; cases h
  | some r => rfl

/-- A run step: `Insert` by a caller, on a shard where it returns. -/
theorem Reach.insertRun {capacity : Nat} {σ : Sys} (r : Reach capacity σ) (e : Ptr)
    (key : Slice) (hash value charge deleter : Nat) (hfresh : σ.cache.heap e = none)
    (hh : hash < two32) (hc : charge < two64)
    (hret : (σ.cache.Insert e key hash value charge deleter).map (fun x => x.1) = some e) :
    Reach capacity ⟨σ.cache.afterInsert e key hash value charge deleter, e :: σ.handles⟩ :=
  Reach.step _ _ r (Step.insert σ e key hash value charge deleter _ hfresh hh hc
    (afterInsert_eq hret))

/-- A run step: `Release` of a held handle. -/
theorem Reach.releaseRun {capacity : Nat} {σ : Sys} (r : Reach capacity σ) (h : Ptr)
    (hheld : h ∈ σ.handles) (hret : (σ.cache.Release h).isSome = true) :
    Reach capacity ⟨σ.cache.afterRelease h, σ.handles.erase h⟩ :=
  Reach.step _ _ r (Step.release σ h _ hheld (afterRelease_eq hret))

theorem store_store (heap : Heap) (p : Ptr) (a b : LRUHandle) :
    (heap.store p a).store p b = heap.store p b := by
  funext q
  unfold Heap.store
  by_cases h : q = p <;> simp [h]

theorem oneEntryShard_insert :
    (LRUCache.new.SetCapacity 10).afterInsert 100 [1] 5 77 3 0 = oneEntryShard 2 := by
  rfl

theorem oneEntryShard_lookup (n : Nat) :
    (oneEntryShard n).Lookup [1] 5 = (some 100, oneEntryShard ((n + 1) % two32)) := by
  have hb : (5 &&& ((4 + (two32 - 1)) % two32) : Nat) = 1 := by decide
  have hl : (oneEntryShard n).table_.Lookup (oneEntryShard n).heap [1] 5 = some 100 := by
    unfold HandleTable.Lookup HandleTable.FindPointer HandleTable.deref HandleTable.bucket
      HandleTable.chain oneEntryShard
    simp only [hb]
    simp [chainWalk, entryMatches, LRUHandle.key]
  have hh : (oneEntryShard n).heap 100 = some ⟨77, 0, 3, [1], n, 5⟩ := rfl
  rw [lookup_hit hl hh]
  unfold oneEntryShard
  simp only [store_store]
  rfl

/-- After `Insert` and `n` hits of `Lookup`, none of the handles released, the entry has
reference count `2 + n`, as long as this is below `2^32`. -/
theorem oneEntryShard_reach (n : Nat) (hn : 2 + n < two32) :
    Reach 10 ⟨oneEntryShard (2 + n), List.replicate n 100 ++ [100]⟩ := by
  induction n with
  | zero =>
    have r1 := (@Reach.init 10).insertRun 100 [1] 5 77 3 0
      (by decide!) (by decide!) (by decide!) (by decide!)
    rw [oneEntryShard_insert] at r1
    exact r1
  | succ k ih =>
    have r := ih (by omega)
    have hstep : Step ⟨oneEntryShard (2 + k), List.replicate k 100 ++ [100]⟩
        ⟨oneEntryShard ((2 + k + 1) % two32), 100 :: (List.replicate k 100 ++ [100])⟩ := by
      refine Step.lookupHit _ [1] 5 100 _ (oneEntryShard_lookup (2 + k)) ?_
      intro h hh
      have : h.refs = 2 + k := by
        have e1 : (oneEntryShard (2 + k)).heap 100 = some ⟨77, 0, 3, [1], 2 + k, 5⟩ := rfl
        rw [e1] at hh; cases hh; rfl
      omega
    have r2 := Reach.step _ _ r hstep
    have e1 : (2 + k + 1) % two32 = 2 + (k + 1) := by
      rw [Nat.mod_eq_of_lt (by omega)]; omega
    rw [e1] at r2
    exact r2

theorem twoEntryShard_reach : Reach 10 ⟨twoEntryShard, [101, 100]⟩ := by
  have r1 := (@Reach.init 10).insertRun 100 [1] 5 77 3 0
    (by decide!) (by decide!) (by decide!) (by decide!)
  exact r1.insertRun 101 [2] 6 78 4 0 (by decide!) (by decide!) (by decide!) (by decide!)

/-- C5, counterexample.  The shard reached by `Insert` of one entry and `2^32 - 3` hits of
`Lookup` holds that entry with reference count `2^32 - 1`; one more `Lookup` hits it and
leaves the count at `0`, not at the count plus `1`. -/
theorem C5_counterexample :
    Reach 10 ⟨oneEntryShard 4294967295, List.replicate 4294967293 100 ++ [100]⟩ ∧
      ((oneEntryShard 4294967295).heap 100).map (fun h => h.refs) = some 4294967295 ∧
      ((oneEntryShard 4294967295).Lookup [1] 5).1 = some 100 ∧
      (((oneEntryShard 4294967295).Lookup [1] 5).2.heap 100).map (fun h => h.refs) = some 0 :=
  ⟨oneEntryShard_reach 4294967293 (by decide), by decide!, by decide!, by decide!⟩

/-- C5, witness: `Lookup` of key `[1]` in the shard of two entries hits handle `100`. -/
theorem C5_lookup_frame_witness :
    CacheInv twoEntryShard ∧
      ∃ h, twoEntryShard.heap 100 = some h ∧
        (twoEntryShard.Lookup [1] 5).2.heap 100 = some { h with refs := (h.refs + 1) % two32 } ∧
        (twoEntryShard.Lookup [1] 5).2.lru_ = twoEntryShard.lru_.erase 100 ++ [100] :=
  ⟨twoEntryShard_reach.inv.cache,
    match (C5_lookup_frame twoEntryShard twoEntryShard_reach.inv.cache [1] 5).1 100
        (by decide!) with
    | ⟨h, h1, _, _, _, h5, _, _, h8, _⟩ => ⟨h, h1, h5, h8⟩⟩

/-- C7, witness: `Erase` of key `[1]` in the shard of two entries. -/
theorem C7_erase_frame_witness :
    CacheInv twoEntryShard ∧
      ∃ s2, twoEntryShard.Erase [1] 5 = some s2 ∧ (s2.Lookup [1] 5).1 = none :=
  ⟨twoEntryShard_reach.inv.cache,
    match C7_erase_frame twoEntryShard twoEntryShard_reach.inv.cache [1] 5 with
    | ⟨s2, h1, h2, _⟩ => ⟨s2, h1, h2⟩⟩

theorem Shard_lt {hash : Nat} (h : hash < two32) : Shard hash < 16 := by
  unfold Shard kNumShardBits
  rw [Nat.shiftRight_eq_div_pow]
  unfold two32 at h
  omega

theorem findSome_replicate_set {α β : Type} (f : α → Option β) (x y : α) (v : β)
    (hx : f x = none) (hy : f y = some v) :
    ∀ n i, i < n → ((List.replicate n x).set i y).findSome? f = some v := by
  intro n
  induction n with
  | zero => intro i hi; omega
  | succ k ih =>
    intro i hi
    cases i with
    | zero => simp [List.replicate_succ, hy]
    | succ j =>
      simp only [List.replicate_succ, List.set_cons_succ, List.findSome?_cons, hx]
      exact ih j (by omega)

theorem perShard_lt (capacity : Nat) : perShard capacity < two64 := by
  unfold perShard kNumShards kNumShardBits
  have : (capacity + (1 <<< 4 - 1)) % two64 < two64 := Nat.mod_lt _ (by decide)
  exact lt_of_le_of_lt (Nat.div_le_self _ _) this

/-- C1, counterexample.  On the cache built by `NewLRUCache(16)` every shard has capacity
`1`; `Insert` of one entry with charge `2 ≤ 16` puts it over the capacity of its shard, the
entry is evicted at once, and the following `Lookup` of its key is absent. -/
theorem C1_counterexample :
    (2 : Nat) ≤ 16 ∧
    ((NewLRUCache 16).Insert (fun _ => 0) 100 [] 7 2 0).map (fun r => r.1) = some 100 ∧
    ((NewLRUCache 16).Insert (fun _ => 0) 100 [] 7 2 0).bind
      (fun r => (r.2.Lookup (fun _ => 0) []).map (fun x => x.1)) = some none := by
  decide!

/-- C1, as amended.  On a cache freshly built by `NewLRUCache(capacity)`, for every key,
value and charge with `charge ≤ per_shard`, the capacity `(capacity + 15) / 16` (in `size_t`
arithmetic) that the constructor gives to each shard: `Insert(key, value, charge, d)`
returns a handle and `Lookup(key)` immediately afterwards returns the same, non-absent
handle, whose `Value` equals `value`.  The hash function is an arbitrary function of the key
with 32-bit values. -/
theorem C1_round_trip (HashSlice : Slice → Nat) (hH : ∀ k, HashSlice k < two32)
    (capacity : Nat) (e : Ptr) (key : Slice) (value charge deleter : Nat)
    (hfit : charge ≤ perShard capacity) :
    ∃ c1 c2, (NewLRUCache capacity).Insert HashSlice e key value charge deleter = some (e, c1) ∧
      c1.Lookup HashSlice key = some (some e, c2) ∧ c2.Value e = some value := by
  have hi : Shard (HashSlice key) < 16 := Shard_lt (hH key)
  have inv0 : CacheInv (LRUCache.new.SetCapacity (perShard capacity)) :=
    (SysInv.init (perShard capacity)).cache
  obtain ⟨s1, h1, -, -, h4, h5⟩ :=
    insert_then_lookup inv0 (e := e) rfl key (HashSlice key) value charge deleter
      (fun _ => by show (0 : Nat) < 2147483648; omega) (perShard_lt capacity) (by simp [LRUCache.new, LRUCache.SetCapacity])
      (by simpa [LRUCache.new, LRUCache.SetCapacity] using hfit)
  have hget : (NewLRUCache capacity).shard_[Shard (HashSlice key)]? =
      some (LRUCache.new.SetCapacity (perShard capacity)) := by
    show (List.replicate kNumShards _)[_]? = _
    rw [List.getElem?_replicate, if_pos (show Shard (HashSlice key) < kNumShards from hi)]
  have hlen : Shard (HashSlice key) < (NewLRUCache capacity).shard_.length := by
    simpa [NewLRUCache, kNumShards, kNumShardBits] using hi
  refine ⟨{ NewLRUCache capacity with
              shard_ := (NewLRUCache capacity).shard_.set (Shard (HashSlice key)) s1 },
          { NewLRUCache capacity with
              shard_ := ((NewLRUCache capacity).shard_.set (Shard (HashSlice key)) s1).set
                (Shard (HashSlice key)) (s1.Lookup key (HashSlice key)).2 }, ?_, ?_, ?_⟩
  · unfold ShardedLRUCache.Insert
    simp only [hget, h1]
  · unfold ShardedLRUCache.Lookup
    simp only [List.getElem?_set_self hlen, h4]
  · unfold ShardedLRUCache.Value
    simp only [List.set_set]
    have := findSome_replicate_set (fun s : LRUCache => s.heap e)
      (LRUCache.new.SetCapacity (perShard capacity)) (s1.Lookup key (HashSlice key)).2 _
      rfl h5 kNumShards (Shard (HashSlice key)) (by simpa [kNumShards, kNumShardBits] using hi)
    show Option.map _ (List.findSome? _ ((List.replicate kNumShards _).set _ _)) = _
    rw [this]
    rfl

/-- C1, witness: capacity `160` (ten per shard), charge `10`, the hash function that is
constantly `7`. -/
theorem C1_round_trip_witness :
    (∀ k : Slice, (fun _ => 7) k < two32) ∧ 10 ≤ perShard 160 ∧
    ∃ c1 c2, (NewLRUCache 160).Insert (fun _ => 7) 100 [1, 2] 77 10 0 = some (100, c1) ∧
      c1.Lookup (fun _ => 7) [1, 2] = some (some 100, c2) ∧ c2.Value 100 = some 77 :=
  ⟨fun _ => (by decide : (7 : Nat) < two32), by decide,
    C1_round_trip (fun _ => 7) (fun _ => (by decide : (7 : Nat) < two32)) 160 100 [1, 2] 77 10 0
      (by decide)⟩

/-- `Resize` links the same handles as before. -/
theorem resize_perm {heap : Heap} {t : HandleTable}
    (hlive : ∀ p ∈ t.entries, ∃ hd, heap p = some hd)
    (helems : t.elems_ = t.entries.length) (hle : t.elems_ ≤ 2147483648) :
    ∃ t2, t.Resize heap = some t2 ∧ t2.entries.Perm t.entries ∧ t2.elems_ = t.elems_ := by
  obtain ⟨j, hj1, hj2, hj3, hj4, hj5⟩ :=
    newLengthLoop_spec 32 2 t.elems_ (le_refl _) (by omega) (by omega) hle
  have hj3' : newLengthLoop 32 4 t.elems_ = some (2 ^ j) := hj3
  have hcount : t.list_.flatten.length % two32 = t.elems_ := by
    have : t.list_.flatten.length = t.elems_ := helems.symm
    rw [this]; unfold two32; omega
  have hL : 1 ≤ 2 ^ j := Nat.one_le_two_pow
  have hperm : (t.list_.flatten.foldl (rehashStep heap (2 ^ j))
      (List.replicate (2 ^ j) [])).flatten.Perm t.entries := by
    have := rehash_perm hL t.list_.flatten (List.replicate (2 ^ j) []) (by simp) hlive
    rw [flatten_replicate_nil, List.append_nil] at this
    exact this
  refine ⟨{ length_ := 2 ^ j, elems_ := t.elems_,
            list_ := t.list_.flatten.foldl (rehashStep heap (2 ^ j))
              (List.replicate (2 ^ j) []) }, ?_, hperm, rfl⟩
  unfold HandleTable.Resize
  simp only [hj3', hcount, if_true]

/-- Linking handles with pairwise different keys one after the other. -/
theorem insertAll_spec (heap : Heap) : ∀ (ps : List Ptr) (t : HandleTable),
    TableWF heap t → (∀ p ∈ ps, ∃ h, heap p = some h) → ps.Nodup →
    (∀ p ∈ ps, p ∉ t.entries) →
    (∀ p ∈ ps, ∀ q, q ∈ ps ∨ q ∈ t.entries → kh heap p = kh heap q → p = q) →
    t.elems_ + ps.length ≤ 2147483648 →
    ∃ t2, t.insertAll heap ps = some t2 ∧ TableWF heap t2 ∧
      t2.entries.Perm (ps ++ t.entries) ∧ t2.elems_ = t.elems_ + ps.length := by
  intro ps
  induction ps with
  | nil =>
    intro t wf _ _ _ _ _
    exact ⟨t, rfl, wf, by simp, by simp⟩
  | cons p rest ih =>
    intro t wf hlive hnd hnew hdist hsz
    obtain ⟨hd, hh⟩ := hlive p (List.mem_cons_self _ _)
    have hl : t.Lookup heap hd.key hd.hash = none := by
      rw [wf.lookup_eq_none_iff]
      intro q hq hk
      have := hdist p (List.mem_cons_self _ _) q (Or.inr hq) ((kh_some hh).trans hk.symm)
      exact hnew p (List.mem_cons_self _ _) (this ▸ hq)
    simp only [List.length_cons] at hsz
    obtain ⟨t1, r1, r2, r3, r4, -⟩ :=
      wf.insert_new hh (hnew p (List.mem_cons_self _ _)) hl (by omega)
    have hnd' := List.nodup_cons.1 hnd
    obtain ⟨t2, g1, g2, g3, g4⟩ := ih t1 r2
      (fun q hq => hlive q (List.mem_cons_of_mem _ hq)) hnd'.2
      (fun q hq hc => by
        rcases List.mem_cons.1 (r3.mem_iff.1 hc) with rfl | h2
        · exact hnd'.1 hq
        · exact hnew q (List.mem_cons_of_mem _ hq) h2)
      (fun a ha b hb hab => by
        apply hdist a (List.mem_cons_of_mem _ ha) b _ hab
        rcases hb with hb | hb
        · exact Or.inl (List.mem_cons_of_mem _ hb)
        · rcases List.mem_cons.1 (r3.mem_iff.1 hb) with rfl | h2
          · exact Or.inl (List.mem_cons_self _ _)
          · exact Or.inr h2)
      (by rw [r4]; omega)
    refine ⟨t2, ?_, g2, ?_, by rw [g4, r4, List.length_cons]; omega⟩
    · simp only [HandleTable.insertAll, r1]
      exact g1
    · refine g3.trans ?_
      refine (List.Perm.append_left rest r3).trans ?_
      simp only [List.cons_append]
      exact List.perm_middle

/-- C6.  For every list of `N ≤ 2^31` allocated handles with pairwise different keys,
linked one after the other with `HandleTable::Insert` into the table built by the
constructor: every call returns (with the resizes it triggers), and afterwards
`Lookup(key_i, hash_i)` returns exactly the `i`-th handle, for every `i`.  And a single
`Resize` of a table that counts its allocated handles in `elems_ ≤ 2^31` returns a table
that links the same handles, each exactly as often as before; `Resize` yields a table only,
so the LRU list and the handles of a shard whose table is resized are what they were. -/
theorem C6_resize_preserves (heap : Heap) :
    (∀ ps : List Ptr, (∀ p ∈ ps, ∃ h, heap p = some h) → ps.Nodup →
      (∀ p ∈ ps, ∀ q ∈ ps, ∀ hp hq, heap p = some hp → heap q = some hq →
        hp.key = hq.key → p = q) →
      ps.length ≤ 2147483648 →
      ∃ t, HandleTable.new.insertAll heap ps = some t ∧ t.elems_ = ps.length ∧
        (∀ p, p ∈ t.entries ↔ p ∈ ps) ∧
        ∀ p ∈ ps, ∀ h, heap p = some h → t.Lookup heap h.key h.hash = some p) ∧
    (∀ t : HandleTable, (∀ p ∈ t.entries, ∃ h, heap p = some h) →
      t.elems_ = t.entries.length → t.elems_ ≤ 2147483648 →
      ∃ t2, t.Resize heap = some t2 ∧ t2.entries.Perm t.entries ∧
        (∀ p, p ∈ t2.entries ↔ p ∈ t.entries) ∧ t2.elems_ = t.elems_ ∧
        ∀ s : LRUCache, s.table_ = t → s.heap = heap →
          ({ s with table_ := t2 } : LRUCache).lru_ = s.lru_ ∧
          ({ s with table_ := t2 } : LRUCache).heap = s.heap) := by
  constructor
  · intro ps hlive hnd hkeys hN
    have h0 : HandleTable.new.entries = [] := by rw [HandleTable.new_eq]; rfl
    have he0 : HandleTable.new.elems_ = 0 := by rw [HandleTable.new_eq]
    obtain ⟨t, g1, g2, g3, g4⟩ := insertAll_spec heap ps HandleTable.new
      (HandleTable.new_wf heap) hlive hnd (fun p _ => by rw [h0]; simp)
      (fun p hp q hq hk => by
        rw [h0] at hq
        have hq' : q ∈ ps := by simpa using hq
        obtain ⟨a, ha⟩ := hlive p hp
        obtain ⟨b, hb⟩ := hlive q hq'
        rw [kh_some ha, kh_some hb] at hk
        simp only [Option.some.injEq, Prod.mk.injEq] at hk
        exact hkeys p hp q hq' a b ha hb hk.1)
      (by rw [he0]; omega)
    rw [h0, List.append_nil] at g3
    refine ⟨t, g1, by rw [g4, he0]; omega, fun p => g3.mem_iff, ?_⟩
    intro p hp h hh
    exact (g2.lookup_eq_some_iff _ _ _).2 ⟨g3.mem_iff.2 hp, kh_some hh⟩
  · intro t hlive helems hle
    obtain ⟨t2, r1, r2, r3⟩ := resize_perm hlive helems hle
    exact ⟨t2, r1, r2, fun p => r2.mem_iff, r3, fun s _ _ => ⟨rfl, rfl⟩⟩

theorem fiveHandles_live : ∀ p ∈ [100, 101, 102, 103, 104], ∃ h, fiveHandles p = some h := by
  intro p hp
  simp only [List.mem_cons, List.mem_singleton, List.not_mem_nil, or_false] at hp
  rcases hp with rfl | rfl | rfl | rfl | rfl <;> exact ⟨_, rfl⟩

theorem fiveHandles_keys : ∀ p ∈ [100, 101, 102, 103, 104], ∀ q ∈ [100, 101, 102, 103, 104],
    ∀ hp hq, fiveHandles p = some hp → fiveHandles q = some hq → hp.key = hq.key → p = q := by
  intro p hp q hq a b ha hb hk
  simp only [List.mem_cons, List.mem_singleton, List.not_mem_nil, or_false] at hp hq
  rcases hp with rfl | rfl | rfl | rfl | rfl <;> rcases hq with rfl | rfl | rfl | rfl | rfl <;>
    first
    | rfl
    | (exfalso
       simp only [fiveHandles] at ha hb
       cases ha; cases hb
       simp [LRUHandle.key] at hk)

/-- C6, witness: five handles, which take the table from four to eight slots. -/
theorem C6_resize_preserves_witness :
    ∃ t, HandleTable.new.insertAll fiveHandles [100, 101, 102, 103, 104] = some t ∧
      t.elems_ = 5 ∧
      ∀ p ∈ [100, 101, 102, 103, 104], ∀ h, fiveHandles p = some h →
        t.Lookup fiveHandles h.key h.hash = some p :=
  match (C6_resize_preserves fiveHandles).1 [100, 101, 102, 103, 104] fiveHandles_live
      (by decide) fiveHandles_keys (by decide) with
  | ⟨t, h1, h2, _, h4⟩ => ⟨t, h1, h2, h4⟩

/-- The sum over the referenced handles, split into the listed ones and the ones that are
held but no longer listed. -/
theorem liveSum_split (heap : Heap) {lru H : List Ptr} (hnd : lru.Nodup) :
    ∑ p in (lru ++ H ++ []).toFinset, chargeOf heap p =
      (lru.map (chargeOf heap)).sum + ∑ p in (H.toFinset \ lru.toFinset), chargeOf heap p := by
  have hset : (lru ++ H ++ []).toFinset = lru.toFinset ∪ (H.toFinset \ lru.toFinset) := by
    rw [List.append_nil, List.toFinset_append, Finset.union_sdiff_self_eq_union]
  rw [hset, Finset.sum_union Finset.disjoint_sdiff, List.sum_toFinset _ hnd]

/-- In every reachable state the usage counter is, in `size_t` arithmetic, the sum of the
charges of the listed handles and of the handles that are held but no longer listed. -/
theorem usage_formula {capacity : Nat} {σ : Sys} (r : Reach capacity σ) :
    σ.cache.usage_ =
      ((σ.cache.lru_.map (chargeOf σ.cache.heap)).sum +
        ∑ p in (σ.handles.toFinset \ σ.cache.lru_.toFinset), chargeOf σ.cache.heap p) % two64 := by
  rw [← liveSum_split _ r.inv.cache.nodup]
  exact r.inv.acct.usage

theorem mem_deleterCalls {heap : Heap} {U : List Ptr} {d : DeleterCall} :
    d ∈ deleterCalls heap U ↔
      ∃ q ∈ U, ∃ h, heap q = some h ∧ h.refs = 1 ∧ d = ⟨q, h.deleter, h.key, h.value⟩ := by
  unfold deleterCalls
  rw [List.mem_filterMap]
  constructor
  · rintro ⟨q, hq, hd⟩
    cases hh : heap q with
    | none => simp [hh] at hd
    | some h =>
      simp only [hh] at hd
      split at hd
      · rename_i h1
        simp only [Option.some.injEq] at hd
        exact ⟨q, hq, h, hh, h1, hd.symm⟩
      · cases hd
  · rintro ⟨q, hq, h, hh, h1, rfl⟩
    exact ⟨q, hq, by simp [hh, h1]⟩

theorem deleterCalls_entry (heap : Heap) (U : List Ptr) :
    List.Sublist ((deleterCalls heap U).map (fun d => d.entry)) U := by
  induction U with
  | nil => simp [deleterCalls]
  | cons a rest ih =>
    unfold deleterCalls at ih ⊢
    cases hh : heap a with
    | none =>
      simp only [List.filterMap_cons, hh]
      exact List.Sublist.cons _ ih
    | some h =>
      by_cases h1 : h.refs = 1
      · simp only [List.filterMap_cons, hh, h1, if_true, List.map_cons]
        exact List.Sublist.cons₂ _ ih
      · simp only [List.filterMap_cons, hh, h1, if_false]
        exact List.Sublist.cons _ ih

/-- What an `Insert` that returns has done to the heap and to the deleter log: the new
handle was stored, and `Unref` was applied once to each handle of a list `U` of listed
handles (the one replaced, then the ones evicted, possibly the new one). -/
theorem insert_summary {s : LRUCache} (inv : CacheInv s) {e : Ptr} (hfresh : s.heap e = none)
    {key : Slice} {hash value charge deleter : Nat} {r : Ptr × LRUCache}
    (hret : s.Insert e key hash value charge deleter = some r) :
    r.1 = e ∧ CacheInv r.2 ∧ ∃ U : List Ptr, U.Nodup ∧ (∀ q ∈ U, q ∈ s.lru_ ∨ q = e) ∧
      r.2.heap = unrefHeap (s.heap.store e ⟨value, deleter, charge, key, 2, hash⟩) U ∧
      r.2.deleted = s.deleted ++
        deleterCalls (s.heap.store e ⟨value, deleter, charge, key, 2, hash⟩) U ∧
      (∀ q, q ∈ r.2.lru_ ↔ (q ∈ s.lru_ ∨ q = e) ∧ q ∉ U) := by
  obtain ⟨t2, s6, h1, inv6, he_lru, hcase⟩ :=
    insert_link inv hfresh key hash value charge deleter (insert_returns_size inv hfresh hret)
  obtain ⟨k, s7, -, k2, -, inv7, k5, -, k7, k8, -⟩ := insert_evict inv6
  rw [h1, k2] at hret
  simp only [Option.map_some', Option.some.injEq] at hret
  subst hret
  refine ⟨rfl, inv7, ?_⟩
  have hnd6 : (s6.lru_.take k ++ s6.lru_.drop k).Nodup := by
    rw [List.take_append_drop]; exact inv6.nodup
  have hmem6 : ∀ q, q ∈ s6.lru_ ↔ q ∈ s6.lru_.take k ∨ q ∈ s6.lru_.drop k := by
    intro q
    conv_lhs => rw [← List.take_append_drop k s6.lru_]
    exact List.mem_append
  have hdisj : ∀ q, q ∈ s6.lru_.take k → q ∉ s6.lru_.drop k := fun q hq hq2 =>
    (List.nodup_append.1 hnd6).2.2 hq hq2
  rcases hcase with ⟨-, hs6⟩ | ⟨old, ho, -, hho, hor, hold, holde, hs6⟩
  · have hl6 : s6.lru_ = s.lru_ ++ [e] := by rw [hs6]
    have hh6 : s6.heap = s.heap.store e ⟨value, deleter, charge, key, 2, hash⟩ := by rw [hs6]
    have hd6 : s6.deleted = s.deleted := by rw [hs6]
    refine ⟨s6.lru_.take k, (List.nodup_append.1 hnd6).1, ?_, ?_, ?_, ?_⟩
    · intro q hq
      have : q ∈ s6.lru_ := (hmem6 q).2 (Or.inl hq)
      rw [hl6] at this
      simpa using this
    · show s7.heap = _
      rw [k7, hh6]
    · show s7.deleted = _
      rw [k8, hd6, hh6]
    · intro q
      show q ∈ s7.lru_ ↔ _
      rw [k5]
      have h2 : (q ∈ s.lru_ ∨ q = e) ↔ q ∈ s6.lru_.take k ∨ q ∈ s6.lru_.drop k := by
        rw [← hmem6 q, hl6]; simp
      constructor
      · intro hq
        exact ⟨h2.2 (Or.inr hq), fun hc => hdisj q hc hq⟩
      · rintro ⟨hq, hnot⟩
        rcases h2.1 hq with h3 | h3
        · exact absurd h3 hnot
        · exact h3
  · obtain ⟨f1, -, -, -⟩ := afterUnref_frame
      ({ s with heap := s.heap.store e ⟨value, deleter, charge, key, 2, hash⟩,
                lru_ := s.lru_.erase old ++ [e],
                usage_ := (s.usage_ + charge) % two64, table_ := t2 } : LRUCache) old ho
    have hho3 : (s.heap.store e ⟨value, deleter, charge, key, 2, hash⟩) old = some ho := by
      rw [Heap.store_ne _ _ holde]; exact hho
    have hl6 : s6.lru_ = s.lru_.erase old ++ [e] := by rw [hs6, f1]
    have hh6 : s6.heap = unrefHeap (s.heap.store e ⟨value, deleter, charge, key, 2, hash⟩)
        [old] := by
      rw [hs6]
      exact afterUnref_heap (s := { s with
        heap := s.heap.store e ⟨value, deleter, charge, key, 2, hash⟩,
        lru_ := s.lru_.erase old ++ [e],
        usage_ := (s.usage_ + charge) % two64, table_ := t2 }) hho3
    have hd6 : s6.deleted = s.deleted ++
        deleterCalls (s.heap.store e ⟨value, deleter, charge, key, 2, hash⟩) [old] := by
      rw [hs6]
      exact afterUnref_deleted (s := { s with
        heap := s.heap.store e ⟨value, deleter, charge, key, 2, hash⟩,
        lru_ := s.lru_.erase old ++ [e],
        usage_ := (s.usage_ + charge) % two64, table_ := t2 }) hho3
    have hold6 : old ∉ s6.lru_ := by
      rw [hl6]
      simp only [List.mem_append, List.mem_singleton, not_or]
      exact ⟨fun hc => ((List.Nodup.mem_erase_iff inv.nodup).1 hc).1 rfl, holde⟩
    have holdU : old ∉ s6.lru_.take k := fun hc => hold6 ((hmem6 old).2 (Or.inl hc))
    refine ⟨old :: s6.lru_.take k,
      List.nodup_cons.2 ⟨holdU, (List.nodup_append.1 hnd6).1⟩, ?_, ?_, ?_, ?_⟩
    · intro q hq
      rcases List.mem_cons.1 hq with rfl | hq
      · exact Or.inl hold
      · have : q ∈ s6.lru_ := (hmem6 q).2 (Or.inl hq)
        rw [hl6] at this
        simp only [List.mem_append, List.mem_singleton] at this
        rcases this with h3 | h3
        · exact Or.inl (List.mem_of_mem_erase h3)
        · exact Or.inr h3
    · show s7.heap = _
      rw [k7, hh6]
      exact unrefHeap_cons holdU
    · show s7.deleted = _
      rw [k8, hd6, hh6, List.append_assoc]
      congr 1
      exact deleterCalls_cons holdU
    · intro q
      show q ∈ s7.lru_ ↔ _
      rw [k5]
      have h2 : ((q ≠ old ∧ q ∈ s.lru_) ∨ q = e) ↔
          q ∈ s6.lru_.take k ∨ q ∈ s6.lru_.drop k := by
        rw [← hmem6 q, hl6]
        simp [List.Nodup.mem_erase_iff inv.nodup]
      simp only [List.mem_cons, not_or]
      constructor
      · intro hq
        have h3 := h2.2 (Or.inr hq)
        refine ⟨?_, ?_, fun hc => hdisj q hc hq⟩
        · rcases h3 with h3 | h3
          · exact Or.inl h3.2
          · exact Or.inr h3
        · rintro rfl
          exact hold6 ((hmem6 q).2 (Or.inr hq))
      · rintro ⟨hq, hqo, hnot⟩
        have : (q ≠ old ∧ q ∈ s.lru_) ∨ q = e := by
          rcases hq with h3 | h3
          · exact Or.inl ⟨hqo, h3⟩
          · exact Or.inr h3
        rcases h2.1 this with h3 | h3
        · exact absurd h3 hnot
        · exact h3

/-- What `Erase` has done to the heap and to the deleter log. -/
theorem erase_summary {s : LRUCache} (inv : CacheInv s) {key : Slice} {hash : Nat}
    {s2 : LRUCache} (hret : s.Erase key hash = some s2) :
    CacheInv s2 ∧ ∃ U : List Ptr, U.Nodup ∧ (∀ q ∈ U, q ∈ s.lru_) ∧
      s2.heap = unrefHeap s.heap U ∧ s2.deleted = s.deleted ++ deleterCalls s.heap U ∧
      (∀ q, q ∈ s2.lru_ ↔ q ∈ s.lru_ ∧ q ∉ U) := by
  cases hl : s.table_.Lookup s.heap key hash with
  | none =>
    rw [erase_miss hl] at hret
    cases hret
    exact ⟨inv, [], List.nodup_nil, by simp, (unrefHeap_nil _).symm, by simp [deleterCalls],
      by simp⟩
  | some e =>
    obtain ⟨h, hh, hr, -, -, hmem, he, inv2⟩ := erase_hit inv hl
    rw [he] at hret
    cases hret
    obtain ⟨f1, -, -, -⟩ := afterUnref_frame
      ({ s with table_ := (s.table_.Remove s.heap key hash).2, lru_ := s.lru_.erase e } :
        LRUCache) e h
    refine ⟨inv2, [e], List.nodup_singleton e, by simpa using hmem, ?_, ?_, ?_⟩
    · exact afterUnref_heap (s := { s with
        table_ := (s.table_.Remove s.heap key hash).2, lru_ := s.lru_.erase e }) hh
    · exact afterUnref_deleted (s := { s with
        table_ := (s.table_.Remove s.heap key hash).2, lru_ := s.lru_.erase e }) hh
    · intro q
      rw [f1]
      show q ∈ s.lru_.erase e ↔ _
      rw [List.Nodup.mem_erase_iff inv.nodup]
      simp only [List.mem_singleton]
      tauto

theorem insert_returns {s : LRUCache} (inv : CacheInv s) {e : Ptr} (hfresh : s.heap e = none)
    (key : Slice) (hash value charge deleter : Nat)
    (hsz : s.table_.Lookup s.heap key hash = none → s.table_.elems_ < 2147483648) :
    ∃ s7, s.Insert e key hash value charge deleter = some (e, s7) := by
  obtain ⟨t2, s6, h1, inv6, -, -⟩ := insert_link inv hfresh key hash value charge deleter hsz
  obtain ⟨k, s7, -, k2, -⟩ := insert_evict inv6
  exact ⟨s7, by rw [h1, k2]; rfl⟩

/-- A handle with more than one reference, or not among the handles unreferenced, is kept
alive. -/
theorem keptAlive_of_summary {s s2 : LRUCache} {base : Heap} {U : List Ptr} {p : Ptr}
    {h : LRUHandle} (hs : s.heap p = some h) (hb : base p = some h)
    (hU : p ∈ U → h.refs ≠ 1) (hheap : s2.heap = unrefHeap base U)
    (hdel : s2.deleted = s.deleted ++ deleterCalls base U) : KeptAlive p s s2 := by
  by_cases hp : p ∈ U
  · refine ⟨deleterCalls base U, h, h.unref, hdel, ?_, hs, ?_, rfl, rfl, rfl⟩
    · intro d hd
      obtain ⟨q, hq, h', hh', h1, rfl⟩ := mem_deleterCalls.1 hd
      rintro rfl
      have hq' : base q = some h' := hh'
      rw [hb] at hq'; cases hq'
      exact hU hp h1
    · rw [hheap]
      simp [unrefHeap, hp, hb, hU hp]
  · refine ⟨deleterCalls base U, h, h, hdel, ?_, hs, ?_, rfl, rfl, rfl⟩
    · intro d hd
      obtain ⟨q, hq, h', hh', h1, rfl⟩ := mem_deleterCalls.1 hd
      rintro rfl
      exact hp hq
    · rw [hheap]
      simp [unrefHeap, hp, hb]

/-- What every operation has done to the heap and to the deleter log: starting from a heap
`base` that is the old one except for a handle with at least two references (the new handle
of `Insert`, the handle hit by `Lookup`), `Unref` was applied once to each handle of a list
`U` without repetition. -/
theorem step_summary {σ τ : Sys} (inv : SysInv σ) (st : Step σ τ) :
    ∃ (base : Heap) (U : List Ptr), U.Nodup ∧
      τ.cache.heap = unrefHeap base U ∧
      τ.cache.deleted = σ.cache.deleted ++ deleterCalls base U ∧
      ∀ q, base q = σ.cache.heap q ∨ ∃ h2, base q = some h2 ∧ 2 ≤ h2.refs := by
  cases st with
  | insert e key hash value charge deleter c2 hfresh _ _ hins =>
    obtain ⟨-, -, U, u1, -, u3, u4, -⟩ := insert_summary inv.cache hfresh hins
    refine ⟨_, U, u1, u3, u4, ?_⟩
    intro q
    by_cases hq : q = e
    · subst hq
      exact Or.inr ⟨_, Heap.store_self _ _ _, le_refl _⟩
    · exact Or.inl (Heap.store_ne _ _ hq)
  | lookupHit key hash e c2 hlk hguard =>
    have hl : σ.cache.table_.Lookup σ.cache.heap key hash = some e := by
      rw [← lookup_fst, hlk]
    obtain ⟨h, hh, -, -⟩ := table_lookup_live hl
    have hmem : e ∈ σ.cache.lru_ :=
      inv.cache.perm.mem_iff.1 ((inv.cache.table.lookup_eq_some_iff key hash e).1 hl).1
    have hr := inv.cache.refs e hmem h hh
    rw [lookup_hit hl hh] at hlk
    simp only [Prod.mk.injEq, true_and] at hlk
    subst hlk
    refine ⟨_, [], List.nodup_nil, (unrefHeap_nil _).symm, by simp [deleterCalls], ?_⟩
    intro q
    by_cases hq : q = e
    · subst hq
      refine Or.inr ⟨_, Heap.store_self _ _ _, ?_⟩
      show 2 ≤ (h.refs + 1) % two32
      rw [Nat.mod_eq_of_lt (hguard h hh)]; omega
    · exact Or.inl (Heap.store_ne _ _ hq)
  | lookupMiss key hash c2 hlk =>
    have hl : σ.cache.table_.Lookup σ.cache.heap key hash = none := by
      rw [← lookup_fst, hlk]
    rw [lookup_miss hl] at hlk
    simp only [Prod.mk.injEq, true_and] at hlk
    subst hlk
    exact ⟨_, [], List.nodup_nil, (unrefHeap_nil _).symm, by simp [deleterCalls],
      fun q => Or.inl rfl⟩
  | release h c2 hmem hrel =>
    obtain ⟨hd, hh, hr⟩ := inv.acct.refLive (p := h) (Or.inr (Or.inl hmem))
    have hu : σ.cache.Release h = some (σ.cache.afterUnref h hd) := unref_eq hh hr
    rw [hu] at hrel
    cases hrel
    exact ⟨_, [h], List.nodup_singleton h, afterUnref_heap hh, afterUnref_deleted hh,
      fun q => Or.inl rfl⟩
  | erase key hash c2 her =>
    obtain ⟨-, U, u1, -, u3, u4, -⟩ := erase_summary inv.cache her
    exact ⟨_, U, u1, u3, u4, fun q => Or.inl rfl⟩

theorem oneEntryShard_wrap : (oneEntryShard 4294967295).Lookup [1] 5 = (some 100, oneEntryShard 0) := by
  rw [oneEntryShard_lookup]; rfl

theorem oneEntryShard_wrap2 : (oneEntryShard 0).Lookup [1] 5 = (some 100, oneEntryShard 1) := by
  rw [oneEntryShard_lookup]; rfl

/-- C3, counterexample.  The shard reached by `Insert` of one entry and `2^32 - 3` hits of
`Lookup` (no handle released) holds the entry with reference count `2^32 - 1`; two more hits
of `Lookup` wrap the count to `0` and then `1`.  The callers now hold `2^32` unreleased
handles to the entry, yet `Erase` of its key invokes the deleter and frees the entry. -/
theorem C3_counterexample :
    Reach 10 ⟨oneEntryShard 4294967295, List.replicate 4294967293 100 ++ [100]⟩ ∧
    (oneEntryShard 4294967295).Lookup [1] 5 = (some 100, oneEntryShard 0) ∧
    (oneEntryShard 0).Lookup [1] 5 = (some 100, oneEntryShard 1) ∧
    ((oneEntryShard 1).Erase [1] 5).map (fun s => (s.deleted, s.heap 100)) =
      some ([⟨100, 0, [1], 77⟩], none) :=
  ⟨oneEntryShard_reach 4294967293 (by decide), oneEntryShard_wrap, oneEntryShard_wrap2,
    by decide!⟩

/-- C3, as amended.  In every state reached without a reference count wrapping (fewer
than `2^32 - 1` handles held on one entry), for every entry `p` on which a caller holds at
least one unreleased handle: an `Insert` (which returns whenever a new key finds fewer than
`2^31` table entries) that evicts or replaces `p`, or not, and an `Erase`, of its key or of
another, leave `p` allocated with its key, value and deleter and log no deleter call for
`p`; and `Release` of a handle on `p` returns, invokes the deleter of `p` (once, with the
key and value of `p`) and frees `p` exactly when `p` is no longer in the LRU list and the
handle is the last one held, and otherwise only lowers the count by one. -/
theorem C3_held_entry_survives (capacity : Nat) (σ : Sys) (hreach : Reach capacity σ)
    (p : Ptr) (hheld : p ∈ σ.handles) :
    (∀ (e : Ptr) (key : Slice) (hash value charge deleter : Nat), σ.cache.heap e = none →
      ((σ.cache.table_.Lookup σ.cache.heap key hash = none →
          σ.cache.table_.elems_ < 2147483648) →
        ∃ r, σ.cache.Insert e key hash value charge deleter = some r) ∧
      ∀ r, σ.cache.Insert e key hash value charge deleter = some r →
        KeptAlive p σ.cache r.2) ∧
    (∀ (key : Slice) (hash : Nat),
      ∃ s2, σ.cache.Erase key hash = some s2 ∧ KeptAlive p σ.cache s2) ∧
    (∃ h s2, σ.cache.heap p = some h ∧ σ.cache.Release p = some s2 ∧
      (if p ∉ σ.cache.lru_ ∧ σ.handles.count p = 1 then
        s2.deleted = σ.cache.deleted ++ [⟨p, h.deleter, h.key, h.value⟩] ∧ s2.heap p = none
      else s2.deleted = σ.cache.deleted ∧ s2.heap p = some h.unref)) := by
  have inv := hreach.inv
  obtain ⟨h, hh, hr⟩ := inv.acct.refLive (p := p) (Or.inr (Or.inl hheld))
  have hrefs := (inv.acct.refs p h hh).1
  simp only [List.count_nil, Nat.add_zero] at hrefs
  have hcount : 1 ≤ σ.handles.count p := List.count_pos_iff.2 hheld
  have hlisted : p ∈ σ.cache.lru_ → h.refs ≠ 1 := by
    intro hl; rw [if_pos hl] at hrefs; omega
  refine ⟨?_, ?_, ?_⟩
  · intro e key hash value charge deleter hfresh
    refine ⟨fun hsz => ?_, fun r hret => ?_⟩
    · obtain ⟨s7, h7⟩ := insert_returns inv.cache hfresh key hash value charge deleter hsz
      exact ⟨_, h7⟩
    · obtain ⟨-, -, U, -, u2, u3, u4, -⟩ := insert_summary inv.cache hfresh hret
      have hpe : p ≠ e := by rintro rfl; rw [hfresh] at hh; cases hh
      refine keptAlive_of_summary hh (by rw [Heap.store_ne _ _ hpe]; exact hh) ?_ u3 u4
      intro hpU
      rcases u2 p hpU with h1 | h1
      · exact hlisted h1
      · exact absurd h1 hpe
  · intro key hash
    cases hE : σ.cache.Erase key hash with
    | none =>
      exfalso
      cases hl : σ.cache.table_.Lookup σ.cache.heap key hash with
      | none => rw [erase_miss hl] at hE; cases hE
      | some e =>
        obtain ⟨_, -, -, -, -, -, he, -⟩ := erase_hit inv.cache hl
        rw [he] at hE; cases hE
    | some s2 =>
      obtain ⟨-, U, -, u2, u3, u4, -⟩ := erase_summary inv.cache hE
      exact ⟨s2, rfl, keptAlive_of_summary hh hh (fun hpU => hlisted (u2 p hpU)) u3 u4⟩
  · refine ⟨h, σ.cache.afterUnref p h, hh, unref_eq hh hr, ?_⟩
    have hone : h.refs = 1 ↔ p ∉ σ.cache.lru_ ∧ σ.handles.count p = 1 := by
      constructor
      · intro h1
        have hnl : p ∉ σ.cache.lru_ := fun hl => hlisted hl h1
        rw [if_neg hnl] at hrefs
        exact ⟨hnl, by omega⟩
      · rintro ⟨hnl, hc⟩
        rw [if_neg hnl] at hrefs
        omega
    by_cases hc : p ∉ σ.cache.lru_ ∧ σ.handles.count p = 1
    · rw [if_pos hc]
      obtain ⟨g1, g2, -⟩ := afterUnref_free σ.cache p (hone.2 hc)
      exact ⟨g2, g1⟩
    · rw [if_neg hc]
      obtain ⟨g1, g2, -⟩ := afterUnref_keep σ.cache p (fun h1 => hc (hone.1 h1))
      exact ⟨g2, g1⟩

/-- C3, witness: in the shard of two entries, both held, `Erase` of key `[1]` keeps the
entry at `100` alive. -/
theorem C3_held_entry_survives_witness :
    Reach 10 ⟨twoEntryShard, [101, 100]⟩ ∧ 100 ∈ [101, 100] ∧
    ∃ s2, twoEntryShard.Erase [1] 5 = some s2 ∧ KeptAlive 100 twoEntryShard s2 :=
  ⟨twoEntryShard_reach, by decide,
    (C3_held_entry_survives 10 ⟨twoEntryShard, [101, 100]⟩ twoEntryShard_reach 100
      (by decide)).2.1 [1] 5⟩

/-- C8, counterexample.  From the shard reached by `Insert` of one entry and `2^32 - 3`
hits of `Lookup`, two more hits wrap the reference count to `0` and then `1`; `Release` of
one of the `2^32` handles held then invokes the deleter and frees the entry although it is
still in the LRU list and in the table and `2^32 - 1` handles are outstanding. -/
theorem C8_counterexample :
    Reach 10 ⟨oneEntryShard 4294967295, List.replicate 4294967293 100 ++ [100]⟩ ∧
    ((oneEntryShard 4294967295).Lookup [1] 5).1 = some 100 ∧
    ((oneEntryShard 4294967295).Lookup [1] 5).2 = oneEntryShard 0 ∧
    ((oneEntryShard 0).Lookup [1] 5).1 = some 100 ∧
    ((oneEntryShard 0).Lookup [1] 5).2 = oneEntryShard 1 ∧
    ((oneEntryShard 1).Release 100).map
        (fun s => (s.deleted, s.heap 100, s.lru_, s.table_.entries)) =
      some ([⟨100, 0, [1], 77⟩], none, [100], [100]) :=
  ⟨oneEntryShard_reach 4294967293 (by decide), by rw [oneEntryShard_wrap],
    by rw [oneEntryShard_wrap], by rw [oneEntryShard_wrap2], by rw [oneEntryShard_wrap2],
    by decide!⟩

/-- C8, as amended.  Along every sequence of shard operations that obeys the handle
protocol and wraps no reference count, every operation adds to the deleter log exactly one
call for each entry whose reference count was `1` before the operation and which the
operation frees (its count goes from `1` to `0`), with that entry's own key and value, and
no entry twice; a freed entry is no longer allocated, so no later call can be made for it;
and after the operation an address is not allocated if and only if it is absent from the
LRU list, from the table and from the handles held, every allocated entry having a non-zero
count. -/
theorem C8_deleter_once (capacity : Nat) (σ τ : Sys) (hreach : Reach capacity σ)
    (hstep : Step σ τ) :
    ∃ calls : List DeleterCall,
      τ.cache.deleted = σ.cache.deleted ++ calls ∧
      (calls.map (fun d => d.entry)).Nodup ∧
      (∀ d, d ∈ calls ↔ ∃ h, σ.cache.heap d.entry = some h ∧ h.refs = 1 ∧
        τ.cache.heap d.entry = none ∧ d = ⟨d.entry, h.deleter, h.key, h.value⟩) ∧
      (∀ p, τ.cache.heap p = none ↔
        p ∉ τ.cache.lru_ ∧ p ∉ τ.cache.table_.entries ∧ p ∉ τ.handles) ∧
      (∀ p h, τ.cache.heap p = some h → 1 ≤ h.refs) := by
  have inv := hreach.inv
  have invτ := inv.step hstep
  obtain ⟨base, U, u1, u2, u3, u4⟩ := step_summary inv hstep
  refine ⟨deleterCalls base U, u3, (deleterCalls_entry base U).nodup u1, ?_, ?_, ?_⟩
  · intro d
    constructor
    · intro hd
      obtain ⟨q, hq, h, hh, h1, rfl⟩ := mem_deleterCalls.1 hd
      have hbq : base q = σ.cache.heap q := by
        rcases u4 q with h2 | ⟨h2, e2, r2⟩
        · exact h2
        · rw [hh] at e2; cases e2; omega
      refine ⟨h, by rw [← hbq]; exact hh, h1, ?_, rfl⟩
      rw [u2]
      simp [unrefHeap, hq, hh, h1]
    · rintro ⟨h, hh, h1, hnone, hd⟩
      rw [hd]
      rw [u2] at hnone
      have hbq : base d.entry = some h := by
        rcases u4 d.entry with h2 | ⟨h2, e2, r2⟩
        · rw [h2]; exact hh
        · exfalso
          unfold unrefHeap at hnone
          by_cases hq : d.entry ∈ U
          · have : h2.refs ≠ 1 := by omega
            simp [hq, e2, this] at hnone
          · simp [hq, e2] at hnone
      have hq : d.entry ∈ U := by
        by_contra hq
        simp [unrefHeap, hq, hbq] at hnone
      exact mem_deleterCalls.2 ⟨d.entry, hq, h, hbq, h1, rfl⟩
  · intro p
    constructor
    · intro hp
      obtain ⟨d1, d2, -⟩ := invτ.acct.dead p hp
      exact ⟨d1, fun hc => d1 (invτ.cache.perm.mem_iff.1 hc), d2⟩
    · rintro ⟨h1, -, h3⟩
      cases hh : τ.cache.heap p with
      | none => rfl
      | some h =>
        exfalso
        have := invτ.acct.refs p h hh
        rw [if_neg h1, List.count_eq_zero_of_not_mem h3] at this
        simp only [List.count_nil] at this
        omega
  · intro p h hh
    exact (invτ.acct.refs p h hh).2

/-- C8, witness: `Release` of the handle of the evicted entry of charge `20` invokes its
deleter. -/
theorem C8_deleter_once_witness :
    Reach 10 ⟨(LRUCache.new.SetCapacity 10).afterInsert 100 [1] 5 77 20 0, [100]⟩ ∧
    ∃ calls : List DeleterCall,
      (((LRUCache.new.SetCapacity 10).afterInsert 100 [1] 5 77 20 0).afterRelease 100).deleted =
        ((LRUCache.new.SetCapacity 10).afterInsert 100 [1] 5 77 20 0).deleted ++ calls ∧
      (calls.map (fun d => d.entry)).Nodup :=
  ⟨(@Reach.init 10).insertRun 100 [1] 5 77 20 0 (by decide!) (by decide!) (by decide!)
      (by decide!),
    match C8_deleter_once 10
      ⟨(LRUCache.new.SetCapacity 10).afterInsert 100 [1] 5 77 20 0, [100]⟩
      ⟨((LRUCache.new.SetCapacity 10).afterInsert 100 [1] 5 77 20 0).afterRelease 100,
        List.erase [100] 100⟩
      ((@Reach.init 10).insertRun 100 [1] 5 77 20 0 (by decide!) (by decide!) (by decide!)
        (by decide!))
      (Step.release _ 100 _ (by decide) (afterRelease_eq (by decide!))) with
    | ⟨calls, h1, h2, _⟩ => ⟨calls, h1, h2⟩⟩

theorem newIds_spec (n : Nat) (c : ShardedLRUCache) (h : c.last_id_ + n < two64) :
    (c.newIds n).1 = List.range' (c.last_id_ + 1) n ∧ (c.newIds n).2.shard_ = c.shard_ ∧
      (c.newIds n).2.last_id_ = c.last_id_ + n := by
  induction n generalizing c with
  | zero => exact ⟨rfl, rfl, rfl⟩
  | succ n ih =>
    have hv : (c.last_id_ + 1) % two64 = c.last_id_ + 1 := Nat.mod_eq_of_lt (by omega)
    have hl : c.NewId.2.last_id_ = c.last_id_ + 1 := hv
    obtain ⟨i1, i2, i3⟩ := ih c.NewId.2 (by rw [hl]; omega)
    refine ⟨?_, ?_, ?_⟩
    · show c.NewId.1 :: (c.NewId.2.newIds n).1 = _
      rw [i1, hl, List.range'_succ]
      exact congrArg (· :: _) hv
    · show (c.NewId.2.newIds n).2.shard_ = _
      rw [i2]; rfl
    · show (c.NewId.2.newIds n).2.last_id_ = _
      rw [i3, hl]; omega

/-- C11.  On the cache built by `NewLRUCache(capacity)`, for every `n` with
`1 ≤ n < 2^64` the first `n` calls of `NewId` return `1, 2, ..., n` in this order: the
`n`-th call returns `n` and the results are strictly increasing; the shards are unchanged.
In every state a call returns the stored counter (the previous result) plus `1` modulo
`2^64`, stores its result as the counter, and changes no shard. -/
theorem C11_new_id (capacity n : Nat) (h1 : 1 ≤ n) (hn : n < two64) :
    ((NewLRUCache capacity).newIds n).1 = List.range' 1 n ∧
    ((NewLRUCache capacity).newIds n).1[n - 1]? = some n ∧
    ((NewLRUCache capacity).newIds n).1.Pairwise (fun a b => a < b) ∧
    ((NewLRUCache capacity).newIds n).2.shard_ = (NewLRUCache capacity).shard_ ∧
    (∀ c : ShardedLRUCache, c.NewId.1 = (c.last_id_ + 1) % two64 ∧
      c.NewId.2.last_id_ = c.NewId.1 ∧ c.NewId.2.shard_ = c.shard_) := by
  obtain ⟨i1, i2, -⟩ := newIds_spec n (NewLRUCache capacity)
    (by show 0 + n < two64; omega)
  have i1' : ((NewLRUCache capacity).newIds n).1 = List.range' 1 n := by
    rw [i1]; rfl
  refine ⟨i1', ?_, ?_, i2, fun c => ⟨rfl, rfl, rfl⟩⟩
  · rw [i1', List.getElem?_range' 1 1 (by omega : n - 1 < n)]
    congr 1; omega
  · rw [i1']
    exact List.pairwise_lt_range' 1 n

/-- C11, witness: three calls on a new cache. -/
theorem C11_new_id_witness :
    ((NewLRUCache 100).newIds 3).1 = List.range' 1 3 ∧
    ((NewLRUCache 100).newIds 3).1[3 - 1]? = some 3 :=
  ⟨(C11_new_id 100 3 (by decide) (by decide)).1, (C11_new_id 100 3 (by decide) (by decide)).2.1⟩

/-- What `HandleTable::Insert` of a new handle does, in both cases. -/
theorem TableWF.insert_any {heap : Heap} {t : HandleTable} (wf : TableWF heap t)
    {h : Ptr} {hd : LRUHandle} (hh : heap h = some hd) (hnew : h ∉ t.entries)
    (hsz : t.elems_ < 2147483648) :
    ∃ r t2, t.Insert heap h = some (r, t2) ∧ TableWF heap t2 ∧
      r = t.Lookup heap hd.key hd.hash ∧
      (∀ o, r = some o → o ∈ t.entries ∧ kh heap o = some (hd.key, hd.hash)) ∧
      (∀ q, q ∈ t2.entries ↔ q = h ∨ (q ∈ t.entries ∧ r ≠ some q)) ∧
      t2.elems_ ≤ t.elems_ + 1 := by
  cases hl : t.Lookup heap hd.key hd.hash with
  | none =>
    obtain ⟨t2, a1, a2, a3, a4, -⟩ := wf.insert_new hh hnew hl hsz
    refine ⟨none, t2, a1, a2, rfl, by simp, ?_, by omega⟩
    intro q
    rw [a3.mem_iff]
    simp
  | some old =>
    obtain ⟨t2, a1, a2, a3, -, a5⟩ := wf.insert_replace hh hnew hl
    have ho := (wf.lookup_eq_some_iff _ _ _).1 hl
    refine ⟨some old, t2, a1, a2, rfl, ?_, ?_, by omega⟩
    · intro o ho2
      cases ho2
      exact ho
    · intro q
      rw [a3.mem_iff, List.mem_cons, List.Nodup.mem_erase_iff wf.nodup]
      simp only [ne_eq, Option.some.injEq]
      constructor
      · rintro (h1 | ⟨h1, h2⟩)
        · exact Or.inl h1
        · exact Or.inr ⟨h2, fun h3 => h1 h3.symm⟩
      · rintro (h1 | ⟨h1, h2⟩)
        · exact Or.inl h1
        · exact Or.inr ⟨fun h3 => h2 h3.symm, h1⟩

/-- C12.  For every table state, key and hash, `HandleTable::Lookup(key, hash)` returns an
entry only if the entry is allocated, its key equals `key` and its stored hash equals
`hash`.  And for two new handles `p`, `q` with equal hashes and different keys, linked one
after the other with `HandleTable::Insert` into a well-formed table of fewer than
`2^31 - 1` entries: both calls return, neither call returns the other handle, both handles
are linked afterwards, and `Lookup` of each key returns its own handle. -/
theorem C12_full_key_comparison (heap : Heap) (t : HandleTable) :
    (∀ key hash e, t.Lookup heap key hash = some e →
      ∃ hd, heap e = some hd ∧ hd.key = key ∧ hd.hash = hash) ∧
    (∀ p q hp hq, TableWF heap t → t.elems_ + 1 < 2147483648 →
      heap p = some hp → heap q = some hq → p ∉ t.entries → q ∉ t.entries → p ≠ q →
      hp.hash = hq.hash → hp.key ≠ hq.key →
      ∃ r1 t1 r2 t2, t.Insert heap p = some (r1, t1) ∧ t1.Insert heap q = some (r2, t2) ∧
        r1 ≠ some q ∧ r2 ≠ some p ∧ p ∈ t2.entries ∧ q ∈ t2.entries ∧
        t2.Lookup heap hp.key hp.hash = some p ∧
        t2.Lookup heap hq.key hq.hash = some q) := by
  refine ⟨fun key hash e h => table_lookup_live h, ?_⟩
  intro p q hp hq wf hsz hhp hhq hpn hqn hpq hhash hkey
  obtain ⟨r1, t1, a1, wf1, -, a3, a4, a5⟩ := wf.insert_any hhp hpn (by omega)
  have hq1 : q ∉ t1.entries := by
    rw [a4]
    rintro (h1 | ⟨h1, -⟩)
    · exact hpq h1.symm
    · exact hqn h1
  obtain ⟨r2, t2, b1, wf2, -, b3, b4, -⟩ := wf1.insert_any hhq hq1 (by omega)
  have hr2 : r2 ≠ some p := by
    intro h2
    have := (b3 p h2).2
    rw [kh_some hhp] at this
    simp only [Option.some.injEq, Prod.mk.injEq] at this
    exact hkey this.1
  have hp2 : p ∈ t2.entries := (b4 p).2 (Or.inr ⟨(a4 p).2 (Or.inl rfl), hr2⟩)
  have hq2 : q ∈ t2.entries := (b4 q).2 (Or.inl rfl)
  refine ⟨r1, t1, r2, t2, a1, b1, ?_, hr2, hp2, hq2, ?_, ?_⟩
  · intro h1
    exact hqn (a3 q h1).1
  · exact (wf2.lookup_eq_some_iff _ _ _).2 ⟨hp2, kh_some hhp⟩
  · exact (wf2.lookup_eq_some_iff _ _ _).2 ⟨hq2, kh_some hhq⟩

/-- C12, witness: the two handles of `collidingHandles`, which have the same hash, linked
into a new table. -/
theorem C12_full_key_comparison_witness :
    ∃ r1 t1 r2 t2, HandleTable.new.Insert collidingHandles 100 = some (r1, t1) ∧
      t1.Insert collidingHandles 101 = some (r2, t2) ∧
      r1 ≠ some 101 ∧ r2 ≠ some 100 ∧ 100 ∈ t2.entries ∧ 101 ∈ t2.entries ∧
      t2.Lookup collidingHandles [1] 5 = some 100 ∧
      t2.Lookup collidingHandles [2] 5 = some 101 :=
  (C12_full_key_comparison collidingHandles HandleTable.new).2 100 101
    ⟨77, 0, 1, [1], 1, 5⟩ ⟨78, 0, 1, [2], 1, 5⟩ (HandleTable.new_wf _)
    (by rw [HandleTable.new_eq]; decide) rfl rfl
    (by rw [HandleTable.new_eq]; decide) (by rw [HandleTable.new_eq]; decide)
    (by decide) rfl (by decide)

theorem pow_minimal {j m e : Nat} (hj : j = 2 ∨ 2 ^ (j - 1) < e) (h4 : 4 ≤ 2 ^ m)
    (he : e ≤ 2 ^ m) : 2 ^ j ≤ 2 ^ m := by
  rcases hj with rfl | hj
  · exact h4
  · have hlt : 2 ^ (j - 1) < 2 ^ m := lt_of_lt_of_le hj he
    have : j - 1 < m := (Nat.pow_lt_pow_iff_right (by decide)).1 hlt
    exact Nat.pow_le_pow_right (by decide) (by omega)

/-- C16.  The table built by the constructor has `4` slots and no element.  For a
well-formed table (slot count a power of two between `4` and `2^31`, `elems_` the number of
linked handles and at most `length_`): `Insert` of a new handle returns when the key is
linked already or fewer than `2^31` handles are, and `Remove` always returns; both leave a
well-formed table, so `length_` is a power of two `≥ 4` and `elems_ ≤ length_`; `Insert`
doubles `length_` exactly when it links a new key and `elems_ + 1 > length_`, and keeps it
otherwise; `Remove` keeps `length_`.  `Resize` of a table that counts its handles in
`elems_ ≤ 2^31` sets `length_` to the smallest power of two that is `≥ 4` and `≥ elems_`. -/
theorem C16_slot_count (heap : Heap) (t : HandleTable) (wf : TableWF heap t) :
    (HandleTable.new.length_ = 4 ∧ HandleTable.new.elems_ = 0 ∧
      TableWF heap HandleTable.new) ∧
    ((∃ k, 2 ≤ k ∧ t.length_ = 2 ^ k) ∧ t.elems_ ≤ t.length_) ∧
    (∀ h hd, heap h = some hd → h ∉ t.entries →
      (t.Lookup heap hd.key hd.hash = none → t.elems_ < 2147483648) →
      ∃ r t2, t.Insert heap h = some (r, t2) ∧ TableWF heap t2 ∧
        (∃ k, 2 ≤ k ∧ t2.length_ = 2 ^ k) ∧ t2.elems_ ≤ t2.length_ ∧
        (if r = none ∧ t.elems_ + 1 > t.length_ then t2.length_ = 2 * t.length_
          else t2.length_ = t.length_)) ∧
    (∀ key hash, TableWF heap (t.Remove heap key hash).2 ∧
      (t.Remove heap key hash).2.length_ = t.length_ ∧
      (t.Remove heap key hash).2.elems_ ≤ (t.Remove heap key hash).2.length_) ∧
    (∀ u : HandleTable, (∀ p ∈ u.entries, ∃ h, heap p = some h) → u.entries.Nodup →
      (∀ p q, p ∈ u.entries → q ∈ u.entries → kh heap p = kh heap q → p = q) →
      u.elems_ = u.entries.length → u.elems_ ≤ 2147483648 →
      ∃ u2 j, u.Resize heap = some u2 ∧ u2.length_ = 2 ^ j ∧ 4 ≤ u2.length_ ∧
        u.elems_ ≤ u2.length_ ∧
        ∀ m, 4 ≤ 2 ^ m → u.elems_ ≤ 2 ^ m → u2.length_ ≤ 2 ^ m) := by
  have hpow : ∀ {t3 : HandleTable}, TableWF heap t3 → ∃ k, 2 ≤ k ∧ t3.length_ = 2 ^ k := by
    intro t3 w
    obtain ⟨k, k1, -, k3⟩ := w.pow
    exact ⟨k, k1, k3⟩
  refine ⟨⟨by rw [HandleTable.new_eq], by rw [HandleTable.new_eq], HandleTable.new_wf heap⟩,
    ⟨hpow wf, wf.load⟩, ?_, ?_, ?_⟩
  · intro h hd hh hnew hsz
    cases hl : t.Lookup heap hd.key hd.hash with
    | none =>
      obtain ⟨t2, a1, a2, -, -, a5⟩ := wf.insert_new hh hnew hl (hsz hl)
      refine ⟨none, t2, a1, a2, hpow a2, a2.load, ?_⟩
      by_cases hgt : t.elems_ + 1 > t.length_
      · rw [if_pos ⟨rfl, hgt⟩]; rw [if_pos hgt] at a5; exact a5
      · rw [if_neg (fun hc => hgt hc.2)]; rw [if_neg hgt] at a5; exact a5.1
    | some old =>
      obtain ⟨t2, a1, a2, -, a4, -⟩ := wf.insert_replace hh hnew hl
      refine ⟨some old, t2, a1, a2, hpow a2, a2.load, ?_⟩
      rw [if_neg (fun hc => by cases hc.1)]
      exact a4
  · intro key hash
    cases hl : t.Lookup heap key hash with
    | none =>
      rw [TableWF.remove_none hl]
      exact ⟨wf, rfl, wf.load⟩
    | some p =>
      obtain ⟨t2, a1, a2, -, a4, -⟩ := wf.remove_some hl
      rw [a1]
      exact ⟨a2, a4, a2.load⟩
  · intro u hlive hnd hdist hel hle
    obtain ⟨u2, a1, a2, -, -, j, j1, -, j3, j4, j5⟩ := resize_spec hlive hnd hdist hel hle
    refine ⟨u2, j, a1, j3, ?_, by rw [j3]; exact j4, ?_⟩
    · rw [j3]; exact four_le_two_pow j1
    · intro m h4 he
      rw [j3]
      exact pow_minimal j5 h4 he

/-- C16, witness: `Insert` of the handle `100` into a new table keeps the `4` slots. -/
theorem C16_slot_count_witness :
    ∃ r t2, HandleTable.new.Insert collidingHandles 100 = some (r, t2) ∧
      TableWF collidingHandles t2 ∧
      (∃ k, 2 ≤ k ∧ t2.length_ = 2 ^ k) ∧ t2.elems_ ≤ t2.length_ ∧
      (if r = none ∧ HandleTable.new.elems_ + 1 > HandleTable.new.length_ then
        t2.length_ = 2 * HandleTable.new.length_
        else t2.length_ = HandleTable.new.length_) :=
  (C16_slot_count collidingHandles HandleTable.new (HandleTable.new_wf _)).2.2.1 100
    ⟨77, 0, 1, [1], 1, 5⟩ rfl (by rw [HandleTable.new_eq]; decide)
    (fun _ => by rw [HandleTable.new_eq]; decide)

/-- The new handle after an `Insert` that returns: it is allocated with the fields given,
and its count is `2` if it is still in the list and `1` if it was evicted. -/
theorem insert_new_handle {s : LRUCache} (inv : CacheInv s) {e : Ptr}
    (hfresh : s.heap e = none) {key : Slice} {hash value charge deleter : Nat}
    {r : Ptr × LRUCache} (hret : s.Insert e key hash value charge deleter = some r) :
    ∃ h, r.2.heap e = some h ∧ h.refs = (if e ∈ r.2.lru_ then 2 else 1) ∧
      SameFields ⟨value, deleter, charge, key, 2, hash⟩ h := by
  obtain ⟨-, -, U, -, -, u3, -, u5⟩ := insert_summary inv hfresh hret
  by_cases hU : e ∈ U
  · have hl : e ∉ r.2.lru_ := fun hc => ((u5 e).1 hc).2 hU
    refine ⟨LRUHandle.unref ⟨value, deleter, charge, key, 2, hash⟩, ?_, ?_,
      rfl, rfl, rfl, rfl, rfl⟩
    · rw [u3]; simp [unrefHeap, hU]
    · rw [if_neg hl]; rfl
  · have hl : e ∈ r.2.lru_ := (u5 e).2 ⟨Or.inr rfl, hU⟩
    refine ⟨⟨value, deleter, charge, key, 2, hash⟩, ?_, ?_, rfl, rfl, rfl, rfl, rfl⟩
    · rw [u3]; simp [unrefHeap, hU]
    · rw [if_pos hl]

/-- C13, counterexample.  The shard reached by `Insert` of one entry and `2^32 - 3` hits
of `Lookup`, with all `2^32 - 2` handles held, has the reference count `2^32 - 1`.  One more
hit of `Lookup` returns one more handle and leaves the count at `0`: the entry is in the LRU
list and in the table with `2^32 - 1` handles outstanding, and its count is `0`. -/
theorem C13_counterexample :
    Reach 10 ⟨oneEntryShard 4294967295, List.replicate 4294967293 100 ++ [100]⟩ ∧
    (oneEntryShard 4294967295).Lookup [1] 5 = (some 100, oneEntryShard 0) ∧
    (oneEntryShard 0).lru_ = [100] ∧ (oneEntryShard 0).table_.entries = [100] ∧
    ((oneEntryShard 0).heap 100).map (fun h => h.refs) = some 0 :=
  ⟨oneEntryShard_reach 4294967293 (by decide), oneEntryShard_wrap, rfl, rfl, rfl⟩

/-- C13, as amended.  In every shard state reached by operations that obey the handle
protocol and wrap no reference count (a `Lookup` hits an entry only while fewer than
`2^32 - 2` handles are held on it): the count of every allocated entry is `1` if the entry
is in the LRU list, else `0`, plus the number of handles held on it, and it is not `0`; the
LRU list and the table hold the same entries; every entry in the LRU list is allocated with
a count `≥ 1`; and an `Insert` that returns has created its entry with the count `2` (the
heap it leaves is the one where the new entry was stored with count `2` and `Unref` was
applied to the handles replaced and evicted), so that on return the count of the new entry
is `2` if it is still cached and `1` if `Insert` has evicted it. -/
theorem C13_refcount (capacity : Nat) (σ : Sys) (hreach : Reach capacity σ) :
    (∀ p h, σ.cache.heap p = some h →
      h.refs = (if p ∈ σ.cache.lru_ then 1 else 0) + σ.handles.count p ∧ 1 ≤ h.refs) ∧
    (∀ p, p ∈ σ.cache.lru_ ↔ p ∈ σ.cache.table_.entries) ∧
    (∀ p ∈ σ.cache.lru_, ∃ h, σ.cache.heap p = some h ∧ 1 ≤ h.refs) ∧
    (∀ e key hash value charge deleter r, σ.cache.heap e = none →
      σ.cache.Insert e key hash value charge deleter = some r →
      (∃ U, r.2.heap =
        unrefHeap (σ.cache.heap.store e ⟨value, deleter, charge, key, 2, hash⟩) U) ∧
      ∃ h, r.2.heap e = some h ∧ h.refs = (if e ∈ r.2.lru_ then 2 else 1)) := by
  have inv := hreach.inv
  refine ⟨?_, ?_, ?_, ?_⟩
  · intro p h hh
    have := inv.acct.refs p h hh
    simpa using this
  · intro p
    exact (inv.cache.perm.mem_iff).symm
  · intro p hp
    obtain ⟨h, hh, -⟩ := inv.cache.listedLive hp
    exact ⟨h, hh, inv.cache.refs p hp h hh⟩
  · intro e key hash value charge deleter r hfresh hret
    obtain ⟨-, -, U, -, -, u3, -, -⟩ := insert_summary inv.cache hfresh hret
    obtain ⟨h, h1, h2, -⟩ := insert_new_handle inv.cache hfresh hret
    exact ⟨⟨U, u3⟩, h, h1, h2⟩

/-- C13, witness: the entry at `100` of the shard of two entries, both held, is in the LRU
list and in the table. -/
theorem C13_refcount_witness :
    Reach 10 ⟨twoEntryShard, [101, 100]⟩ ∧
    (100 ∈ twoEntryShard.lru_ ↔ 100 ∈ twoEntryShard.table_.entries) ∧
    ∃ h, twoEntryShard.heap 100 = some h ∧ 1 ≤ h.refs :=
  ⟨twoEntryShard_reach,
    (C13_refcount 10 ⟨twoEntryShard, [101, 100]⟩ twoEntryShard_reach).2.1 100,
    (C13_refcount 10 ⟨twoEntryShard, [101, 100]⟩ twoEntryShard_reach).2.2.1 100 (by decide!)⟩

/-- C14.  For every shard state that satisfies the structural invariant and every `Insert`
of a new handle (of a key already cached, or with fewer than `2^31` entries in the table):
the eviction loop, started on the state `s6` in which the new handle is linked, ends within
`s6.lru_.length` iterations, which is at most one more than the length of the list before
the call; it has evicted the `k` oldest handles of that list; `Insert` returns the new
handle; on return the usage is at most the capacity or the LRU list is empty; and when the
list is empty the new handle is still allocated, with reference count `1` and the value and
key given, while `Lookup` of its key finds nothing. -/
theorem C14_eviction_loop_ends (s : LRUCache) (inv : CacheInv s) (e : Ptr)
    (hfresh : s.heap e = none) (key : Slice) (hash value charge deleter : Nat)
    (hsz : s.table_.Lookup s.heap key hash = none → s.table_.elems_ < 2147483648) :
    ∃ s6 k s7,
      s.Insert e key hash value charge deleter =
        (LRUCache.evictLoop s6.lru_.length s6).map (fun s7 => (e, s7)) ∧
      s6.lru_.length ≤ s.lru_.length + 1 ∧
      LRUCache.evictLoop s6.lru_.length s6 = some s7 ∧
      k ≤ s6.lru_.length ∧ s6.evictSeq (s6.lru_.take k) = some s7 ∧
      s7.lru_ = s6.lru_.drop k ∧
      s.Insert e key hash value charge deleter = some (e, s7) ∧
      (s7.usage_ ≤ s7.capacity_ ∨ s7.lru_ = []) ∧
      (s7.lru_ = [] →
        (∃ h, s7.heap e = some h ∧ h.refs = 1 ∧ h.value = value ∧ h.key = key) ∧
        s7.Lookup key hash = (none, s7)) := by
  obtain ⟨t2, s6, h1, inv6, -, hcase⟩ :=
    insert_link inv hfresh key hash value charge deleter hsz
  obtain ⟨k, s7, k1, k2, k3, inv7, k5, -, -, -, k9⟩ := insert_evict inv6
  have hret : s.Insert e key hash value charge deleter = some (e, s7) := by
    rw [h1, k2]; rfl
  have hlen : s6.lru_.length ≤ s.lru_.length + 1 := by
    rcases hcase with ⟨-, rfl⟩ | ⟨old, ho, -, -, -, -, -, rfl⟩
    · simp
    · rw [(afterUnref_frame _ old ho).1]
      simp only [List.length_append, List.length_singleton]
      have := List.length_erase_le old s.lru_
      omega
  refine ⟨s6, k, s7, h1, hlen, k2, k1, k3, k5, hret, k9, ?_⟩
  intro hnil
  obtain ⟨h, g1, g2, g3, -, -, g6, -⟩ := insert_new_handle inv hfresh hret
  refine ⟨⟨h, g1, ?_, g3, g6⟩, ?_⟩
  · rw [g2, if_neg]
    show e ∉ s7.lru_
    rw [hnil]; simp
  · apply lookup_miss
    rw [inv7.table.lookup_eq_none_iff]
    intro p hp
    have : p ∈ s7.lru_ := inv7.perm.mem_iff.1 hp
    rw [hnil] at this
    cases this

/-- C14, witness: `Insert` of an entry of charge `20` into a new shard of capacity `10`. -/
theorem C14_eviction_loop_ends_witness :
    ∃ s6 k s7,
      (LRUCache.new.SetCapacity 10).Insert 100 [1] 5 77 20 0 =
        (LRUCache.evictLoop s6.lru_.length s6).map (fun s7 => (100, s7)) ∧
      s6.lru_.length ≤ (LRUCache.new.SetCapacity 10).lru_.length + 1 ∧
      LRUCache.evictLoop s6.lru_.length s6 = some s7 ∧
      k ≤ s6.lru_.length ∧ s6.evictSeq (s6.lru_.take k) = some s7 ∧
      s7.lru_ = s6.lru_.drop k ∧
      (LRUCache.new.SetCapacity 10).Insert 100 [1] 5 77 20 0 = some (100, s7) ∧
      (s7.usage_ ≤ s7.capacity_ ∨ s7.lru_ = []) ∧
      (s7.lru_ = [] →
        (∃ h, s7.heap 100 = some h ∧ h.refs = 1 ∧ h.value = 77 ∧ h.key = [1]) ∧
        s7.Lookup [1] 5 = (none, s7)) :=
  C14_eviction_loop_ends (LRUCache.new.SetCapacity 10) (SysInv.init 10).cache 100 rfl [1] 5 77
    20 0 (fun _ => by decide!)

theorem usage_sub_add (u c : Nat) :
    ((u + (two64 - c % two64)) % two64 + c) % two64 = u % two64 := by
  unfold two64; omega

/-- The destructor loop on handles that all have count `1`: every one is freed, with one
deleter call each, in order, and its charge leaves the usage counter. -/
theorem destroyLoop_spec : ∀ (es : List Ptr) (s : LRUCache), es.Nodup →
    (∀ p ∈ es, ∃ h, s.heap p = some h ∧ h.refs = 1) →
    ∃ s2, LRUCache.destroyLoop es s = some s2 ∧
      (∀ q, s2.heap q = if q ∈ es then none else s.heap q) ∧
      s2.deleted = s.deleted ++ deleterCalls s.heap es ∧
      (deleterCalls s.heap es).map (fun d => d.entry) = es ∧
      (s2.usage_ + (es.map (chargeOf s.heap)).sum) % two64 = s.usage_ % two64 ∧
      (es ≠ [] → s2.usage_ < two64) ∧
      s2.lru_ = s.lru_ ∧ s2.table_ = s.table_ ∧ s2.capacity_ = s.capacity_ := by
  intro es
  induction es with
  | nil =>
    intro s _ _
    exact ⟨s, rfl, fun q => by simp, by simp [deleterCalls], by simp [deleterCalls],
      by simp, fun h => absurd rfl h, rfl, rfl, rfl⟩
  | cons e rest ih =>
    intro s hnd hall
    obtain ⟨h, hh, h1⟩ := hall e (List.mem_cons_self _ _)
    have hnd' := List.nodup_cons.1 hnd
    set s1 : LRUCache := { s with
      usage_ := (s.usage_ + (two64 - h.charge % two64)) % two64,
      deleted := s.deleted ++ [⟨e, h.deleter, h.key, h.value⟩],
      heap := s.heap.free e } with hs1
    have hu : s.Unref e = some s1 := by
      unfold LRUCache.Unref
      simp only [hh, h1]
      simp
    have hheap : ∀ q ∈ rest, s1.heap q = s.heap q := by
      intro q hq
      have : q ≠ e := fun hc => hnd'.1 (hc ▸ hq)
      exact Heap.free_ne _ this
    obtain ⟨s2, a1, a2, a3, a4, a5, a6, a7, a8, a9⟩ := ih s1 hnd'.2 (fun p hp => by
      rw [hheap p hp]; exact hall p (List.mem_cons_of_mem _ hp))
    have hdc : deleterCalls s.heap (e :: rest) =
        ⟨e, h.deleter, h.key, h.value⟩ :: deleterCalls s1.heap rest := by
      rw [deleterCalls_congr hheap]
      unfold deleterCalls
      simp only [List.filterMap_cons, hh, h1, if_true]
    have hsum : (rest.map (chargeOf s1.heap)).sum = (rest.map (chargeOf s.heap)).sum := by
      congr 1
      apply List.map_congr_left
      intro q hq
      unfold chargeOf
      rw [hheap q hq]
    refine ⟨s2, ?_, ?_, ?_, ?_, ?_, ?_, a7, a8, a9⟩
    · show LRUCache.destroyLoop (e :: rest) s = some s2
      unfold LRUCache.destroyLoop
      simp only [hh, h1, if_true, hu]
      exact a1
    · intro q
      rw [a2]
      by_cases hq : q ∈ rest
      · simp [hq]
      · by_cases hqe : q = e
        · subst hqe
          simp [hq, hs1]
        · simp [hq, hqe, hs1]
    · rw [a3, hdc]
      simp [hs1]
    · rw [hdc]
      simp only [List.map_cons]
      rw [a4]
    · have hce : chargeOf s.heap e = h.charge := by unfold chargeOf; rw [hh]
      simp only [List.map_cons, List.sum_cons, hce]
      rw [← hsum]
      have hstep := usage_sub_add s.usage_ h.charge
      have h5 : (s2.usage_ + (rest.map (chargeOf s1.heap)).sum) % two64 =
          ((s.usage_ + (two64 - h.charge % two64)) % two64) % two64 := a5
      rw [Nat.mod_mod] at h5
      calc (s2.usage_ + (h.charge + (rest.map (chargeOf s1.heap)).sum)) % two64
          = ((s2.usage_ + (rest.map (chargeOf s1.heap)).sum) % two64 + h.charge) % two64 := by
            rw [Nat.mod_add_mod]; congr 1; omega
        _ = ((s.usage_ + (two64 - h.charge % two64)) % two64 + h.charge) % two64 := by rw [h5]
        _ = s.usage_ % two64 := hstep
    · intro _
      by_cases hr : rest = []
      · subst hr
        cases a1
        exact Nat.mod_lt _ (by decide)
      · exact a6 hr

/-- C15.  When a shard is destroyed in a state reached by callers that obey the handle
protocol and hold no handle any more: every entry of the LRU list is allocated with
reference count `1`; the destructor returns, so `assert(e->refs == 1)` holds at every one of
its visits, which are the entries of the LRU list, each once, oldest first; the deleter
calls it makes are one for each entry of the list, in that order, each with the key and
value of its entry; afterwards no handle is allocated and the usage counter is `0`. -/
theorem C15_teardown (capacity : Nat) (σ : Sys) (hreach : Reach capacity σ)
    (hnone : σ.handles = []) :
    σ.cache.lru_.Nodup ∧
    (∀ p ∈ σ.cache.lru_, ∃ h, σ.cache.heap p = some h ∧ h.refs = 1) ∧
    ∃ s2 calls, σ.cache.destroy = some s2 ∧
      LRUCache.destroyLoop σ.cache.lru_ σ.cache = some s2 ∧
      s2.deleted = σ.cache.deleted ++ calls ∧
      calls.map (fun d => d.entry) = σ.cache.lru_ ∧
      (∀ d ∈ calls, ∃ h, σ.cache.heap d.entry = some h ∧
        d = ⟨d.entry, h.deleter, h.key, h.value⟩) ∧
      (∀ q, s2.heap q = none) ∧ s2.usage_ = 0 := by
  have inv := hreach.inv
  have hall : ∀ p ∈ σ.cache.lru_, ∃ h, σ.cache.heap p = some h ∧ h.refs = 1 := by
    intro p hp
    obtain ⟨h, hh, -⟩ := inv.cache.listedLive hp
    have := (inv.acct.refs p h hh).1
    rw [if_pos hp, hnone] at this
    exact ⟨h, hh, by simpa using this⟩
  refine ⟨inv.cache.nodup, hall, ?_⟩
  obtain ⟨s2, a1, a2, a3, a4, a5, a6, -⟩ :=
    destroyLoop_spec σ.cache.lru_ σ.cache inv.cache.nodup hall
  refine ⟨s2, deleterCalls σ.cache.heap σ.cache.lru_, a1, a1, a3, a4, ?_, ?_, ?_⟩
  · intro d hd
    obtain ⟨q, -, h, hh, -, rfl⟩ := mem_deleterCalls.1 hd
    exact ⟨h, hh, rfl⟩
  · intro q
    rw [a2]
    by_cases hq : q ∈ σ.cache.lru_
    · rw [if_pos hq]
    · rw [if_neg hq]
      cases hh : σ.cache.heap q with
      | none => rfl
      | some h =>
        exfalso
        have := inv.acct.refs q h hh
        rw [if_neg hq, hnone] at this
        simp at this
        omega
  · have hu := usage_formula hreach
    have hempty : σ.handles.toFinset \ σ.cache.lru_.toFinset = ∅ := by
      rw [hnone]; simp
    rw [hempty, Finset.sum_empty, Nat.add_zero] at hu
    rw [hu, Nat.mod_mod] at a5
    by_cases hl : σ.cache.lru_ = []
    · rw [hl] at a1
      cases a1
      rw [hu, hl]; rfl
    · have hlt := a6 hl
      have h0 : s2.usage_ % two64 = 0 := by
        have h6 := a5
        rw [Nat.add_mod] at h6
        have hS := Nat.mod_lt ((σ.cache.lru_.map (chargeOf σ.cache.heap)).sum)
          (by decide : 0 < two64)
        have hU := Nat.mod_lt s2.usage_ (by decide : 0 < two64)
        generalize (σ.cache.lru_.map (chargeOf σ.cache.heap)).sum % two64 = S at h6 hS
        generalize s2.usage_ % two64 = V at h6 hU ⊢
        unfold two64 at h6 hS hU
        omega
      rw [Nat.mod_eq_of_lt hlt] at h0
      exact h0

/-- C15, witness: the shard of two entries after both handles have been released. -/
theorem C15_teardown_witness :
    Reach 10 ⟨(twoEntryShard.afterRelease 101).afterRelease 100, []⟩ ∧
    ∃ s2 calls, ((twoEntryShard.afterRelease 101).afterRelease 100).destroy = some s2 ∧
      LRUCache.destroyLoop ((twoEntryShard.afterRelease 101).afterRelease 100).lru_
        ((twoEntryShard.afterRelease 101).afterRelease 100) = some s2 ∧
      s2.deleted = ((twoEntryShard.afterRelease 101).afterRelease 100).deleted ++ calls ∧
      calls.map (fun d => d.entry) = ((twoEntryShard.afterRelease 101).afterRelease 100).lru_ ∧
      (∀ d ∈ calls, ∃ h, ((twoEntryShard.afterRelease 101).afterRelease 100).heap d.entry =
          some h ∧ d = ⟨d.entry, h.deleter, h.key, h.value⟩) ∧
      (∀ q, s2.heap q = none) ∧ s2.usage_ = 0 :=
  ⟨(twoEntryShard_reach.releaseRun 101 (by decide) (by decide!)).releaseRun 100 (by decide)
      (by decide!),
    (C15_teardown 10 ⟨(twoEntryShard.afterRelease 101).afterRelease 100, []⟩
      ((twoEntryShard_reach.releaseRun 101 (by decide) (by decide!)).releaseRun 100
        (by decide) (by decide!)) rfl).2.2⟩

theorem sameFields_refl (h : LRUHandle) : SameFields h h := ⟨rfl, rfl, rfl, rfl, rfl⟩

theorem sameFields_trans {a b c : LRUHandle} (h1 : SameFields a b) (h2 : SameFields b c) :
    SameFields a c := by
  obtain ⟨a1, a2, a3, a4, a5⟩ := h1
  obtain ⟨b1, b2, b3, b4, b5⟩ := h2
  exact ⟨b1.trans a1, b2.trans a2, b3.trans a3, b4.trans a4, b5.trans a5⟩

/-- `Unref` writes the reference count only. -/
theorem unrefHeap_fields {base : Heap} {U : List Ptr} {p : Ptr} {h2 : LRUHandle}
    (h : unrefHeap base U p = some h2) : ∃ h1, base p = some h1 ∧ SameFields h1 h2 := by
  unfold unrefHeap at h
  by_cases hp : p ∈ U
  · rw [if_pos hp] at h
    cases hb : base p with
    | none => rw [hb] at h; cases h
    | some h1 =>
      rw [hb] at h
      by_cases h1r : h1.refs = 1
      · simp [h1r] at h
      · simp only [h1r, if_false, Option.some.injEq] at h
        subst h
        exact ⟨h1, rfl, rfl, rfl, rfl, rfl, rfl⟩
  · rw [if_neg hp] at h
    exact ⟨h2, h, sameFields_refl h2⟩

theorem chargeOf_unrefHeap_le (base : Heap) (U : List Ptr) (p : Ptr) :
    chargeOf (unrefHeap base U) p ≤ chargeOf base p := by
  cases h : unrefHeap base U p with
  | none => unfold chargeOf; rw [h]; exact Nat.zero_le _
  | some h2 =>
    obtain ⟨h1, hb, -, -, hc, -, -⟩ := unrefHeap_fields h
    unfold chargeOf
    rw [h, hb]
    exact le_of_eq hc

/-- The handles allocated after an `Insert` that returns: the new one, with the fields
given, and handles that were allocated before, with the fields they had. -/
theorem insert_fields {s : LRUCache} (inv : CacheInv s) {e : Ptr} (hfresh : s.heap e = none)
    {key : Slice} {hash value charge deleter : Nat} {r : Ptr × LRUCache}
    (hret : s.Insert e key hash value charge deleter = some r) {p : Ptr} {h2 : LRUHandle}
    (hp : r.2.heap p = some h2) :
    (p = e ∧ SameFields ⟨value, deleter, charge, key, 2, hash⟩ h2) ∨
    (p ≠ e ∧ ∃ h, s.heap p = some h ∧ SameFields h h2) := by
  obtain ⟨-, -, U, -, -, u3, -, -⟩ := insert_summary inv hfresh hret
  rw [u3] at hp
  obtain ⟨h1, hb, hs⟩ := unrefHeap_fields hp
  by_cases hpe : p = e
  · subst hpe
    rw [Heap.store_self] at hb
    cases hb
    exact Or.inl ⟨rfl, hs⟩
  · rw [Heap.store_ne _ _ hpe] at hb
    exact Or.inr ⟨hpe, h1, hb, hs⟩

/-- The handles allocated after a `Lookup` were allocated before, with the same fields. -/
theorem lookup_fields (s : LRUCache) (key : Slice) (hash : Nat) {p : Ptr} {h2 : LRUHandle}
    (hp : (s.Lookup key hash).2.heap p = some h2) :
    ∃ h, s.heap p = some h ∧ SameFields h h2 := by
  cases hl : s.table_.Lookup s.heap key hash with
  | none =>
    rw [lookup_miss hl] at hp
    exact ⟨h2, hp, sameFields_refl h2⟩
  | some e =>
    obtain ⟨hd, hh, -, -⟩ := table_lookup_live hl
    rw [lookup_hit hl hh] at hp
    simp only at hp
    by_cases hpe : p = e
    · subst hpe
      rw [Heap.store_self] at hp
      cases hp
      exact ⟨hd, hh, rfl, rfl, rfl, rfl, rfl⟩
    · rw [Heap.store_ne _ _ hpe] at hp
      exact ⟨h2, hp, sameFields_refl h2⟩

/-- The handles allocated after an `Unref` were allocated before, with the same fields. -/
theorem unref_fields {s s2 : LRUCache} {e : Ptr} (hu : s.Unref e = some s2) {p : Ptr}
    {h2 : LRUHandle} (hp : s2.heap p = some h2) :
    ∃ h, s.heap p = some h ∧ SameFields h h2 := by
  unfold LRUCache.Unref at hu
  cases hh : s.heap e with
  | none => rw [hh] at hu; cases hu
  | some hd =>
    rw [hh] at hu
    simp only at hu
    by_cases h0 : hd.refs = 0
    · rw [if_pos h0] at hu; cases hu
    · rw [if_neg h0] at hu
      by_cases h1 : hd.refs - 1 = 0
      · rw [if_pos h1] at hu
        cases hu
        simp only at hp
        by_cases hpe : p = e
        · subst hpe; rw [Heap.free_self] at hp; cases hp
        · rw [Heap.free_ne _ hpe] at hp
          exact ⟨h2, hp, sameFields_refl h2⟩
      · rw [if_neg h1] at hu
        cases hu
        simp only at hp
        by_cases hpe : p = e
        · subst hpe
          rw [Heap.store_self] at hp
          cases hp
          exact ⟨hd, hh, rfl, rfl, rfl, rfl, rfl⟩
        · rw [Heap.store_ne _ _ hpe] at hp
          exact ⟨h2, hp, sameFields_refl h2⟩

/-- The handles allocated after an `Erase` were allocated before, with the same fields. -/
theorem erase_fields {s s2 : LRUCache} {key : Slice} {hash : Nat}
    (he : s.Erase key hash = some s2) {p : Ptr} {h2 : LRUHandle} (hp : s2.heap p = some h2) :
    ∃ h, s.heap p = some h ∧ SameFields h h2 := by
  unfold LRUCache.Erase at he
  cases hr : s.table_.Remove s.heap key hash with
  | mk o t =>
    rw [hr] at he
    cases o with
    | none =>
      simp only [Option.some.injEq] at he
      subst he
      exact ⟨h2, hp, sameFields_refl h2⟩
    | some e =>
      simp only at he
      exact unref_fields he hp

/-- No operation changes the value, deleter, charge, key or hash of a handle that stays
allocated. -/
theorem step_fields {σ τ : Sys} (inv : SysInv σ) (st : Step σ τ) {p : Ptr} {h h2 : LRUHandle}
    (h1 : σ.cache.heap p = some h) (hp : τ.cache.heap p = some h2) : SameFields h h2 := by
  have key : ∃ h', σ.cache.heap p = some h' ∧ SameFields h' h2 := by
    cases st with
    | insert e key hash value charge deleter c2 hfresh _ _ hins =>
      rcases insert_fields inv.cache hfresh hins hp with ⟨rfl, -⟩ | ⟨-, g⟩
      · rw [hfresh] at h1; cases h1
      · exact g
    | lookupHit key hash e c2 hlk hguard =>
      have : (σ.cache.Lookup key hash).2 = c2 := by rw [hlk]
      subst this
      exact lookup_fields _ _ _ hp
    | lookupMiss key hash c2 hlk =>
      have : (σ.cache.Lookup key hash).2 = c2 := by rw [hlk]
      subst this
      exact lookup_fields _ _ _ hp
    | release hd c2 hmem hrel => exact unref_fields hrel hp
    | erase key hash c2 her => exact erase_fields her hp
  obtain ⟨h', e1, e2⟩ := key
  rw [h1] at e1
  cases e1
  exact e2

/-- On return from `Insert` the usage is within the capacity or the list is empty. -/
theorem insert_exit {s : LRUCache} (inv : CacheInv s) {e : Ptr} (hfresh : s.heap e = none)
    (key : Slice) (hash value charge deleter : Nat)
    (hsz : s.table_.Lookup s.heap key hash = none → s.table_.elems_ < 2147483648) :
    ∃ s7, s.Insert e key hash value charge deleter = some (e, s7) ∧ CacheInv s7 ∧
      (s7.usage_ ≤ s7.capacity_ ∨ s7.lru_ = []) := by
  obtain ⟨t2, s6, h1, inv6, -, -⟩ := insert_link inv hfresh key hash value charge deleter hsz
  obtain ⟨k, s7, -, k2, -, inv7, -, -, -, -, k9⟩ := insert_evict inv6
  exact ⟨s7, by rw [h1, k2]; rfl, inv7, k9⟩

theorem set_getD_same (l : List (List Ptr)) (i : Nat) : l.set i (l.getD i []) = l := by
  apply List.ext_getElem?
  intro k
  by_cases hk : i = k
  · subst hk
    by_cases hi : i < l.length
    · rw [List.getElem?_set_self hi]
      simp [List.getD_eq_getElem?_getD, List.getElem?_eq_getElem hi]
    · rw [List.set_eq_of_length_le (by omega)]
  · rw [List.getElem?_set_ne hk]

theorem mem_of_getElem_some {α : Type} {l : List α} {i : Nat} {x : α} (h : l[i]? = some x) :
    x ∈ l := by
  obtain ⟨hi, rfl⟩ := List.getElem?_eq_some_iff.1 h
  exact List.getElem_mem hi

theorem lt_of_getElem_some {α : Type} {l : List α} {i : Nat} {x : α} (h : l[i]? = some x) :
    i < l.length := (List.getElem?_eq_some_iff.1 h).1

/-- The first hit of `findSome?` when only one element of the list can hit. -/
theorem findSome_unique {α β : Type} (f : α → Option β) :
    ∀ (l : List α) (j : Nat) (x : α) (v : β), l[j]? = some x → f x = some v →
      (∀ k y, l[k]? = some y → f y ≠ none → k = j) → l.findSome? f = some v := by
  intro l
  induction l with
  | nil => intro j x v h; cases h
  | cons a rest ih =>
    intro j x v hj hf huniq
    cases j with
    | zero =>
      simp only [List.getElem?_cons_zero, Option.some.injEq] at hj
      subst hj
      simp [List.findSome?_cons, hf]
    | succ j' =>
      have ha : f a = none := by
        by_contra hne
        have := huniq 0 a (by simp) hne
        omega
      simp only [List.findSome?_cons, ha]
      refine ih j' x v (by simpa using hj) hf ?_
      intro k y hk hy
      have := huniq (k + 1) y (by simpa using hk) hy
      omega

/-- The invariant of the cache after an operation of one shard. -/
theorem ShardedInv.update {HashSlice : Slice → Nat} {σ τ : ShardedSys}
    (inv : ShardedInv HashSlice σ) {i : Nat} {s s2 : LRUCache} {H2 : List Ptr}
    (hs : σ.cache.shard_[i]? = some s)
    (hst : Step ⟨s, σ.handles.getD i []⟩ ⟨s2, H2⟩)
    (hnew : ∀ p h2, s2.heap p = some h2 → s.heap p = none →
      (∀ t ∈ σ.cache.shard_, t.heap p = none) ∧ h2.hash = HashSlice h2.key ∧
        Shard h2.hash = i)
    (hc : τ.cache.shard_ = σ.cache.shard_.set i s2)
    (hh : τ.handles = σ.handles.set i H2) : ShardedInv HashSlice τ := by
  have hi : i < σ.cache.shard_.length := lt_of_getElem_some hs
  have hi2 : i < σ.handles.length := by rw [inv.hsize, ← inv.size]; exact hi
  have hget : ∀ k s', τ.cache.shard_[k]? = some s' →
      (k = i ∧ s' = s2) ∨ (k ≠ i ∧ σ.cache.shard_[k]? = some s') := by
    intro k s' hk
    rw [hc] at hk
    by_cases hki : k = i
    · subst hki
      rw [List.getElem?_set_self hi] at hk
      cases hk
      exact Or.inl ⟨rfl, rfl⟩
    · rw [List.getElem?_set_ne (Ne.symm hki)] at hk
      exact Or.inr ⟨hki, hk⟩
  have hold : ∀ p h2, s2.heap p = some h2 →
      (∃ h, s.heap p = some h ∧ SameFields h h2) ∨
      (s.heap p = none ∧ (∀ t ∈ σ.cache.shard_, t.heap p = none) ∧
        h2.hash = HashSlice h2.key ∧ Shard h2.hash = i) := by
    intro p h2 hp
    cases hsp : s.heap p with
    | none => exact Or.inr ⟨rfl, hnew p h2 hp hsp⟩
    | some h => exact Or.inl ⟨h, rfl, step_fields (inv.shard i s hs) hst hsp hp⟩
  refine ⟨?_, ?_, ?_, ?_, ?_⟩
  · rw [hc, List.length_set]; exact inv.size
  · rw [hh, List.length_set]; exact inv.hsize
  · intro k s' hk
    rcases hget k s' hk with ⟨rfl, rfl⟩ | ⟨hki, hk'⟩
    · rw [hh, getD_set_self _ hi2]
      exact (inv.shard k s hs).step hst
    · rw [hh, getD_set_ne _ hki]
      exact inv.shard k s' hk'
  · intro k s' p h2 hk hp
    rcases hget k s' hk with ⟨rfl, rfl⟩ | ⟨hki, hk'⟩
    · rcases hold p h2 hp with ⟨h, h1, -, -, -, f4, f5⟩ | ⟨-, -, g⟩
      · obtain ⟨r1, r2⟩ := inv.routed k s p h hs h1
        have hkey : h2.key = h.key := f4
        rw [f5, hkey]
        exact ⟨r1, r2⟩
      · exact g
    · exact inv.routed k s' p h2 hk' hp
  · intro k j s' t' p hk hj hp hq
    rcases hget k s' hk with ⟨rfl, rfl⟩ | ⟨hki, hk'⟩
    · rcases hget j t' hj with ⟨rfl, rfl⟩ | ⟨hji, hj'⟩
      · rfl
      · exfalso
        cases hp2 : s'.heap p with
        | none => exact hp hp2
        | some h2 =>
          rcases hold p h2 hp2 with ⟨h, h1, -⟩ | ⟨-, g, -⟩
          · exact hji (inv.disjoint k j s t' p hs hj' (by rw [h1]; simp) hq).symm
          · exact hq (g t' (mem_of_getElem_some hj'))
    · rcases hget j t' hj with ⟨rfl, rfl⟩ | ⟨hji, hj'⟩
      · exfalso
        cases hq2 : t'.heap p with
        | none => exact hq hq2
        | some h2 =>
          rcases hold p h2 hq2 with ⟨h, h1, -⟩ | ⟨-, g, -⟩
          · exact hki (inv.disjoint k j s' s p hk' hs hp (by rw [h1]; simp))
          · exact hp (g s' (mem_of_getElem_some hk'))
      · exact inv.disjoint k j s' t' p hk' hj' hp hq

/-- Every operation on the cache is an operation of one shard under the handle protocol of
that shard, on the handles obtained from it, or leaves all shards as they are; a handle it
allocates is new in every shard and sits in the shard of the hash of its key. -/
theorem sharded_step_shape {HashSlice : Slice → Nat} (hH : ∀ k, HashSlice k < two32)
    {σ τ : ShardedSys} (inv : ShardedInv HashSlice σ) (st : ShardedStep HashSlice σ τ) :
    (τ.cache.shard_ = σ.cache.shard_ ∧ τ.handles = σ.handles) ∨
    ∃ i s s2 H2, σ.cache.shard_[i]? = some s ∧ Step ⟨s, σ.handles.getD i []⟩ ⟨s2, H2⟩ ∧
      (∀ p h2, s2.heap p = some h2 → s.heap p = none →
        (∀ t ∈ σ.cache.shard_, t.heap p = none) ∧ h2.hash = HashSlice h2.key ∧
          Shard h2.hash = i) ∧
      τ.cache.shard_ = σ.cache.shard_.set i s2 ∧ τ.handles = σ.handles.set i H2 := by
  have hex : ∀ key, ∃ s, σ.cache.shard_[Shard (HashSlice key)]? = some s := by
    intro key
    have : Shard (HashSlice key) < σ.cache.shard_.length := by
      rw [inv.size]; exact Shard_lt (hH key)
    exact ⟨_, List.getElem?_eq_getElem this⟩
  cases st with
  | insert e key value charge deleter c2 hfresh hcharge hins =>
    obtain ⟨s, hs⟩ := hex key
    right
    unfold ShardedLRUCache.Insert at hins
    simp only [hs] at hins
    cases hr : s.Insert e key (HashSlice key) value charge deleter with
    | none => rw [hr] at hins; cases hins
    | some r =>
      obtain ⟨handle, s1⟩ := r
      rw [hr] at hins
      simp only [Option.some.injEq, Prod.mk.injEq] at hins
      obtain ⟨rfl, rfl⟩ := hins
      have hf : s.heap handle = none := hfresh s (mem_of_getElem_some hs)
      refine ⟨_, s, s1, _, hs,
        Step.insert ⟨s, _⟩ handle key (HashSlice key) value charge deleter s1 hf (hH key)
          hcharge hr, ?_, rfl, rfl⟩
      intro p h2 hp hnone
      rcases insert_fields (inv.shard _ s hs).cache hf hr hp with
        ⟨rfl, -, -, -, f4, f5⟩ | ⟨-, h, h1, -⟩
      · have hkey : h2.key = key := f4
        have hhash : h2.hash = HashSlice key := f5
        exact ⟨hfresh, by rw [hhash, hkey], by rw [hhash]⟩
      · rw [hnone] at h1; cases h1
  | lookupHit key e c2 hlk hguard =>
    obtain ⟨s, hs⟩ := hex key
    right
    unfold ShardedLRUCache.Lookup at hlk
    simp only [hs, Option.some.injEq, Prod.mk.injEq] at hlk
    obtain ⟨h1, rfl⟩ := hlk
    refine ⟨_, s, (s.Lookup key (HashSlice key)).2, _, hs,
      Step.lookupHit ⟨s, _⟩ key (HashSlice key) e _ (Prod.ext h1 rfl)
        (fun h hh => hguard s (mem_of_getElem_some hs) h hh), ?_, rfl, rfl⟩
    intro p h2 hp hnone
    obtain ⟨h, g1, -⟩ := lookup_fields _ _ _ hp
    rw [hnone] at g1; cases g1
  | lookupMiss key c2 hlk =>
    obtain ⟨s, hs⟩ := hex key
    right
    unfold ShardedLRUCache.Lookup at hlk
    simp only [hs, Option.some.injEq, Prod.mk.injEq] at hlk
    obtain ⟨h1, rfl⟩ := hlk
    refine ⟨_, s, (s.Lookup key (HashSlice key)).2, _, hs,
      Step.lookupMiss ⟨s, _⟩ key (HashSlice key) _ (Prod.ext h1 rfl), ?_, rfl,
      (set_getD_same _ _).symm⟩
    intro p h2 hp hnone
    obtain ⟨h, g1, -⟩ := lookup_fields _ _ _ hp
    rw [hnone] at g1; cases g1
  | release j handle c2 hmem hrel =>
    right
    have hj : j < σ.handles.length := by
      by_contra hge
      rw [List.getD_eq_default _ _ (by omega)] at hmem
      cases hmem
    have hj2 : j < σ.cache.shard_.length := by rw [inv.size, ← inv.hsize]; exact hj
    have hs : σ.cache.shard_[j]? = some σ.cache.shard_[j] := List.getElem?_eq_getElem hj2
    obtain ⟨h, hh, -⟩ := (inv.shard j _ hs).acct.refLive (p := handle) (Or.inr (Or.inl hmem))
    have hfind : σ.cache.shard_.findSome? (fun s => s.heap handle) = some h :=
      findSome_unique _ _ j _ h hs hh (fun k y hk hy =>
        inv.disjoint k j y _ handle hk hs hy (by rw [hh]; simp))
    have hroute : Shard h.hash = j := (inv.routed j _ handle h hs hh).2
    unfold ShardedLRUCache.Release at hrel
    simp only [hfind, hroute, hs] at hrel
    cases hr : (σ.cache.shard_[j]).Release handle with
    | none => rw [hr] at hrel; cases hrel
    | some s1 =>
      rw [hr] at hrel
      simp only [Option.some.injEq] at hrel
      subst hrel
      refine ⟨j, _, s1, _, hs, Step.release ⟨_, _⟩ handle s1 hmem hr, ?_, rfl, rfl⟩
      intro p h2 hp hnone
      obtain ⟨h', g1, -⟩ := unref_fields hr hp
      rw [hnone] at g1; cases g1
  | erase key c2 her =>
    obtain ⟨s, hs⟩ := hex key
    right
    unfold ShardedLRUCache.Erase at her
    simp only [hs] at her
    cases hr : s.Erase key (HashSlice key) with
    | none => rw [hr] at her; cases her
    | some s1 =>
      rw [hr] at her
      simp only [Option.some.injEq] at her
      subst her
      refine ⟨_, s, s1, _, hs, Step.erase ⟨s, _⟩ key (HashSlice key) s1 hr, ?_, rfl,
        (set_getD_same _ _).symm⟩
      intro p h2 hp hnone
      obtain ⟨h', g1, -⟩ := erase_fields hr hp
      rw [hnone] at g1; cases g1
  | newId => exact Or.inl ⟨rfl, rfl⟩

theorem ShardedInv.shardStep {HashSlice : Slice → Nat} (hH : ∀ k, HashSlice k < two32)
    {σ τ : ShardedSys} (inv : ShardedInv HashSlice σ) (st : ShardedStep HashSlice σ τ) :
    ShardedInv HashSlice τ := by
  rcases sharded_step_shape hH inv st with ⟨h1, h2⟩ | ⟨i, s, s2, H2, a1, a2, a3, a4, a5⟩
  · refine ⟨?_, ?_, ?_, ?_, ?_⟩
    · rw [h1]; exact inv.size
    · rw [h2]; exact inv.hsize
    · rw [h1, h2]; exact inv.shard
    · rw [h1]; exact inv.routed
    · rw [h1]; exact inv.disjoint
  · exact inv.update a1 a2 a3 a4 a5

theorem ShardedInv.newCache (HashSlice : Slice → Nat) (capacity : Nat) :
    ShardedInv HashSlice ⟨NewLRUCache capacity, List.replicate kNumShards []⟩ := by
  have hget : ∀ (i : Nat) (s : LRUCache), (NewLRUCache capacity).shard_[i]? = some s →
      s = LRUCache.new.SetCapacity (perShard capacity) := by
    intro i s h
    exact List.eq_of_mem_replicate (mem_of_getElem_some h)
  refine ⟨?_, ?_, ?_, ?_, ?_⟩
  · simp [NewLRUCache]
  · simp
  · intro i s h
    rw [hget i s h]
    have : (List.replicate kNumShards ([] : List Ptr)).getD i [] = [] := by
      simp [List.getD_eq_getElem?_getD, List.getElem?_replicate]
      split <;> rfl
    show SysInv ⟨_, (List.replicate kNumShards ([] : List Ptr)).getD i []⟩
    rw [this]
    exact SysInv.init _
  · intro i s p h hs hp
    rw [hget i s hs] at hp
    cases hp
  · intro i j s t p hs _ hp _
    rw [hget i s hs] at hp
    exact absurd rfl hp

theorem ShardedReach.shardedInv {HashSlice : Slice → Nat} (hH : ∀ k, HashSlice k < two32)
    {capacity : Nat} {σ : ShardedSys} (r : ShardedReach HashSlice capacity σ) :
    ShardedInv HashSlice σ := by
  induction r with
  | init => exact ShardedInv.newCache HashSlice capacity
  | step σ τ _ st ih => exact ih.shardStep hH st

theorem sharded_afterInsert_eq {HashSlice : Slice → Nat} {c : ShardedLRUCache} {e : Ptr}
    {key : Slice} {value charge deleter : Nat}
    (h : (c.Insert HashSlice e key value charge deleter).map Prod.fst = some e) :
    c.Insert HashSlice e key value charge deleter =
      some (e, c.afterInsert HashSlice e key value charge deleter) := by
  unfold ShardedLRUCache.afterInsert
  cases hr : c.Insert HashSlice e key value charge deleter with
  | none => rw [hr] at h; cases h
  | some r =>
    rw [hr] at h
    simp only [Option.map_some', Option.some.injEq] at h
    obtain ⟨a, b⟩ := r
    simp only at h
    subst h
    rfl

theorem shardedOne_reach : ShardedReach (fun _ => 5) 160 shardedOne :=
  ShardedReach.step _ _ ShardedReach.init
    (ShardedStep.insert ⟨NewLRUCache 160, List.replicate kNumShards []⟩ 100 [1] 77 3 0 _
      (fun s hs => by rw [List.eq_of_mem_replicate hs]; rfl) (by decide)
      (sharded_afterInsert_eq (by decide!)))

theorem shardedOne_shard : shardedOne.cache.shard_[0]? = some (oneEntryShard 2) := by
  have h := oneEntryShard_insert
  have h2 : (NewLRUCache 160).Insert (fun _ => 5) 100 [1] 77 3 0 =
      some (100, { NewLRUCache 160 with
        shard_ := (NewLRUCache 160).shard_.set 0 (oneEntryShard 2) }) := by
    unfold ShardedLRUCache.Insert
    have hget : (NewLRUCache 160).shard_[Shard 5]? = some (LRUCache.new.SetCapacity 10) := rfl
    simp only [hget, h]
    rfl
  unfold shardedOne ShardedLRUCache.afterInsert
  simp only [h2]
  rfl

/-- C18.  For every 32-bit hash, `Shard(hash) = hash >> 28` is `hash / 2^28`, the value of
the top four bits, it is below `kNumShards = 16`, and `shard_[Shard(hash)]` exists.  In
every state of the cache reached by callers that obey the handle protocol, for the hash
function `HashSlice` with 32-bit values: a handle that was returned by an `Insert` or a
`Lookup` routed to shard `j` and is not yet released is allocated in shard `j` and in no
other shard, the hash it stores is the hash of its key and `Shard` of it is `j`, and
`Release` of the handle returns and is the `Release` of shard `j`.  No operation changes
the hash or the key stored in a handle that stays allocated. -/
theorem C18_release_same_shard (HashSlice : Slice → Nat) (hH : ∀ k, HashSlice k < two32)
    (capacity : Nat) (σ : ShardedSys) (hreach : ShardedReach HashSlice capacity σ) :
    (∀ hash, hash < two32 → Shard hash = hash / 2 ^ 28 ∧ Shard hash < kNumShards ∧
      ∃ s, σ.cache.shard_[Shard hash]? = some s) ∧
    (∀ j handle, handle ∈ σ.handles.getD j [] →
      ∃ s h, σ.cache.shard_[j]? = some s ∧ s.heap handle = some h ∧
        (∀ k t, σ.cache.shard_[k]? = some t → t.heap handle ≠ none → k = j) ∧
        σ.cache.shard_.findSome? (fun s => s.heap handle) = some h ∧
        h.hash = HashSlice h.key ∧ Shard h.hash = j ∧
        ∃ s1, s.Release handle = some s1 ∧
          σ.cache.Release handle = some { σ.cache with shard_ := σ.cache.shard_.set j s1 }) ∧
    (∀ τ, ShardedStep HashSlice σ τ → ∀ (i : Nat) (s s2 : LRUCache) (p : Ptr) (h h2 : LRUHandle),
      σ.cache.shard_[i]? = some s → τ.cache.shard_[i]? = some s2 →
      s.heap p = some h → s2.heap p = some h2 → h2.hash = h.hash ∧ h2.key = h.key) := by
  have inv := hreach.shardedInv hH
  refine ⟨?_, ?_, ?_⟩
  · intro hash hh
    have hlt : Shard hash < 16 := Shard_lt hh
    refine ⟨?_, hlt, ?_⟩
    · unfold Shard kNumShardBits
      rw [Nat.shiftRight_eq_div_pow]
    · have : Shard hash < σ.cache.shard_.length := by rw [inv.size]; exact hlt
      exact ⟨_, List.getElem?_eq_getElem this⟩
  · intro j handle hmem
    have hj : j < σ.handles.length := by
      by_contra hge
      rw [List.getD_eq_default _ _ (by omega)] at hmem
      cases hmem
    have hj2 : j < σ.cache.shard_.length := by rw [inv.size, ← inv.hsize]; exact hj
    have hs : σ.cache.shard_[j]? = some σ.cache.shard_[j] := List.getElem?_eq_getElem hj2
    obtain ⟨h, hh, hr⟩ :=
      (inv.shard j _ hs).acct.refLive (p := handle) (Or.inr (Or.inl hmem))
    have huniq : ∀ k t, σ.cache.shard_[k]? = some t → t.heap handle ≠ none → k = j :=
      fun k t hk ht => inv.disjoint k j t _ handle hk hs ht (by rw [hh]; simp)
    have hfind : σ.cache.shard_.findSome? (fun s => s.heap handle) = some h :=
      findSome_unique _ _ j _ h hs hh huniq
    obtain ⟨r1, r2⟩ := inv.routed j _ handle h hs hh
    have hrel : (σ.cache.shard_[j]).Release handle =
        some ((σ.cache.shard_[j]).afterUnref handle h) := unref_eq hh hr
    refine ⟨_, h, hs, hh, huniq, hfind, r1, r2, _, hrel, ?_⟩
    unfold ShardedLRUCache.Release
    simp only [hfind, r2, hs, hrel]
  · intro τ st i s s2 p h h2 hs hs2 hp hp2
    rcases sharded_step_shape hH inv st with ⟨h1, -⟩ | ⟨k, t, t2, H2, a1, a2, -, a4, -⟩
    · rw [h1, hs] at hs2
      cases hs2
      rw [hp] at hp2
      cases hp2
      exact ⟨rfl, rfl⟩
    · rw [a4] at hs2
      by_cases hik : i = k
      · subst hik
        rw [List.getElem?_set_self (lt_of_getElem_some hs)] at hs2
        cases hs2
        rw [a1] at hs
        cases hs
        obtain ⟨-, -, -, f4, f5⟩ := step_fields (inv.shard i s a1) a2 hp hp2
        exact ⟨f5, f4⟩
      · rw [List.getElem?_set_ne (Ne.symm hik), hs] at hs2
        cases hs2
        rw [hp] at hp2
        cases hp2
        exact ⟨rfl, rfl⟩

/-- C18, witness: the handle `100` obtained from shard `0`. -/
theorem C18_release_same_shard_witness :
    ShardedReach (fun _ => 5) 160 shardedOne ∧ 100 ∈ shardedOne.handles.getD 0 [] ∧
    ∃ s h, shardedOne.cache.shard_[0]? = some s ∧ s.heap 100 = some h ∧
      (∀ k t, shardedOne.cache.shard_[k]? = some t → t.heap 100 ≠ none → k = 0) ∧
      shardedOne.cache.shard_.findSome? (fun s => s.heap 100) = some h ∧
      h.hash = (fun _ => 5) h.key ∧ Shard h.hash = 0 ∧
      ∃ s1, s.Release 100 = some s1 ∧
        shardedOne.cache.Release 100 =
          some { shardedOne.cache with shard_ := shardedOne.cache.shard_.set 0 s1 } :=
  ⟨shardedOne_reach, by decide,
    (C18_release_same_shard (fun _ => 5) (fun _ => (by decide : (5 : Nat) < two32)) 160 shardedOne
      shardedOne_reach).2.1 0 100 (by decide)⟩

/-- C19.  In every state of the cache reached from `NewLRUCache(capacity)` by `Insert`,
`Lookup`, `Release`, `Erase` and `NewId` under the handle protocol, for the hash function
`HashSlice` with 32-bit values, every shard satisfies: the handles linked in the chains of
its table are the handles of its LRU list, none twice; no two of them have equal keys; each
is allocated and sits in the chain of bucket `hash & (length_ - 1)`; and `elems_` is their
number.  The table built by the constructor is the result of `Resize`, which returns; and
an `Insert` of a new address returns (when its key is linked or fewer than `2^31` handles
are), so that `assert(elems_ == count)` in `Resize` has held. -/
theorem C19_table_matches_list (HashSlice : Slice → Nat) (hH : ∀ k, HashSlice k < two32)
    (capacity : Nat) (σ : ShardedSys) (hreach : ShardedReach HashSlice capacity σ) :
    (∀ (i : Nat) (s : LRUCache), σ.cache.shard_[i]? = some s →
      (∀ p, p ∈ s.table_.entries ↔ p ∈ s.lru_) ∧
      s.table_.entries.Nodup ∧ s.lru_.Nodup ∧
      (∀ p q hp hq, p ∈ s.table_.entries → q ∈ s.table_.entries →
        s.heap p = some hp → s.heap q = some hq → hp.key = hq.key → p = q) ∧
      (∀ b p, p ∈ s.table_.chain b →
        ∃ hd, s.heap p = some hd ∧ hd.hash &&& (s.table_.length_ - 1) = b) ∧
      (∀ p, p ∈ s.table_.entries ↔
        ∃ hd, s.heap p = some hd ∧ p ∈ s.table_.chain (hd.hash &&& (s.table_.length_ - 1))) ∧
      s.table_.elems_ = s.table_.entries.length) ∧
    (HandleTable.mk 0 0 []).Resize (fun _ => none) = some HandleTable.new ∧
    (∀ (e : Ptr) (key : Slice) (value charge deleter : Nat) (s : LRUCache),
      σ.cache.shard_[Shard (HashSlice key)]? = some s → s.heap e = none →
      (s.table_.Lookup s.heap key (HashSlice key) = none → s.table_.elems_ < 2147483648) →
      ∃ c2, σ.cache.Insert HashSlice e key value charge deleter = some (e, c2)) := by
  have inv := hreach.shardedInv hH
  refine ⟨?_, ?_, ?_⟩
  · intro i s hs
    have ci := (inv.shard i s hs).cache
    refine ⟨fun p => ci.perm.mem_iff, ci.table.nodup, ci.nodup, ?_, ci.table.bucket, ?_,
      ci.table.elems⟩
    · intro p q hp hq hpm hqm hhp hhq hkey
      apply ci.table.distinct p q hpm hqm
      rw [kh_some hhp, kh_some hhq]
      have e1 := (inv.routed i s p hp hs hhp).1
      have e2 := (inv.routed i s q hq hs hhq).1
      rw [e1, e2, hkey]
    · intro p
      rw [ci.table.mem_entries p]
      constructor
      · rintro ⟨hd, h1, h2⟩
        exact ⟨hd, h1, by rw [← ci.table.bucket_eq]; exact h2⟩
      · rintro ⟨hd, h1, h2⟩
        exact ⟨hd, h1, by rw [ci.table.bucket_eq]; exact h2⟩
  · rfl
  · intro e key value charge deleter s hs hfresh hsz
    obtain ⟨s7, h7⟩ := insert_returns (inv.shard _ s hs).cache hfresh key (HashSlice key)
      value charge deleter hsz
    have h7 : s.Insert e key (HashSlice key) value charge deleter = some (e, s7) := h7
    refine ⟨{ σ.cache with shard_ := σ.cache.shard_.set (Shard (HashSlice key)) s7 }, ?_⟩
    unfold ShardedLRUCache.Insert
    simp only [hs, h7]

/-- C19, witness: shard `0` of the cache that holds one entry. -/
theorem C19_table_matches_list_witness :
    ShardedReach (fun _ => 5) 160 shardedOne ∧
    shardedOne.cache.shard_[0]? = some (oneEntryShard 2) ∧
    (∀ p, p ∈ (oneEntryShard 2).table_.entries ↔ p ∈ (oneEntryShard 2).lru_) ∧
    (oneEntryShard 2).table_.entries.Nodup ∧ (oneEntryShard 2).lru_.Nodup :=
  ⟨shardedOne_reach, shardedOne_shard,
    ((C19_table_matches_list (fun _ => 5) (fun _ => (by decide : (5 : Nat) < two32)) 160 shardedOne
      shardedOne_reach).1 0 (oneEntryShard 2) shardedOne_shard).1,
    ((C19_table_matches_list (fun _ => 5) (fun _ => (by decide : (5 : Nat) < two32)) 160 shardedOne
      shardedOne_reach).1 0 (oneEntryShard 2) shardedOne_shard).2.1,
    ((C19_table_matches_list (fun _ => 5) (fun _ => (by decide : (5 : Nat) < two32)) 160 shardedOne
      shardedOne_reach).1 0 (oneEntryShard 2) shardedOne_shard).2.2.1⟩

/-- C2, counterexample.  Two reachable shards of capacity `10` where the claim fails.
First: `Insert` of an entry with charge `2^64 - 1` (evicted at once, its handle still held),
`Insert` of key `[2]` with charge `2` (the usage counter wraps to `1`), `Release` of that
handle.  Now `usage + 0 ≤ capacity`, yet `Insert` of key `[2]` with charge `0` frees the old
entry, the usage counter wraps to `2^64 - 1`, the new entry is evicted and the following
`Lookup` of key `[2]` is absent.  Second: `Insert` of key `[1]` with charge `3` and
`2^32 - 2` hits of `Lookup` without a `Release` leave the entry cached with reference count
`0`; the usage counter is `3`, the sum of the cached charges, and `3 + 1 ≤ 10`, yet `Insert`
of key `[1]` with charge `1` does not return: `Unref` of the replaced entry stops at
`assert(e->refs > 0)`. -/
theorem C2_counterexample :
    (∃ σ : Sys, Reach 10 σ ∧ σ.cache.heap 102 = none ∧
      σ.cache.usage_ + 0 ≤ σ.cache.capacity_ ∧
      (σ.cache.Insert 102 [2] 6 79 0 0).map (fun r => (r.1, (r.2.Lookup [2] 6).1))
        = some (102, none)) ∧
    (Reach 10 ⟨oneEntryShard 4294967295, List.replicate 4294967293 100 ++ [100]⟩ ∧
      (oneEntryShard 4294967295).Lookup [1] 5 = (some 100, oneEntryShard 0) ∧
      (oneEntryShard 0).heap 101 = none ∧
      (oneEntryShard 0).usage_ = ((oneEntryShard 0).lru_.map
        (chargeOf (oneEntryShard 0).heap)).sum ∧
      (oneEntryShard 0).usage_ + 1 ≤ (oneEntryShard 0).capacity_ ∧
      ((oneEntryShard 0).Insert 101 [1] 5 78 1 0).isNone = true) := by
  have r1 := (@Reach.init 10).insertRun 100 [1] 5 77 (two64 - 1) 0
    (by decide!) (by decide!) (by decide!) (by decide!)
  have r2 := r1.insertRun 101 [2] 6 78 2 0 (by decide!) (by decide!) (by decide!) (by decide!)
  have r3 := r2.releaseRun 101 (by decide!) (by decide!)
  exact ⟨⟨_, r3, by decide!, by decide!, by decide!⟩,
    oneEntryShard_reach 4294967293 (by decide), oneEntryShard_wrap, by decide!, by decide!,
    by decide!, by decide!⟩

/-- C2, as amended.  For every state of a shard that satisfies the structural invariant
(the table links exactly the entries of the LRU list, each allocated with a reference count
`≥ 1`; every state reached without a reference count wrapping is such a state), whose
capacity is a `size_t` value, whose usage counter has not wrapped (it is at least the sum of
the charges of the cached entries) and whose table, if `K` is not cached, holds fewer than
`2^31` entries: for every key `K` (cached or not), value `V` and charge `c` with
`usage + c ≤ capacity`, `Insert(K, hash, V, c, d)` returns the handle of the new entry, and
the following `Lookup(K, hash)` returns that same handle, whose value is `V` (so after
`Insert(K, V1)` and `Insert(K, V2)` it is the entry of `V2` that is found, not that of
`V1`). -/
theorem C2_insert_then_lookup (s : LRUCache) (inv : CacheInv s) (hcap : s.capacity_ < two64)
    (e : Ptr) (hfresh : s.heap e = none)
    (key : Slice) (hash value charge deleter : Nat)
    (hnowrap : (s.lru_.map (chargeOf s.heap)).sum ≤ s.usage_)
    (hsz : s.table_.Lookup s.heap key hash = none → s.table_.elems_ < 2147483648)
    (hfit : s.usage_ + charge ≤ s.capacity_) :
    ∃ s1, s.Insert e key hash value charge deleter = some (e, s1) ∧
      (∃ h, s1.heap e = some h ∧ h.value = value ∧ h.key = key) ∧
      (s1.Lookup key hash).1 = some e ∧
      (∀ old, s.table_.Lookup s.heap key hash = some old → (s1.Lookup key hash).1 ≠ some old) ∧
      ∃ h, (s1.Lookup key hash).2.heap e = some h ∧ h.value = value := by
  obtain ⟨s1, h1, -, h3, h4, h5⟩ :=
    insert_then_lookup inv hfresh key hash value charge deleter hsz hcap hnowrap hfit
  refine ⟨s1, h1, ⟨_, h3, rfl, rfl⟩, h4, ?_, _, h5, rfl⟩
  intro old hold
  rw [h4]
  obtain ⟨ho, hho, -, -⟩ := table_lookup_live hold
  intro hc
  cases hc
  rw [hfresh] at hho
  cases hho

/-- C2, witness: in the shard that caches key `[1]` with value `77` at address `100`, the
handle still held, `Insert` of key `[1]` with value `78` at address `101` replaces the
entry, and `Lookup` of key `[1]` returns the new handle `101` with value `78`, not
`100`. -/
theorem C2_insert_then_lookup_witness :
    (oneEntryShard 2).table_.Lookup (oneEntryShard 2).heap [1] 5 = some 100 ∧
    ∃ s1, (oneEntryShard 2).Insert 101 [1] 5 78 1 0 = some (101, s1) ∧
      (∃ h, s1.heap 101 = some h ∧ h.value = 78 ∧ h.key = [1]) ∧
      (s1.Lookup [1] 5).1 = some 101 ∧
      (∀ old, (oneEntryShard 2).table_.Lookup (oneEntryShard 2).heap [1] 5 = some old →
        (s1.Lookup [1] 5).1 ≠ some old) ∧
      ∃ h, (s1.Lookup [1] 5).2.heap 101 = some h ∧ h.value = 78 :=
  ⟨by decide!,
    C2_insert_then_lookup (oneEntryShard 2) (oneEntryShard_reach 0 (by decide)).inv.cache
      (by decide) 101 (by decide!) [1] 5 78 1 0 (by decide!) (fun _ => by decide!)
      (by decide!)⟩

/-- While the charges of the held entries outside the list exceed the capacity, and the sum
of all charges with the new one does not overflow `size_t`, `Insert` evicts the whole list,
its own new entry included. -/
theorem held_charges_evict_all {capacity : Nat} {σ : Sys} (hreach : Reach capacity σ)
    {e : Ptr} (hfresh : σ.cache.heap e = none) (key : Slice) {hash : Nat}
    (hhash : hash < two32) (value charge deleter : Nat)
    (hsz : σ.cache.table_.Lookup σ.cache.heap key hash = none →
      σ.cache.table_.elems_ < 2147483648)
    (hover : (∑ p in (σ.cache.lru_ ++ σ.handles).toFinset, chargeOf σ.cache.heap p) + charge <
      two64)
    (hheld : capacity < ∑ p in (σ.handles.toFinset \ σ.cache.lru_.toFinset),
      chargeOf σ.cache.heap p) :
    ∃ s7, σ.cache.Insert e key hash value charge deleter = some (e, s7) ∧
      s7.lru_ = [] ∧ s7.table_.entries = [] ∧ (s7.Lookup key hash).1 = none ∧
      ∃ h, s7.heap e = some h ∧ h.refs = 1 := by
  have inv := hreach.inv
  obtain ⟨s7, hret, inv7, hexit⟩ := insert_exit inv.cache hfresh key hash value charge deleter hsz
  have hst : Step σ ⟨s7, e :: σ.handles⟩ :=
    Step.insert σ e key hash value charge deleter s7 hfresh hhash (by omega) hret
  have hreach7 : Reach capacity ⟨s7, e :: σ.handles⟩ := Reach.step _ _ hreach hst
  have invτ := hreach7.inv
  have hcap : s7.capacity_ = capacity := hreach7.capacity
  obtain ⟨-, -, U, -, u2, u3, -, u5⟩ := insert_summary inv.cache hfresh hret
  have u3 : s7.heap = unrefHeap
      (σ.cache.heap.store e ⟨value, deleter, charge, key, 2, hash⟩) U := u3
  have u5 : ∀ q, q ∈ s7.lru_ ↔ (q ∈ σ.cache.lru_ ∨ q = e) ∧ q ∉ U := u5
  obtain ⟨hel, heH, -⟩ := inv.acct.dead e hfresh
  have hu7 : s7.usage_ =
      (∑ p in (s7.lru_ ++ (e :: σ.handles)).toFinset, chargeOf s7.heap p) % two64 := by
    have := invτ.acct.usage
    rw [List.append_nil] at this
    exact this
  -- upper bound
  have hsub1 : (s7.lru_ ++ (e :: σ.handles)).toFinset ⊆
      insert e (σ.cache.lru_ ++ σ.handles).toFinset := by
    intro q hq
    simp only [List.mem_toFinset, List.mem_append, List.mem_cons, Finset.mem_insert] at hq ⊢
    rcases hq with hq | hq | hq
    · rcases ((u5 q).1 hq).1 with h | h
      · exact Or.inr (Or.inl h)
      · exact Or.inl h
    · exact Or.inl hq
    · exact Or.inr (Or.inr hq)
  have heF : e ∉ (σ.cache.lru_ ++ σ.handles).toFinset := by
    simp only [List.mem_toFinset, List.mem_append]
    rintro (h | h)
    · exact hel h
    · exact heH h
  have hupper : ∑ p in (s7.lru_ ++ (e :: σ.handles)).toFinset, chargeOf s7.heap p ≤
      charge + ∑ p in (σ.cache.lru_ ++ σ.handles).toFinset, chargeOf σ.cache.heap p := by
    calc ∑ p in (s7.lru_ ++ (e :: σ.handles)).toFinset, chargeOf s7.heap p
        ≤ ∑ p in insert e (σ.cache.lru_ ++ σ.handles).toFinset, chargeOf s7.heap p :=
          Finset.sum_le_sum_of_subset hsub1
      _ ≤ ∑ p in insert e (σ.cache.lru_ ++ σ.handles).toFinset,
            chargeOf (σ.cache.heap.store e ⟨value, deleter, charge, key, 2, hash⟩) p := by
          apply Finset.sum_le_sum
          intro q _
          rw [u3]
          exact chargeOf_unrefHeap_le _ _ _
      _ = charge + ∑ p in (σ.cache.lru_ ++ σ.handles).toFinset, chargeOf σ.cache.heap p := by
          rw [Finset.sum_insert heF]
          congr 1
          · unfold chargeOf; rw [Heap.store_self]
          · apply Finset.sum_congr rfl
            intro q hq
            have hqe : q ≠ e := fun hc => heF (hc ▸ hq)
            unfold chargeOf
            rw [Heap.store_ne _ _ hqe]
  -- lower bound
  have hsub2 : (σ.handles.toFinset \ σ.cache.lru_.toFinset) ⊆
      (s7.lru_ ++ (e :: σ.handles)).toFinset := by
    intro q hq
    simp only [Finset.mem_sdiff, List.mem_toFinset] at hq
    simp only [List.mem_toFinset, List.mem_append, List.mem_cons]
    exact Or.inr (Or.inr hq.1)
  have hlower : ∑ p in (σ.handles.toFinset \ σ.cache.lru_.toFinset),
        chargeOf σ.cache.heap p ≤
      ∑ p in (s7.lru_ ++ (e :: σ.handles)).toFinset, chargeOf s7.heap p := by
    calc ∑ p in (σ.handles.toFinset \ σ.cache.lru_.toFinset), chargeOf σ.cache.heap p
        = ∑ p in (σ.handles.toFinset \ σ.cache.lru_.toFinset), chargeOf s7.heap p := by
          apply Finset.sum_congr rfl
          intro q hq
          simp only [Finset.mem_sdiff, List.mem_toFinset] at hq
          have hqe : q ≠ e := fun hc => heH (hc ▸ hq.1)
          have hqU : q ∉ U := by
            intro hc
            rcases u2 q hc with h | h
            · exact hq.2 h
            · exact hqe h
          unfold chargeOf
          rw [u3]
          simp only [unrefHeap, hqU, if_false]
          rw [Heap.store_ne _ _ hqe]
      _ ≤ ∑ p in (s7.lru_ ++ (e :: σ.handles)).toFinset, chargeOf s7.heap p :=
          Finset.sum_le_sum_of_subset hsub2
  have hbig : capacity < s7.usage_ := by
    rw [hu7, Nat.mod_eq_of_lt (by omega)]
    omega
  have hnil : s7.lru_ = [] := by
    rcases hexit with h | h
    · rw [hcap] at h; omega
    · exact h
  have hent : s7.table_.entries = [] := by
    have := inv7.perm
    rw [hnil] at this
    exact List.perm_nil.1 this
  refine ⟨s7, hret, hnil, hent, ?_, ?_⟩
  · rw [lookup_fst]
    rw [inv7.table.lookup_eq_none_iff]
    intro p hp
    rw [hent] at hp
    cases hp
  · obtain ⟨h, g1, g2, -⟩ := insert_new_handle inv.cache hfresh hret
    refine ⟨h, g1, ?_⟩
    rw [g2, if_neg]
    show e ∉ s7.lru_
    rw [hnil]; simp

theorem oneEntryShard_refs (n : Nat) (p : Ptr) (h : LRUHandle)
    (hh : (oneEntryShard n).heap p = some h) : p = 100 ∧ h.refs = n := by
  unfold oneEntryShard Heap.store at hh
  simp only at hh
  by_cases hp : p = 100
  · rw [if_pos hp] at hh
    cases hh
    exact ⟨hp, rfl⟩
  · rw [if_neg hp] at hh
    cases hh

/-- C9, counterexample.  In a shard of capacity `10`, `Insert` of an entry with charge `20`
evicts it at once while its handle is held: the state reached has an empty LRU list and an
empty table, the entry is still allocated, and the usage counter is `20`, not the sum `0` of
the charges of the listed entries; the held entry then makes the next `Insert`, of charge
`1`, evict its own new entry.  That a removed entry stays allocated and charged while it is
held does not survive a wrap of the reference count either: after `Insert` of key `[1]`
(charge `3`) and `2^32 - 1` hits of `Lookup` without a `Release` the count is `1`, and
`Erase` of the key frees the entry and leaves the usage counter at `0` while `2^32` handles
are outstanding. -/
theorem C9_counterexample :
    (Reach 10 ⟨(LRUCache.new.SetCapacity 10).afterInsert 100 [1] 5 77 20 0, [100]⟩ ∧
    ((LRUCache.new.SetCapacity 10).afterInsert 100 [1] 5 77 20 0).lru_ = [] ∧
    ((LRUCache.new.SetCapacity 10).afterInsert 100 [1] 5 77 20 0).table_.entries = [] ∧
    (((LRUCache.new.SetCapacity 10).afterInsert 100 [1] 5 77 20 0).heap 100).isSome = true ∧
    ((LRUCache.new.SetCapacity 10).afterInsert 100 [1] 5 77 20 0).usage_ = 20 ∧
    ((((LRUCache.new.SetCapacity 10).afterInsert 100 [1] 5 77 20 0).lru_.map
      (chargeOf ((LRUCache.new.SetCapacity 10).afterInsert 100 [1] 5 77 20 0).heap)).sum = 0) ∧
    (((LRUCache.new.SetCapacity 10).afterInsert 100 [1] 5 77 20 0).Insert 101 [2] 6 78 1 0).map
      (fun r => (r.2.lru_, r.2.usage_)) = some ([], 21)) ∧
    (Reach 10 ⟨oneEntryShard 4294967295, List.replicate 4294967293 100 ++ [100]⟩ ∧
      (oneEntryShard 4294967295).Lookup [1] 5 = (some 100, oneEntryShard 0) ∧
      (oneEntryShard 0).Lookup [1] 5 = (some 100, oneEntryShard 1) ∧
      ((oneEntryShard 1).Erase [1] 5).map
          (fun s => (s.lru_, s.table_.entries, (s.heap 100).isSome, s.usage_)) =
        some ([], [], false, 0)) :=
  ⟨⟨(@Reach.init 10).insertRun 100 [1] 5 77 20 0 (by decide!) (by decide!) (by decide!)
      (by decide!),
    by decide!, by decide!, by decide!, by decide!, by decide!, by decide!⟩,
    oneEntryShard_reach 4294967293 (by decide), oneEntryShard_wrap, oneEntryShard_wrap2,
    by decide!⟩

/-- C9, as amended.  In every state of a shard reached under the handle protocol without a
reference count wrapping (a `Lookup` hits an entry only while its count stays below `2^32`),
an entry that has been removed from the table and the LRU list (evicted, replaced or erased)
while a caller handle to it is outstanding stays allocated and its charge stays in the usage
counter: `usage_` equals, in `size_t` arithmetic, the sum of the charges of the entries in
the LRU list plus the charges of the removed entries that callers still hold; it is the sum
over the LRU list alone when every held handle is on a listed entry.  So a held removed
entry can cause further evictions: when the charges of the held entries outside the list
exceed the capacity, and the sum of all charges with the new one does not overflow `size_t`,
an `Insert` (of a 32-bit hash; of a cached key or with fewer than `2^31` entries in the
table) returns having evicted every listed entry and its own new entry. -/
theorem C9_usage_accounting (capacity : Nat) (σ : Sys) (hreach : Reach capacity σ) :
    σ.cache.usage_ =
      ((σ.cache.lru_.map (chargeOf σ.cache.heap)).sum +
        ∑ p in (σ.handles.toFinset \ σ.cache.lru_.toFinset), chargeOf σ.cache.heap p) % two64 ∧
    (∀ p ∈ σ.handles, ∃ h, σ.cache.heap p = some h ∧ 1 ≤ h.refs) ∧
    ((∀ p ∈ σ.handles, p ∈ σ.cache.lru_) →
      σ.cache.usage_ = (σ.cache.lru_.map (chargeOf σ.cache.heap)).sum % two64) ∧
    (∀ e key hash value charge deleter, σ.cache.heap e = none → hash < two32 →
      (σ.cache.table_.Lookup σ.cache.heap key hash = none →
        σ.cache.table_.elems_ < 2147483648) →
      (∑ p in (σ.cache.lru_ ++ σ.handles).toFinset, chargeOf σ.cache.heap p) + charge <
        two64 →
      capacity < ∑ p in (σ.handles.toFinset \ σ.cache.lru_.toFinset),
        chargeOf σ.cache.heap p →
      ∃ s7, σ.cache.Insert e key hash value charge deleter = some (e, s7) ∧
        s7.lru_ = [] ∧ s7.table_.entries = []) := by
  refine ⟨usage_formula hreach, fun p hp => hreach.inv.acct.refLive (Or.inr (Or.inl hp)), ?_,
    ?_⟩
  · intro hsub
    have hempty : σ.handles.toFinset \ σ.cache.lru_.toFinset = ∅ := by
      ext x
      simp only [Finset.mem_sdiff, List.mem_toFinset, Finset.not_mem_empty, iff_false, not_and,
        not_not]
      exact hsub x
    have := usage_formula hreach
    rw [hempty, Finset.sum_empty, Nat.add_zero] at this
    exact this
  · intro e key hash value charge deleter hfresh hhash hsz hover hheld
    obtain ⟨s7, a1, a2, a3, -⟩ :=
      held_charges_evict_all hreach hfresh key hhash value charge deleter hsz hover hheld
    exact ⟨s7, a1, a2, a3⟩

/-- C9, witness: in the state in which an entry of charge `20` is held after its eviction
from a shard of capacity `10`, the entry is allocated, and the next `Insert` evicts its own
entry. -/
theorem C9_usage_accounting_witness :
    Reach 10 ⟨(LRUCache.new.SetCapacity 10).afterInsert 100 [1] 5 77 20 0, [100]⟩ ∧
    (∃ h, ((LRUCache.new.SetCapacity 10).afterInsert 100 [1] 5 77 20 0).heap 100 = some h ∧
        1 ≤ h.refs) ∧
    ∃ s7, ((LRUCache.new.SetCapacity 10).afterInsert 100 [1] 5 77 20 0).Insert
        101 [2] 6 78 1 0 = some (101, s7) ∧ s7.lru_ = [] ∧ s7.table_.entries = [] :=
  ⟨(@Reach.init 10).insertRun 100 [1] 5 77 20 0 (by decide!) (by decide!) (by decide!)
      (by decide!),
    (C9_usage_accounting 10 ⟨(LRUCache.new.SetCapacity 10).afterInsert 100 [1] 5 77 20 0, [100]⟩
      ((@Reach.init 10).insertRun 100 [1] 5 77 20 0 (by decide!) (by decide!) (by decide!)
        (by decide!))).2.1 100 (by decide),
    (C9_usage_accounting 10 ⟨(LRUCache.new.SetCapacity 10).afterInsert 100 [1] 5 77 20 0, [100]⟩
      ((@Reach.init 10).insertRun 100 [1] 5 77 20 0 (by decide!) (by decide!) (by decide!)
        (by decide!))).2.2.2 101 [2] 6 78 1 0 (by decide!) (by decide) (fun _ => by decide!)
      (by decide!) (by decide!)⟩

/-- C20, counterexample.  The shard reached by `Insert` of one entry of charge `3` and
`2^32 - 3` hits of `Lookup`, all handles held, has the reference count `2^32 - 1`; one more
hit of `Lookup` leaves the count at `0`.  In the state reached the usage counter is `3`,
the entry is in the LRU list, and no allocated entry has a reference count `> 0`: the sum of
the charges of the entries with a count `> 0` is `0`, not `3`. -/
theorem C20_counterexample :
    Reach 10 ⟨oneEntryShard 4294967295, List.replicate 4294967293 100 ++ [100]⟩ ∧
    (oneEntryShard 4294967295).Lookup [1] 5 = (some 100, oneEntryShard 0) ∧
    (oneEntryShard 0).usage_ = 3 ∧ (oneEntryShard 0).lru_ = [100] ∧
    (∀ p h, (oneEntryShard 0).heap p = some h → ¬ 0 < h.refs) :=
  ⟨oneEntryShard_reach 4294967293 (by decide), oneEntryShard_wrap, rfl, rfl,
    fun p h hh => by rw [(oneEntryShard_refs 0 p h hh).2]; decide⟩

/-- C20, as amended.  In every shard state reached under the handle protocol without a
reference count wrapping (a `Lookup` hits an entry only while its count stays below `2^32`):
`usage_` is, in `size_t` arithmetic, the sum of the charges of the entries that are in the
LRU list or held by a caller; these are exactly the allocated entries, and exactly the
entries with a reference count `> 0`; no operation changes the charge of an entry that
stays allocated.  Consequently, when the charges of the held entries outside the list
exceed the capacity and the sum of all charges with the new one does not overflow `size_t`,
an `Insert` (of a 32-bit hash, into a table where its `Resize` terminates) returns with the
LRU list and the table empty: it has evicted every listed entry and the entry it has just
inserted, which stays allocated with count `1` for the returned handle. -/
theorem C20_usage_counts_held (capacity : Nat) (σ : Sys) (hreach : Reach capacity σ) :
    σ.cache.usage_ =
      (∑ p in (σ.cache.lru_ ++ σ.handles).toFinset, chargeOf σ.cache.heap p) % two64 ∧
    (∀ p, (∃ h, σ.cache.heap p = some h ∧ 0 < h.refs) ↔
      p ∈ σ.cache.lru_ ∨ p ∈ σ.handles) ∧
    (∀ p h, σ.cache.heap p = some h → 0 < h.refs) ∧
    (∀ τ, Step σ τ → ∀ p h h2, σ.cache.heap p = some h → τ.cache.heap p = some h2 →
      h2.charge = h.charge) ∧
    (∀ e key hash value charge deleter, σ.cache.heap e = none → hash < two32 →
      (σ.cache.table_.Lookup σ.cache.heap key hash = none →
        σ.cache.table_.elems_ < 2147483648) →
      (∑ p in (σ.cache.lru_ ++ σ.handles).toFinset, chargeOf σ.cache.heap p) + charge <
        two64 →
      capacity < ∑ p in (σ.handles.toFinset \ σ.cache.lru_.toFinset),
        chargeOf σ.cache.heap p →
      ∃ s7, σ.cache.Insert e key hash value charge deleter = some (e, s7) ∧
        s7.lru_ = [] ∧ s7.table_.entries = [] ∧ (s7.Lookup key hash).1 = none ∧
        ∃ h, s7.heap e = some h ∧ h.refs = 1) := by
  have inv := hreach.inv
  have husage : σ.cache.usage_ =
      (∑ p in (σ.cache.lru_ ++ σ.handles).toFinset, chargeOf σ.cache.heap p) % two64 := by
    have := inv.acct.usage
    rw [List.append_nil] at this
    exact this
  refine ⟨husage, ?_, ?_, ?_, ?_⟩
  · intro p
    constructor
    · rintro ⟨h, hh, -⟩
      have := inv.acct.refs p h hh
      simp only [List.count_nil, Nat.add_zero] at this
      by_cases hl : p ∈ σ.cache.lru_
      · exact Or.inl hl
      · right
        rw [if_neg hl] at this
        exact List.count_pos_iff.1 (by omega)
    · intro hp
      have hp' : p ∈ σ.cache.lru_ ∨ p ∈ σ.handles ∨ p ∈ ([] : List Ptr) := by
        rcases hp with h | h
        · exact Or.inl h
        · exact Or.inr (Or.inl h)
      obtain ⟨h, hh, hr⟩ := inv.acct.refLive hp'
      exact ⟨h, hh, hr⟩
  · intro p h hh
    exact (inv.acct.refs p h hh).2
  · intro τ st p h h2 h1 hp
    exact (step_fields inv st h1 hp).2.2.1
  · intro e key hash value charge deleter hfresh hhash hsz hover hheld
    exact held_charges_evict_all hreach hfresh key hhash value charge deleter hsz hover hheld

/-- C20, witness: the state in which an entry of charge `20` is held after its eviction
from a shard of capacity `10`; the next `Insert` evicts its own entry. -/
theorem C20_usage_counts_held_witness :
    Reach 10 ⟨(LRUCache.new.SetCapacity 10).afterInsert 100 [1] 5 77 20 0, [100]⟩ ∧
    ∃ s7, ((LRUCache.new.SetCapacity 10).afterInsert 100 [1] 5 77 20 0).Insert
        101 [2] 6 78 1 0 = some (101, s7) ∧
      s7.lru_ = [] ∧ s7.table_.entries = [] ∧ (s7.Lookup [2] 6).1 = none ∧
      ∃ h, s7.heap 101 = some h ∧ h.refs = 1 :=
  ⟨(@Reach.init 10).insertRun 100 [1] 5 77 20 0 (by decide!) (by decide!) (by decide!)
      (by decide!),
    (C20_usage_counts_held 10
      ⟨(LRUCache.new.SetCapacity 10).afterInsert 100 [1] 5 77 20 0, [100]⟩
      ((@Reach.init 10).insertRun 100 [1] 5 77 20 0 (by decide!) (by decide!) (by decide!)
        (by decide!))).2.2.2.2 101 [2] 6 78 1 0 (by decide!) (by decide) (fun _ => by decide!)
      (by decide!) (by decide!)⟩

end leveldb
